import Mathlib

/-!
# SmartPointers: control blocks, `SharedPtr`, `WeakPtr`

A shallow embedding of `sw_fwd.h`, `shared.h` and `weak.h`.

* Memory is explicit: `Mem` holds the heap of control blocks and the heap of
  managed objects.  A control-block pointer is `Option Nat` (`none` is
  `nullptr`), an object pointer is a `Nat` (`0` is `nullptr`, the object with
  address `p > 0` is `objects p`).
* The counters are the C++ `int` fields, embedded as `Int`; signed overflow
  (more than `2^31 - 1` references to one block) is outside the model.
* `delete this` does not erase the block from the model: the block keeps its
  last contents and its `log` records the hooks that ran on it, in order, so
  that a second invocation of a hook is observable.  Block ids are never
  reused.
* The class templates are instantiated at one element type `T`; the trait
  `std::is_base_of_v<EnableSharedFromThisBase, T>` is the Boolean `esft`.
  An object of type `T` holds no handle other than the member `self` of
  `EnableSharedFromThis<T>`, and a handle passed by reference is not
  destroyed during the call.  The section `Graph` has neither restriction:
  there objects have handle members, handles are read where they live, and
  `delete this` releases the block.
* A dereference of a null pointer is the result `none`.
-/

namespace SmartPointers

/-- The two hooks of `ControlBlock`, as entries of a block's log. -/
inductive Hook where
  | OnZeroShared
  | OnZeroWeak
deriving DecidableEq, Repr

/-- Which of the two derived classes a block is an instance of. -/
inductive BlockKind where
  | Pointer
  | Emplace
deriving DecidableEq, Repr

/-- `WeakPtr<T>`: the fields `ptr_` and `control_block_`. -/
structure WeakPtr where
  ptr_ : Nat := 0
  control_block_ : Option Nat := none
deriving DecidableEq, Repr

/-- `SharedPtr<T>`: the fields `ptr_` and `control_block_`. -/
structure SharedPtr where
  ptr_ : Nat := 0
  control_block_ : Option Nat := none
deriving DecidableEq, Repr

/-- `ControlBlock` with the members of its derived classes.
`ptr_` is `PointerControlBlock::ptr_`; for an `EmplaceControlBlock` it is the
address `GetRawPtr()` of the in-place storage.  `esft` is the trait of the
block's template argument.  `log` is ghost state: the hooks invoked so far. -/
structure ControlBlock where
  shared_count_ : Int := 1
  weak_count_ : Int := 0
  kind : BlockKind := BlockKind.Pointer
  esft : Bool := false
  ptr_ : Nat := 0
  log : List Hook := []
deriving DecidableEq, Repr

/-- A managed object of type `T`.  `self` is the member of
`EnableSharedFromThis<T>` (left empty when `T` lacks the capability);
`dtor_runs` counts the runs of the destructor `~T()`. -/
structure Object where
  self : WeakPtr := {}
  dtor_runs : Nat := 0
deriving DecidableEq, Repr

/-- The heap: control blocks by id, objects by address, and the number of
blocks and objects allocated so far. -/
structure Mem where
  blocks : Nat → ControlBlock := fun _ => {}
  nblocks : Nat := 0
  objects : Nat → Object := fun _ => {}
  nobjects : Nat := 0

/-- Number of times `OnZeroShared` ran on a block. -/
def ControlBlock.zeroShared (c : ControlBlock) : Nat :=
  c.log.count Hook.OnZeroShared

/-- Number of times `OnZeroWeak` ran on a block. -/
def ControlBlock.zeroWeak (c : ControlBlock) : Nat :=
  c.log.count Hook.OnZeroWeak

/-- The block was released (`delete this` ran on it). -/
def ControlBlock.freed (c : ControlBlock) : Bool :=
  decide (Hook.OnZeroWeak ∈ c.log)

/-- Apply `f` to the block with id `b`. -/
def Mem.modifyBlock (m : Mem) (b : Nat) (f : ControlBlock → ControlBlock) : Mem :=
  { m with blocks := Function.update m.blocks b (f (m.blocks b)) }

/-- Apply `f` to the object at address `p`. -/
def Mem.modifyObject (m : Mem) (p : Nat) (f : Object → Object) : Mem :=
  { m with objects := Function.update m.objects p (f (m.objects p)) }

/-! ## `sw_fwd.h`: the control blocks -/

/-- `ControlBlock::IncrementShared`. -/
def IncrementShared (m : Mem) (b : Nat) : Mem :=
  m.modifyBlock b (fun c => { c with shared_count_ := c.shared_count_ + 1 })

/-- `ControlBlock::IncrementWeak`. -/
def IncrementWeak (m : Mem) (b : Nat) : Mem :=
  m.modifyBlock b (fun c => { c with weak_count_ := c.weak_count_ + 1 })

/-- The destructor `~T()` on the object at `p`, for a type `T` without
`SharedPtr` or `WeakPtr` members: `~EnableSharedFromThis` sets
`self.control_block_ = nullptr`, after which `~WeakPtr` on `self` finds no
block and decrements nothing.  The destructor of a type with handle members
is `Graph.destructor`. -/
def destroyObject (m : Mem) (p : Nat) : Mem :=
  m.modifyObject p (fun o =>
    { self := { o.self with control_block_ := none }, dtor_runs := o.dtor_runs + 1 })

/-- `PointerControlBlock::OnZeroShared`: `obj = ptr_; ptr_ = nullptr; delete obj`
(deleting a null pointer does nothing). -/
def PointerControlBlock.OnZeroShared (m : Mem) (b : Nat) : Mem :=
  let obj := (m.blocks b).ptr_
  let m1 := m.modifyBlock b (fun c => { c with ptr_ := 0, log := c.log ++ [Hook.OnZeroShared] })
  if obj = 0 then m1 else destroyObject m1 obj

/-- `EmplaceControlBlock::OnZeroShared`: `GetRawPtr()->~T()`. -/
def EmplaceControlBlock.OnZeroShared (m : Mem) (b : Nat) : Mem :=
  let m1 := m.modifyBlock b (fun c => { c with log := c.log ++ [Hook.OnZeroShared] })
  destroyObject m1 (m1.blocks b).ptr_

/-- `OnZeroWeak` of both derived classes: `delete this`. -/
def OnZeroWeak (m : Mem) (b : Nat) : Mem :=
  m.modifyBlock b (fun c => { c with log := c.log ++ [Hook.OnZeroWeak] })

/-- The virtual call `OnZeroShared()`, dispatched on the block's class. -/
def OnZeroShared (m : Mem) (b : Nat) : Mem :=
  match (m.blocks b).kind with
  | BlockKind.Pointer => PointerControlBlock.OnZeroShared m b
  | BlockKind.Emplace => EmplaceControlBlock.OnZeroShared m b

/-- The body of the base-class `ControlBlock::DecrementShared`. -/
def ControlBlock.DecrementShared (m : Mem) (b : Nat) : Mem :=
  let m1 := m.modifyBlock b (fun c => { c with shared_count_ := c.shared_count_ - 1 })
  let m2 := if (m1.blocks b).shared_count_ = 0 then OnZeroShared m1 b else m1
  if (m2.blocks b).weak_count_ = 0 ∧ (m2.blocks b).shared_count_ = 0 then OnZeroWeak m2 b else m2

/-- The body of the base-class `ControlBlock::DecrementWeak`. -/
def ControlBlock.DecrementWeak (m : Mem) (b : Nat) : Mem :=
  let m1 := m.modifyBlock b (fun c => { c with weak_count_ := c.weak_count_ - 1 })
  if (m1.blocks b).weak_count_ = 0 ∧ (m1.blocks b).shared_count_ = 0 then OnZeroWeak m1 b else m1

/-- `PointerControlBlock<T>::DecrementShared`; the last test is compiled in
only when `T` derives from `EnableSharedFromThisBase`. -/
def PointerControlBlock.DecrementShared (m : Mem) (b : Nat) : Mem :=
  let m1 := m.modifyBlock b (fun c => { c with shared_count_ := c.shared_count_ - 1 })
  let m2 := if (m1.blocks b).shared_count_ = 0 then PointerControlBlock.OnZeroShared m1 b else m1
  let m3 :=
    if (m2.blocks b).weak_count_ = 0 ∧ (m2.blocks b).shared_count_ = 0 then OnZeroWeak m2 b else m2
  if (m3.blocks b).esft then
    if (m3.blocks b).weak_count_ = 1 ∧ (m3.blocks b).shared_count_ = 0 then OnZeroWeak m3 b else m3
  else m3

/-- `PointerControlBlock<T>::DecrementWeak`. -/
def PointerControlBlock.DecrementWeak (m : Mem) (b : Nat) : Mem :=
  let m1 := m.modifyBlock b (fun c => { c with weak_count_ := c.weak_count_ - 1 })
  let m2 :=
    if (m1.blocks b).weak_count_ = 0 ∧ (m1.blocks b).shared_count_ = 0 then OnZeroWeak m1 b else m1
  if (m2.blocks b).esft then
    if (m2.blocks b).weak_count_ = 1 ∧ (m2.blocks b).shared_count_ = 0 then OnZeroWeak m2 b else m2
  else m2

/-- `EmplaceControlBlock<T>::DecrementShared`. -/
def EmplaceControlBlock.DecrementShared (m : Mem) (b : Nat) : Mem :=
  let m1 := m.modifyBlock b (fun c => { c with shared_count_ := c.shared_count_ - 1 })
  let m2 := if (m1.blocks b).shared_count_ = 0 then EmplaceControlBlock.OnZeroShared m1 b else m1
  let m3 :=
    if (m2.blocks b).weak_count_ = 0 ∧ (m2.blocks b).shared_count_ = 0 then OnZeroWeak m2 b else m2
  if (m3.blocks b).esft then
    if (m3.blocks b).weak_count_ = 1 ∧ (m3.blocks b).shared_count_ = 0 then OnZeroWeak m3 b else m3
  else m3

/-- `EmplaceControlBlock<T>::DecrementWeak`. -/
def EmplaceControlBlock.DecrementWeak (m : Mem) (b : Nat) : Mem :=
  let m1 := m.modifyBlock b (fun c => { c with weak_count_ := c.weak_count_ - 1 })
  let m2 :=
    if (m1.blocks b).weak_count_ = 0 ∧ (m1.blocks b).shared_count_ = 0 then OnZeroWeak m1 b else m1
  if (m2.blocks b).esft then
    if (m2.blocks b).weak_count_ = 1 ∧ (m2.blocks b).shared_count_ = 0 then OnZeroWeak m2 b else m2
  else m2

/-- The virtual call `control_block_->DecrementShared()`. -/
def DecrementShared (m : Mem) (b : Nat) : Mem :=
  match (m.blocks b).kind with
  | BlockKind.Pointer => PointerControlBlock.DecrementShared m b
  | BlockKind.Emplace => EmplaceControlBlock.DecrementShared m b

/-- The virtual call `control_block_->DecrementWeak()`. -/
def DecrementWeak (m : Mem) (b : Nat) : Mem :=
  match (m.blocks b).kind with
  | BlockKind.Pointer => PointerControlBlock.DecrementWeak m b
  | BlockKind.Emplace => EmplaceControlBlock.DecrementWeak m b

/-- Allocate `new PointerControlBlock<T>(ptr)`: counters `1` and `0`. -/
def newPointerControlBlock (esft : Bool) (m : Mem) (ptr : Nat) : Mem × Nat :=
  ({ m with
      blocks := Function.update m.blocks m.nblocks
        { kind := BlockKind.Pointer, esft := esft, ptr_ := ptr }
      nblocks := m.nblocks + 1 }, m.nblocks)

/-- Allocate `new EmplaceControlBlock<T>(args...)`: the object is constructed
inside the block, at a fresh address. -/
def newEmplaceControlBlock (esft : Bool) (m : Mem) : Mem × Nat :=
  ({ m with
      blocks := Function.update m.blocks m.nblocks
        { kind := BlockKind.Emplace, esft := esft, ptr_ := m.nobjects + 1 }
      nblocks := m.nblocks + 1
      objects := Function.update m.objects (m.nobjects + 1) {}
      nobjects := m.nobjects + 1 }, m.nblocks)

/-! ## `weak.h` and `shared.h`: the handles -/

/-- The statement `if (control_block_) { control_block_->f(); }`. -/
def ifBlock (cb : Option Nat) (f : Mem → Nat → Mem) (m : Mem) : Mem :=
  match cb with
  | some b => f m b
  | none => m

/-- The exception class `BadWeakPtr`. -/
inductive BadWeakPtr where
  | thrown
deriving DecidableEq, Repr

/-- `WeakPtr::Get`. -/
def WeakPtr.Get (this : WeakPtr) : Nat := this.ptr_

/-- `WeakPtr::GetControlBlock`. -/
def WeakPtr.GetControlBlock (this : WeakPtr) : Option Nat := this.control_block_

/-- `SharedPtr::Get`. -/
def SharedPtr.Get (this : SharedPtr) : Nat := this.ptr_

/-- `SharedPtr::GetControlBlock`. -/
def SharedPtr.GetControlBlock (this : SharedPtr) : Option Nat := this.control_block_

/-- `SharedPtr::operator bool`: `ptr_ != nullptr`. -/
def SharedPtr.toBool (this : SharedPtr) : Bool := decide (this.ptr_ ≠ 0)

/-- `SharedPtr::UseCount`: `0` without a block, else `shared_count_` (the
conversion to `size_t` is the identity on the non-negative values). -/
def SharedPtr.UseCount (m : Mem) (this : SharedPtr) : Int :=
  match this.control_block_ with
  | none => 0
  | some b => (m.blocks b).shared_count_

/-- `operator==` on two `SharedPtr`: `left.Get() == right.Get()`. -/
def SharedPtr.eq (left right : SharedPtr) : Bool := decide (left.Get = right.Get)

/-- `WeakPtr::UseCount`. -/
def WeakPtr.UseCount (m : Mem) (this : WeakPtr) : Int :=
  match this.control_block_ with
  | none => 0
  | some b => (m.blocks b).shared_count_

/-- `WeakPtr::Expired`: `!UseCount()`. -/
def WeakPtr.Expired (m : Mem) (this : WeakPtr) : Bool := decide (this.UseCount m = 0)

/-- `WeakPtr(const WeakPtr& other)`, same for the converting template. -/
def WeakPtr.copyCtor (m : Mem) (other : WeakPtr) : Mem × WeakPtr :=
  let this : WeakPtr := { ptr_ := other.ptr_, control_block_ := other.control_block_ }
  (ifBlock this.control_block_ IncrementWeak m, this)

/-- `WeakPtr::Reset`. -/
def WeakPtr.Reset (m : Mem) (this : WeakPtr) : Mem × WeakPtr :=
  (ifBlock this.control_block_ DecrementWeak m, { ptr_ := 0, control_block_ := none })

/-- `WeakPtr(WeakPtr&& other)`: returns the new handle and `other` afterwards. -/
def WeakPtr.moveCtor (m : Mem) (other : WeakPtr) : Mem × WeakPtr × WeakPtr :=
  let this : WeakPtr := { ptr_ := other.Get, control_block_ := other.GetControlBlock }
  let m1 := ifBlock this.control_block_ IncrementWeak m
  let r := WeakPtr.Reset m1 other
  (r.1, this, r.2)

/-- `WeakPtr(const SharedPtr<T>& other)`: demotion. -/
def WeakPtr.ofSharedPtr (m : Mem) (other : SharedPtr) : Mem × WeakPtr :=
  let this : WeakPtr := { ptr_ := other.Get, control_block_ := other.GetControlBlock }
  (ifBlock this.control_block_ IncrementWeak m, this)

/-- `WeakPtr::operator=(const WeakPtr& other)`. -/
def WeakPtr.copyAssign (m : Mem) (this other : WeakPtr) : Mem × WeakPtr :=
  if this.control_block_ = other.control_block_ then
    (m, { this with ptr_ := other.ptr_ })
  else
    let m1 := ifBlock this.control_block_ DecrementWeak m
    let this1 : WeakPtr := { ptr_ := other.ptr_, control_block_ := other.control_block_ }
    (ifBlock this1.control_block_ IncrementWeak m1, this1)

/-- `WeakPtr::operator=(const SharedPtr<T>& other)`. -/
def WeakPtr.assignShared (m : Mem) (this : WeakPtr) (other : SharedPtr) : Mem × WeakPtr :=
  if this.control_block_ = other.GetControlBlock then
    (m, { this with ptr_ := other.Get })
  else
    let m1 := ifBlock this.control_block_ DecrementWeak m
    let this1 : WeakPtr := { ptr_ := other.Get, control_block_ := other.GetControlBlock }
    (ifBlock this1.control_block_ IncrementWeak m1, this1)

/-- `WeakPtr::operator=(WeakPtr&& other)`: returns `*this` and `other`
afterwards. -/
def WeakPtr.moveAssign (m : Mem) (this other : WeakPtr) : Mem × WeakPtr × WeakPtr :=
  if this.control_block_ = other.control_block_ then
    let this1 : WeakPtr := { this with ptr_ := other.ptr_ }
    (ifBlock this1.control_block_ DecrementWeak m, this1, { ptr_ := 0, control_block_ := none })
  else
    let m1 := ifBlock this.control_block_ DecrementWeak m
    (m1, { ptr_ := other.ptr_, control_block_ := other.control_block_ },
      { ptr_ := 0, control_block_ := none })

/-- `WeakPtr::~WeakPtr`. -/
def WeakPtr.dtor (m : Mem) (this : WeakPtr) : Mem :=
  ifBlock this.control_block_ DecrementWeak m

/-- `WeakPtr::Swap`: returns `*this` and `other` afterwards. -/
def WeakPtr.Swap (this other : WeakPtr) : WeakPtr × WeakPtr :=
  ({ ptr_ := other.ptr_, control_block_ := other.control_block_ },
   { ptr_ := this.ptr_, control_block_ := this.control_block_ })

/-- `SharedPtr::EnableSharedFromThisHelper(base)`: `base->self = *this`. -/
def EnableSharedFromThisHelper (m : Mem) (this : SharedPtr) (base : Nat) : Option Mem :=
  if base = 0 then none
  else
    let r := WeakPtr.assignShared m (m.objects base).self this
    some (r.1.modifyObject base (fun o => { o with self := r.2 }))

/-- `SharedPtr(T* ptr)`, same for the template over `U*`. -/
def SharedPtr.ofPtr (esft : Bool) (m : Mem) (ptr : Nat) : Option (Mem × SharedPtr) :=
  let r := newPointerControlBlock esft m ptr
  let this : SharedPtr := { ptr_ := ptr, control_block_ := some r.2 }
  if esft then (EnableSharedFromThisHelper r.1 this ptr).map (fun m2 => (m2, this))
  else some (r.1, this)

/-- `SharedPtr(T* ptr, ControlBlock* control_block)`. -/
def SharedPtr.ofRaw (esft : Bool) (m : Mem) (ptr : Nat) (control_block : Option Nat) :
    Option (Mem × SharedPtr) :=
  let this : SharedPtr := { ptr_ := ptr, control_block_ := control_block }
  if esft then (EnableSharedFromThisHelper m this ptr).map (fun m2 => (m2, this))
  else some (m, this)

/-- `SharedPtr(const SharedPtr& other)`, same for the converting template. -/
def SharedPtr.copyCtor (m : Mem) (other : SharedPtr) : Mem × SharedPtr :=
  let this : SharedPtr := { ptr_ := other.ptr_, control_block_ := other.control_block_ }
  (ifBlock this.control_block_ IncrementShared m, this)

/-- `SharedPtr::Reset()`. -/
def SharedPtr.Reset (m : Mem) (this : SharedPtr) : Mem × SharedPtr :=
  (ifBlock this.control_block_ DecrementShared m, { ptr_ := 0, control_block_ := none })

/-- `SharedPtr(SharedPtr&& other)`, same for the converting template: returns
the new handle and `other` afterwards. -/
def SharedPtr.moveCtor (m : Mem) (other : SharedPtr) : Mem × SharedPtr × SharedPtr :=
  let this : SharedPtr := { ptr_ := other.ptr_, control_block_ := other.control_block_ }
  let m1 := ifBlock this.control_block_ IncrementShared m
  let r := SharedPtr.Reset m1 other
  (r.1, this, r.2)

/-- The aliasing constructor `SharedPtr(const SharedPtr<Y>& other, T* ptr)`. -/
def SharedPtr.aliasCtor (m : Mem) (other : SharedPtr) (ptr : Nat) : Mem × SharedPtr :=
  let this : SharedPtr := { ptr_ := ptr, control_block_ := other.GetControlBlock }
  (ifBlock this.control_block_ IncrementShared m, this)

/-- `SharedPtr(const WeakPtr<T>& other)`: promotion.  The result is the heap
when the constructor is left, and the new handle or the exception thrown. -/
def SharedPtr.ofWeakPtr (m : Mem) (other : WeakPtr) : Mem × Except BadWeakPtr SharedPtr :=
  let this : SharedPtr := { ptr_ := other.Get, control_block_ := other.GetControlBlock }
  if other.Expired m then (m, Except.error BadWeakPtr.thrown)
  else (ifBlock this.control_block_ IncrementShared m, Except.ok this)

/-- `SharedPtr::operator=(const SharedPtr& other)`, same for the template,
for a handle `other` that outlives the call: it is given by its value.  With
`other` read through the reference, also after the decrement, the operator is
`Graph.SharedPtr.copyAssign`. -/
def SharedPtr.copyAssign (m : Mem) (this other : SharedPtr) : Mem × SharedPtr :=
  if this.control_block_ = other.control_block_ then
    (m, { this with ptr_ := other.ptr_ })
  else
    let m1 := ifBlock this.control_block_ DecrementShared m
    let this1 : SharedPtr := { ptr_ := other.ptr_, control_block_ := other.control_block_ }
    (ifBlock this1.control_block_ IncrementShared m1, this1)

/-- `SharedPtr::operator=(SharedPtr&& other)`: returns `*this` and `other`
afterwards. -/
def SharedPtr.moveAssign (m : Mem) (this other : SharedPtr) : Mem × SharedPtr × SharedPtr :=
  if this.control_block_ = other.control_block_ then
    let this1 : SharedPtr := { this with ptr_ := other.ptr_ }
    (ifBlock this1.control_block_ DecrementShared m, this1, { ptr_ := 0, control_block_ := none })
  else
    let m1 := ifBlock this.control_block_ DecrementShared m
    (m1, { ptr_ := other.ptr_, control_block_ := other.control_block_ },
      { ptr_ := 0, control_block_ := none })

/-- `SharedPtr::operator=(SharedPtr<U>&& other)`: in the second branch
`control_block_->IncrementShared()` is called without a test for null. -/
def SharedPtr.moveAssignU (m : Mem) (this other : SharedPtr) :
    Option (Mem × SharedPtr × SharedPtr) :=
  if this.control_block_ = other.GetControlBlock then
    let this1 : SharedPtr := { this with ptr_ := other.Get }
    let r := SharedPtr.Reset m other
    some (r.1, this1, r.2)
  else
    let m1 := ifBlock this.control_block_ DecrementShared m
    let this1 : SharedPtr := { ptr_ := other.Get, control_block_ := other.GetControlBlock }
    match this1.control_block_ with
    | none => none
    | some b =>
      let r := SharedPtr.Reset (IncrementShared m1 b) other
      some (r.1, this1, r.2)

/-- `SharedPtr::~SharedPtr`. -/
def SharedPtr.dtor (m : Mem) (this : SharedPtr) : Mem :=
  ifBlock this.control_block_ DecrementShared m

/-- `SharedPtr::Reset(T* ptr)`, same for the template over `U*`. -/
def SharedPtr.ResetPtr (esft : Bool) (m : Mem) (this : SharedPtr) (ptr : Nat) : Mem × SharedPtr :=
  if this.ptr_ = ptr then (m, this)
  else
    let m1 := ifBlock this.control_block_ DecrementShared m
    let r := newPointerControlBlock esft m1 ptr
    (r.1, { ptr_ := ptr, control_block_ := some r.2 })

/-- `SharedPtr::Swap`: returns `*this` and `other` afterwards. -/
def SharedPtr.Swap (this other : SharedPtr) : SharedPtr × SharedPtr :=
  ({ ptr_ := other.ptr_, control_block_ := other.control_block_ },
   { ptr_ := this.ptr_, control_block_ := this.control_block_ })

/-- `MakeShared<T>(args...)`. -/
def MakeShared (esft : Bool) (m : Mem) : Option (Mem × SharedPtr) :=
  let r := newEmplaceControlBlock esft m
  SharedPtr.ofRaw esft r.1 (r.1.blocks r.2).ptr_ (some r.2)

/-- `WeakPtr::Lock`. -/
def WeakPtr.Lock (esft : Bool) (m : Mem) (this : WeakPtr) : Option (Mem × SharedPtr) :=
  if this.Expired m then
    let m1 := ifBlock this.control_block_ IncrementShared m
    SharedPtr.ofRaw esft m1 0 this.control_block_
  else
    let m1 := ifBlock this.control_block_ IncrementShared m
    SharedPtr.ofRaw esft m1 this.ptr_ this.control_block_

/-- `EnableSharedFromThis::SharedFromThis` on the object at `p`: `return self`
converts through the promoting constructor. -/
def SharedFromThis (m : Mem) (p : Nat) : Mem × Except BadWeakPtr SharedPtr :=
  SharedPtr.ofWeakPtr m (m.objects p).self

/-- `EnableSharedFromThis::WeakFromThis` on the object at `p`. -/
def WeakFromThis (m : Mem) (p : Nat) : Mem × WeakPtr :=
  WeakPtr.copyCtor m (m.objects p).self

/-! ## Programs over handle variables

A `World` is the heap together with the `SharedPtr` and `WeakPtr` variables of
a client program; slot `i` is `none` once the variable was destroyed.  An `Op`
is one statement of the client.  A statement naming a variable that is not
live is not a statement of any program and is skipped. -/

/-- Heap and handle variables of a client program. -/
structure World where
  mem : Mem := {}
  sp : List (Option SharedPtr) := []
  wp : List (Option WeakPtr) := []

/-- The live `SharedPtr` variable in slot `i`. -/
def World.getS (w : World) (i : Nat) : Option SharedPtr := (w.sp.get? i).join

/-- The live `WeakPtr` variable in slot `i`. -/
def World.getW (w : World) (i : Nat) : Option WeakPtr := (w.wp.get? i).join

/-- One statement of a client program; `i`, `j` are variable slots, `p` is a
raw object pointer. -/
inductive Op where
  | spDefault
  | spOfPtr (p : Nat)
  | makeShared
  | spCopy (i : Nat)
  | spMove (i : Nat)
  | spAlias (i p : Nat)
  | spOfWeak (j : Nat)
  | spCopyAssign (i j : Nat)
  | spMoveAssign (i j : Nat)
  | spMoveAssignU (i j : Nat)
  | spDtor (i : Nat)
  | spReset (i : Nat)
  | spResetPtr (i p : Nat)
  | spSwap (i j : Nat)
  | wpDefault
  | wpCopy (i : Nat)
  | wpMove (i : Nat)
  | wpOfShared (i : Nat)
  | wpCopyAssign (i j : Nat)
  | wpAssignShared (i j : Nat)
  | wpMoveAssign (i j : Nat)
  | wpDtor (i : Nat)
  | wpReset (i : Nat)
  | wpSwap (i j : Nat)
  | wpLock (i : Nat)
  | sharedFromThis (p : Nat)
  | weakFromThis (p : Nat)
deriving DecidableEq, Repr

/-- Execute one statement.  `none` is a null-pointer dereference.  When a
statement has `*this` and `other` in the same slot, `other` is written back
last, as in the source. -/
def step (esft : Bool) (w : World) : Op → Option World
  | Op.spDefault => some { w with sp := w.sp ++ [some {}] }
  | Op.spOfPtr p =>
    (SharedPtr.ofPtr esft w.mem p).map (fun r => { w with mem := r.1, sp := w.sp ++ [some r.2] })
  | Op.makeShared =>
    (MakeShared esft w.mem).map (fun r => { w with mem := r.1, sp := w.sp ++ [some r.2] })
  | Op.spCopy i =>
    match w.getS i with
    | none => some w
    | some other =>
      let r := SharedPtr.copyCtor w.mem other
      some { w with mem := r.1, sp := w.sp ++ [some r.2] }
  | Op.spMove i =>
    match w.getS i with
    | none => some w
    | some other =>
      let r := SharedPtr.moveCtor w.mem other
      some { w with mem := r.1, sp := w.sp.set i (some r.2.2) ++ [some r.2.1] }
  | Op.spAlias i p =>
    match w.getS i with
    | none => some w
    | some other =>
      let r := SharedPtr.aliasCtor w.mem other p
      some { w with mem := r.1, sp := w.sp ++ [some r.2] }
  | Op.spOfWeak j =>
    match w.getW j with
    | none => some w
    | some other =>
      match SharedPtr.ofWeakPtr w.mem other with
      | (m1, Except.error _) => some { w with mem := m1 }
      | (m1, Except.ok this) => some { w with mem := m1, sp := w.sp ++ [some this] }
  | Op.spCopyAssign i j =>
    match w.getS i, w.getS j with
    | some this, some other =>
      let r := SharedPtr.copyAssign w.mem this other
      some { w with mem := r.1, sp := w.sp.set i (some r.2) }
    | _, _ => some w
  | Op.spMoveAssign i j =>
    match w.getS i, w.getS j with
    | some this, some other =>
      let r := SharedPtr.moveAssign w.mem this other
      some { w with mem := r.1, sp := (w.sp.set i (some r.2.1)).set j (some r.2.2) }
    | _, _ => some w
  | Op.spMoveAssignU i j =>
    match w.getS i, w.getS j with
    | some this, some other =>
      (SharedPtr.moveAssignU w.mem this other).map (fun r =>
        { w with mem := r.1, sp := (w.sp.set i (some r.2.1)).set j (some r.2.2) })
    | _, _ => some w
  | Op.spDtor i =>
    match w.getS i with
    | none => some w
    | some this => some { w with mem := SharedPtr.dtor w.mem this, sp := w.sp.set i none }
  | Op.spReset i =>
    match w.getS i with
    | none => some w
    | some this =>
      let r := SharedPtr.Reset w.mem this
      some { w with mem := r.1, sp := w.sp.set i (some r.2) }
  | Op.spResetPtr i p =>
    match w.getS i with
    | none => some w
    | some this =>
      let r := SharedPtr.ResetPtr esft w.mem this p
      some { w with mem := r.1, sp := w.sp.set i (some r.2) }
  | Op.spSwap i j =>
    match w.getS i, w.getS j with
    | some this, some other =>
      let r := SharedPtr.Swap this other
      some { w with sp := (w.sp.set i (some r.1)).set j (some r.2) }
    | _, _ => some w
  | Op.wpDefault => some { w with wp := w.wp ++ [some {}] }
  | Op.wpCopy i =>
    match w.getW i with
    | none => some w
    | some other =>
      let r := WeakPtr.copyCtor w.mem other
      some { w with mem := r.1, wp := w.wp ++ [some r.2] }
  | Op.wpMove i =>
    match w.getW i with
    | none => some w
    | some other =>
      let r := WeakPtr.moveCtor w.mem other
      some { w with mem := r.1, wp := w.wp.set i (some r.2.2) ++ [some r.2.1] }
  | Op.wpOfShared i =>
    match w.getS i with
    | none => some w
    | some other =>
      let r := WeakPtr.ofSharedPtr w.mem other
      some { w with mem := r.1, wp := w.wp ++ [some r.2] }
  | Op.wpCopyAssign i j =>
    match w.getW i, w.getW j with
    | some this, some other =>
      let r := WeakPtr.copyAssign w.mem this other
      some { w with mem := r.1, wp := w.wp.set i (some r.2) }
    | _, _ => some w
  | Op.wpAssignShared i j =>
    match w.getW i, w.getS j with
    | some this, some other =>
      let r := WeakPtr.assignShared w.mem this other
      some { w with mem := r.1, wp := w.wp.set i (some r.2) }
    | _, _ => some w
  | Op.wpMoveAssign i j =>
    match w.getW i, w.getW j with
    | some this, some other =>
      let r := WeakPtr.moveAssign w.mem this other
      some { w with mem := r.1, wp := (w.wp.set i (some r.2.1)).set j (some r.2.2) }
    | _, _ => some w
  | Op.wpDtor i =>
    match w.getW i with
    | none => some w
    | some this => some { w with mem := WeakPtr.dtor w.mem this, wp := w.wp.set i none }
  | Op.wpReset i =>
    match w.getW i with
    | none => some w
    | some this =>
      let r := WeakPtr.Reset w.mem this
      some { w with mem := r.1, wp := w.wp.set i (some r.2) }
  | Op.wpSwap i j =>
    match w.getW i, w.getW j with
    | some this, some other =>
      let r := WeakPtr.Swap this other
      some { w with wp := (w.wp.set i (some r.1)).set j (some r.2) }
    | _, _ => some w
  | Op.wpLock i =>
    match w.getW i with
    | none => some w
    | some this =>
      (WeakPtr.Lock esft w.mem this).map (fun r =>
        { w with mem := r.1, sp := w.sp ++ [some r.2] })
  | Op.sharedFromThis p =>
    if esft then
      match SharedFromThis w.mem p with
      | (m1, Except.error _) => some { w with mem := m1 }
      | (m1, Except.ok this) => some { w with mem := m1, sp := w.sp ++ [some this] }
    else some w
  | Op.weakFromThis p =>
    if esft then
      let r := WeakFromThis w.mem p
      some { w with mem := r.1, wp := w.wp ++ [some r.2] }
    else some w

/-- Execute a program, statement by statement. -/
def run (esft : Bool) : World → List Op → Option World
  | w, [] => some w
  | w, op :: ops => (step esft w op).bind (fun w1 => run esft w1 ops)

/-- The variable slot holds a live `SharedPtr` whose control block is `b`. -/
def SharedPtr.on (b : Nat) : Option SharedPtr → Bool
  | some h => decide (h.control_block_ = some b)
  | none => false

/-- The variable slot holds a live `WeakPtr` whose control block is `b`. -/
def WeakPtr.on (b : Nat) : Option WeakPtr → Bool
  | some h => decide (h.control_block_ = some b)
  | none => false

/-- Number of live `SharedPtr` variables whose control block is `b`. -/
def World.liveShared (w : World) (b : Nat) : Nat := w.sp.countP (SharedPtr.on b)

/-- Number of live `WeakPtr` variables whose control block is `b`. -/
def World.liveWeak (w : World) (b : Nat) : Nat := w.wp.countP (WeakPtr.on b)

/-- The block after `DecrementShared`, in closed form. -/
def ControlBlock.decShared (c : ControlBlock) : ControlBlock :=
  { c with
    shared_count_ := c.shared_count_ - 1
    ptr_ := if c.shared_count_ - 1 = 0 ∧ c.kind = BlockKind.Pointer then 0 else c.ptr_
    log := c.log ++ (if c.shared_count_ - 1 = 0 then [Hook.OnZeroShared] else [])
      ++ (if c.weak_count_ = 0 ∧ c.shared_count_ - 1 = 0 then [Hook.OnZeroWeak] else [])
      ++ (if c.esft = true ∧ c.weak_count_ = 1 ∧ c.shared_count_ - 1 = 0 then [Hook.OnZeroWeak]
          else []) }

/-- The block after `DecrementWeak`, in closed form. -/
def ControlBlock.decWeak (c : ControlBlock) : ControlBlock :=
  { c with
    weak_count_ := c.weak_count_ - 1
    log := c.log ++ (if c.weak_count_ - 1 = 0 ∧ c.shared_count_ = 0 then [Hook.OnZeroWeak] else [])
      ++ (if c.esft = true ∧ c.weak_count_ - 1 = 1 ∧ c.shared_count_ = 0 then [Hook.OnZeroWeak]
          else []) }

/-- Observation of block `b` in a world: `shared_count_`, `weak_count_`, the
hook log, and the numbers of live `SharedPtr` and `WeakPtr` variables on `b`. -/
def World.view (w : World) (b : Nat) : Int × Int × List Hook × Nat × Nat :=
  ((w.mem.blocks b).shared_count_, (w.mem.blocks b).weak_count_, (w.mem.blocks b).log,
    w.liveShared b, w.liveWeak b)

/-- `1` when the control-block pointer `cb` is the block `b`, else `0`. -/
def ind (b : Nat) (cb : Option Nat) : Int := if cb = some b then 1 else 0

/-- `shared_count_` of block `b`. -/
def Mem.sc (m : Mem) (b : Nat) : Int := (m.blocks b).shared_count_

/-- Number of `OnZeroShared` runs on block `b`. -/
def Mem.zs (m : Mem) (b : Nat) : Nat := (m.blocks b).zeroShared

/-- The heap `m1` has the blocks of `m` and no internal handle of an object
is attached to a block it was not attached to in `m`. -/
def Mem.ext (m m1 : Mem) : Prop :=
  m1.nblocks = m.nblocks ∧
  ∀ q c, (m1.objects q).self.control_block_ = some c → (m.objects q).self.control_block_ = some c

/-- Number of live `SharedPtr` slots on `b` in a list of slots, as an integer. -/
def cntS (b : Nat) (l : List (Option SharedPtr)) : Int := (l.countP (SharedPtr.on b) : Nat)

/-- Every block pointer of a live `SharedPtr` slot is below `n`. -/
def validS (n : Nat) (l : List (Option SharedPtr)) : Prop :=
  ∀ h c, some h ∈ l → h.control_block_ = some c → c < n

/-- Every block pointer of a live `WeakPtr` slot is below `n`. -/
def validW (n : Nat) (l : List (Option WeakPtr)) : Prop :=
  ∀ h c, some h ∈ l → h.control_block_ = some c → c < n

/-- Every internal handle of an object is attached to an allocated block. -/
def validSelf (m : Mem) : Prop :=
  ∀ q c, (m.objects q).self.control_block_ = some c → c < m.nblocks

/-- Well-formed world: handles point to allocated blocks only. -/
def World.WF (w : World) : Prop :=
  validS w.mem.nblocks w.sp ∧ validW w.mem.nblocks w.wp ∧ validSelf w.mem

/-- `shared_count_` of every allocated block is the number of live
`SharedPtr` variables on it. -/
def World.Counted (w : World) : Prop :=
  ∀ b, b < w.mem.nblocks → w.mem.sc b = cntS b w.sp

/-- State of the object of block `b`: `shared_count_` is not negative and
`OnZeroShared` ran once if it is zero, never otherwise. -/
def Mem.Z (m : Mem) (b : Nat) : Prop :=
  0 ≤ m.sc b ∧ m.zs b = if m.sc b = 0 then 1 else 0

/-- Every allocated block is in state `Z`. -/
def World.ZS (w : World) : Prop := ∀ b, b < w.mem.nblocks → w.mem.Z b

/-- The statements of claim C1: copy construction, move construction, copy
and move assignment (same-type and converting), `Reset()` and destruction of
`SharedPtr` variables. -/
def Op.isLifetimeOp : Op → Bool
  | Op.spCopy _ => true
  | Op.spMove _ => true
  | Op.spCopyAssign _ _ => true
  | Op.spMoveAssign _ _ => true
  | Op.spMoveAssignU _ _ => true
  | Op.spReset _ => true
  | Op.spDtor _ => true
  | _ => false

/-- The statements of claim C9: aliasing construction, copy construction,
`Reset()` and destruction of `SharedPtr` variables. -/
def Op.isAliasOp : Op → Bool
  | Op.spAlias _ _ => true
  | Op.spCopy _ => true
  | Op.spReset _ => true
  | Op.spDtor _ => true
  | _ => false

/-- The statement is not `Lock()`. -/
def Op.notLock : Op → Bool
  | Op.wpLock _ => false
  | _ => true

/-- `weak_count_` of block `b`. -/
def Mem.wc (m : Mem) (b : Nat) : Int := (m.blocks b).weak_count_

/-- Number of `OnZeroWeak` runs on block `b`. -/
def Mem.zw (m : Mem) (b : Nat) : Nat := (m.blocks b).zeroWeak

/-- Number of live `WeakPtr` slots on `b` in a list of slots, as an integer. -/
def cntW (b : Nat) (l : List (Option WeakPtr)) : Int := (l.countP (WeakPtr.on b) : Nat)

/-- State of a block of a type with the capability whose internal handle
was attached: `weak_count_` counts it, and `OnZeroWeak` ran once if only it
is left (`shared_count_ = 0`, `weak_count_ = 1`), never otherwise. -/
def Mem.EW (m : Mem) (b : Nat) : Prop :=
  (m.blocks b).esft = true ∧ 0 ≤ m.sc b ∧ 1 ≤ m.wc b ∧
    m.zw b = if m.sc b = 0 ∧ m.wc b = 1 then 1 else 0

/-- The statements of claim C8: taking a further external handle (a `SharedPtr`
copy, a `WeakPtr` from a `SharedPtr`, a `WeakPtr` copy) and releasing one
(destruction or `Reset()`). -/
def Op.isShareOrRelease : Op → Bool
  | Op.spCopy _ => true
  | Op.spDtor _ => true
  | Op.spReset _ => true
  | Op.wpOfShared _ => true
  | Op.wpCopy _ => true
  | Op.wpDtor _ => true
  | Op.wpReset _ => true
  | _ => false

/-- World of a program over one object with the capability, owned by block
`0`: well-formed and counted, `weak_count_` is the number of live `WeakPtr`
variables plus one for the internal handle, and the block is in state `EW`. -/
def World.Cap (w : World) : Prop :=
  w.WF ∧ w.Counted ∧ 0 < w.mem.nblocks ∧ w.mem.wc 0 = cntW 0 w.wp + 1 ∧ w.mem.EW 0

/-- What is observed of a control block: `shared_count_`, `weak_count_` and
the hooks invoked so far, in order. -/
def ControlBlock.obs (c : ControlBlock) : Int × Int × List Hook :=
  (c.shared_count_, c.weak_count_, c.log)

/-- The effect of `DecrementShared` as the specification words it: decrement
`shared_count_`; if it reaches zero invoke `OnZeroShared`; then, if both
counters are zero, invoke `OnZeroWeak`. -/
def specDecrementShared (c : ControlBlock) : Int × Int × List Hook :=
  (c.shared_count_ - 1, c.weak_count_,
    c.log ++ (if c.shared_count_ - 1 = 0 then [Hook.OnZeroShared] else [])
      ++ (if c.shared_count_ - 1 = 0 ∧ c.weak_count_ = 0 then [Hook.OnZeroWeak] else []))

/-- The effect of `DecrementWeak` as the specification words it: decrement
`weak_count_`; if both counters are zero, invoke `OnZeroWeak`; `OnZeroShared`
is never invoked. -/
def specDecrementWeak (c : ControlBlock) : Int × Int × List Hook :=
  (c.shared_count_, c.weak_count_ - 1,
    c.log ++ (if c.weak_count_ - 1 = 0 ∧ c.shared_count_ = 0 then [Hook.OnZeroWeak] else []))

/-! ## `unique.h`

`UniquePtr<T, Deleter>` and its array specialisation have the same member
functions, statement for statement.  A handle is its two members.  The
deleter is a value of a type `D` that is not looked into: invoking it is
recorded, with the pointer it is invoked on.  Handle objects live at
addresses, so that `this == &other` can be asked. -/

/-- The members of `UniquePtr<T, Deleter>`; address `0` is `nullptr`. -/
structure UniquePtr (D : Type) where
  ptr_ : Nat
  deleter_ : D

/-- The `UniquePtr` objects by address, and the deleter invocations
`deleter_(p)` made so far, in order. -/
structure UMem (D : Type) where
  handles : Nat → UniquePtr D
  calls : List (D × Nat)

/-- Assign the member `ptr_` of the handle at `this`. -/
def UMem.setPtr {D : Type} (s : UMem D) (this ptr : Nat) : UMem D :=
  { s with handles := Function.update s.handles this { s.handles this with ptr_ := ptr } }

/-- Assign the member `deleter_` of the handle at `this`. -/
def UMem.setDeleter {D : Type} (s : UMem D) (this : Nat) (d : D) : UMem D :=
  { s with handles := Function.update s.handles this { s.handles this with deleter_ := d } }

/-- The call `deleter_(ptr)` made by the handle at `this`. -/
def UMem.invoke {D : Type} (s : UMem D) (this ptr : Nat) : UMem D :=
  { s with calls := s.calls ++ [((s.handles this).deleter_, ptr)] }

/-- `UniquePtr(T* ptr, D&& deleter)`, constructing the handle at `this`. -/
def UniquePtr.ctor {D : Type} (s : UMem D) (this ptr : Nat) (deleter : D) : UMem D :=
  { s with handles := Function.update s.handles this { ptr_ := ptr, deleter_ := deleter } }

/-- `UniquePtr::Get`. -/
def UniquePtr.Get {D : Type} (s : UMem D) (this : Nat) : Nat := (s.handles this).ptr_

/-- `UniquePtr::GetDeleter`. -/
def UniquePtr.GetDeleter {D : Type} (s : UMem D) (this : Nat) : D := (s.handles this).deleter_

/-- `UniquePtr::operator bool`. -/
def UniquePtr.toBool {D : Type} (s : UMem D) (this : Nat) : Bool :=
  decide ((s.handles this).ptr_ ≠ 0)

/-- `UniquePtr::Release`: returns the pointer held. -/
def UniquePtr.Release {D : Type} (s : UMem D) (this : Nat) : UMem D × Nat :=
  let ptr := (s.handles this).ptr_
  (s.setPtr this 0, ptr)

/-- `UniquePtr::Reset(T* ptr)`; `Reset()` is `Reset(nullptr)`. -/
def UniquePtr.Reset {D : Type} (s : UMem D) (this ptr : Nat) : UMem D :=
  let old_ptr := (s.handles this).ptr_
  let s1 := s.setPtr this ptr
  s1.invoke this old_ptr

/-- `UniquePtr::operator=(UniquePtr&& other)`. -/
def UniquePtr.moveAssign {D : Type} (s : UMem D) (this other : Nat) : UMem D :=
  if this = other then s
  else
    let r := UniquePtr.Release s other
    let s1 := UniquePtr.Reset r.1 this r.2
    s1.setDeleter this (UniquePtr.GetDeleter s1 other)

/-- `UniquePtr::operator=(std::nullptr_t)`. -/
def UniquePtr.assignNull {D : Type} (s : UMem D) (this : Nat) : UMem D :=
  UniquePtr.Reset s this 0

/-- `UniquePtr::~UniquePtr`. -/
def UniquePtr.dtor {D : Type} (s : UMem D) (this : Nat) : UMem D :=
  s.invoke this (s.handles this).ptr_

/-- `UniquePtr::Swap`. -/
def UniquePtr.Swap {D : Type} (s : UMem D) (this other : Nat) : UMem D :=
  let ptr := (s.handles this).ptr_
  let s1 := s.setPtr this (s.handles other).ptr_
  s1.setPtr other ptr

/-- The store in which every handle is `UniquePtr<T, D>()` with the deleter
`d`, and no deleter has been invoked. -/
def UMem.init {D : Type} (d : D) : UMem D :=
  { handles := fun _ => { ptr_ := 0, deleter_ := d }, calls := [] }

/-- The heap `m1` has, on every block, the `shared_count_` and the number of
`OnZeroShared` runs of `m`, and the objects of `m`: no object was destroyed. -/
def Mem.sharedFrame (m m1 : Mem) : Prop :=
  (∀ b, m1.sc b = m.sc b ∧ m1.zs b = m.zs b) ∧ m1.objects = m.objects

/-- `weak_count_` of every allocated block is the number of live `WeakPtr`
variables on it. -/
def World.WeakCounted (w : World) : Prop :=
  ∀ b, b < w.mem.nblocks → w.mem.wc b = cntW b w.wp

/-! ## Objects that hold handles

The definitions above take the destructor `~T()` of a managed object to call
no control block: `T` has no `SharedPtr` or `WeakPtr` member.  The
definitions of this section drop that: an object has handle members, its
destructor runs `~SharedPtr` and `~WeakPtr` on them, a handle is read and
written where it lives (a variable, a member of an object, the member `self`
of `EnableSharedFromThis`), `delete this` releases the control block, and an
access to a released block or to a member of a destroyed object stops the
execution.  Function bodies are the statements of the source, in order. -/

namespace Graph

/-- The class of a handle member: `SharedPtr<U>` or `WeakPtr<U>`. -/
inductive HandleKind where
  | shared
  | weak
deriving DecidableEq, Repr

/-- Where a handle object lives: a variable, the `k`-th handle member of the
object at `p`, or the member `self` of `EnableSharedFromThis` of the object
at `p`. -/
inductive Place where
  | var (i : Nat)
  | member (p k : Nat)
  | self (p : Nat)
deriving DecidableEq, Repr

/-- The members `ptr_` and `control_block_` of a `SharedPtr` or a `WeakPtr`;
address `0` is `nullptr`. -/
structure Handle where
  ptr_ : Nat := 0
  control_block_ : Option Nat := none
deriving DecidableEq, Repr

/-- A control block, and whether `delete this` has run on it. -/
structure Block extends ControlBlock where
  released : Bool := false
deriving DecidableEq, Repr

/-- A managed object of type `T`: the classes of its handle members in
declaration order, whether `T` derives from `EnableSharedFromThis<T>`,
whether its lifetime has ended (destructor completed, or storage released),
and the number of runs of `~T()`. -/
structure Obj where
  members : List HandleKind := []
  esft : Bool := false
  destroyed : Bool := false
  dtor_runs : Nat := 0
deriving DecidableEq, Repr

/-- The heap and the variables: control blocks and objects by address, and
the handle stored at each place. -/
structure Heap where
  blocks : Nat → Block := fun _ => {}
  nblocks : Nat := 0
  objects : Nat → Obj := fun _ => {}
  nobjects : Nat := 0
  cell : Place → Handle := fun _ => {}

/-- What an undefined access touched. -/
inductive Access where
  | block (b : Nat)
  | object (p : Nat)
deriving DecidableEq, Repr

/-- Why an execution stopped: an access to a released control block or to a
member of a destroyed object, a member access through a null pointer, or the
recursion bound of the model. -/
inductive Stop where
  | useAfterFree (a : Access)
  | nullDereference
  | outOfFuel
deriving DecidableEq, Repr

/-- An execution returns a value, or stops in a heap. -/
abbrev Exec (α : Type) : Type := Except (Heap × Stop) α

/-- An access to a member of the control block `b`. -/
def Heap.block (m : Heap) (b : Nat) : Exec Block :=
  if (m.blocks b).released then throw (m, Stop.useAfterFree (Access.block b))
  else pure (m.blocks b)

/-- Assign the members of the control block `b`. -/
def Heap.setBlock (m : Heap) (b : Nat) (c : Block) : Heap :=
  { m with blocks := Function.update m.blocks b c }

/-- The object a place is a member of. -/
def Place.holder : Place → Option Nat
  | Place.var _ => none
  | Place.member p _ => some p
  | Place.self p => some p

/-- Read the handle at a place. -/
def Heap.read (m : Heap) (pl : Place) : Exec Handle :=
  match pl.holder with
  | some p =>
    if (m.objects p).destroyed then throw (m, Stop.useAfterFree (Access.object p))
    else pure (m.cell pl)
  | none => pure (m.cell pl)

/-- Write the handle at a place. -/
def Heap.write (m : Heap) (pl : Place) (h : Handle) : Exec Heap :=
  match pl.holder with
  | some p =>
    if (m.objects p).destroyed then throw (m, Stop.useAfterFree (Access.object p))
    else pure { m with cell := Function.update m.cell pl h }
  | none => pure { m with cell := Function.update m.cell pl h }

/-- `ControlBlock::IncrementShared`. -/
def IncrementShared (m : Heap) (b : Nat) : Exec Heap := do
  let c ← m.block b
  pure (m.setBlock b { c with shared_count_ := c.shared_count_ + 1 })

/-- `ControlBlock::IncrementWeak`. -/
def IncrementWeak (m : Heap) (b : Nat) : Exec Heap := do
  let c ← m.block b
  pure (m.setBlock b { c with weak_count_ := c.weak_count_ + 1 })

/-- `OnZeroWeak` of both derived classes: `delete this`.  The storage of an
`EmplaceControlBlock` holds the object. -/
def OnZeroWeak (m : Heap) (b : Nat) : Exec Heap := do
  let c ← m.block b
  let m1 := m.setBlock b { c with log := c.log ++ [Hook.OnZeroWeak], released := true }
  match c.kind with
  | BlockKind.Pointer => pure m1
  | BlockKind.Emplace =>
    pure { m1 with
      objects := Function.update m1.objects c.ptr_ { m1.objects c.ptr_ with destroyed := true } }

/-- `DecrementWeak` of `PointerControlBlock<T>` and of
`EmplaceControlBlock<T>` (the same statements); the last test is compiled in
only when `T` derives from `EnableSharedFromThisBase`. -/
def DecrementWeak (m : Heap) (b : Nat) : Exec Heap := do
  let c ← m.block b
  let m1 := m.setBlock b { c with weak_count_ := c.weak_count_ - 1 }
  let c1 ← m1.block b
  let m2 ← if c1.weak_count_ = 0 ∧ c1.shared_count_ = 0 then OnZeroWeak m1 b else pure m1
  if (m2.blocks b).esft then do
    let c2 ← m2.block b
    if c2.weak_count_ = 1 ∧ c2.shared_count_ = 0 then OnZeroWeak m2 b else pure m2
  else pure m2

/-- `WeakPtr::~WeakPtr` of the handle at `this`. -/
def WeakPtr.dtor (m : Heap) (this : Place) : Exec Heap := do
  match (← m.read this).control_block_ with
  | some b => DecrementWeak m b
  | none => pure m

/-- The destructor of the handle member at `pl`: `~SharedPtr`, which is
`if (control_block_) control_block_->DecrementShared()`, or `~WeakPtr`;
`dec` is the virtual call `DecrementShared()`. -/
def dtorHandle (dec : Heap → Nat → Exec Heap) (m : Heap) (pl : Place) : HandleKind → Exec Heap
  | HandleKind.shared => do
    match (← m.read pl).control_block_ with
    | some b => dec m b
    | none => pure m
  | HandleKind.weak => WeakPtr.dtor m pl

/-- The handle members of the object at `p` destroyed in reverse order of
declaration; `ks` lists their classes, the last declared first. -/
def dtorMembers (dec : Heap → Nat → Exec Heap) (p : Nat) : Heap → List HandleKind → Exec Heap
  | m, [] => pure m
  | m, k :: ks => do
    let m1 ← dtorHandle dec m (Place.member p ks.length) k
    dtorMembers dec p m1 ks

/-- The destructor `~T()` of the object at `p`: the handle members in
reverse order of declaration, then `~EnableSharedFromThis`, which sets
`self.control_block_ = nullptr` so that `~WeakPtr` of `self` decrements
nothing. -/
def destructor (dec : Heap → Nat → Exec Heap) (m : Heap) (p : Nat) : Exec Heap := do
  if (m.objects p).destroyed then throw (m, Stop.useAfterFree (Access.object p))
  let m1 ← dtorMembers dec p m (m.objects p).members.reverse
  let m2 ←
    if (m1.objects p).esft then do
      let s ← m1.read (Place.self p)
      m1.write (Place.self p) { s with control_block_ := none }
    else pure m1
  pure { m2 with
    objects := Function.update m2.objects p
      { m2.objects p with destroyed := true, dtor_runs := (m2.objects p).dtor_runs + 1 } }

/-- The virtual call `OnZeroShared()`.  `PointerControlBlock`:
`obj = ptr_; ptr_ = nullptr; delete obj`; `EmplaceControlBlock`:
`GetRawPtr()->~T()`. -/
def OnZeroShared (dec : Heap → Nat → Exec Heap) (m : Heap) (b : Nat) : Exec Heap := do
  let c ← m.block b
  match c.kind with
  | BlockKind.Pointer =>
    let obj := c.ptr_
    let m1 := m.setBlock b { c with ptr_ := 0, log := c.log ++ [Hook.OnZeroShared] }
    if obj = 0 then pure m1 else destructor dec m1 obj
  | BlockKind.Emplace =>
    let m1 := m.setBlock b { c with log := c.log ++ [Hook.OnZeroShared] }
    destructor dec m1 c.ptr_

/-- `DecrementShared` of `PointerControlBlock<T>` and of
`EmplaceControlBlock<T>` (the same statements); the last test is compiled in
only when `T` derives from `EnableSharedFromThisBase`.  The first argument
bounds the depth of destructor calls. -/
def DecrementShared : Nat → Heap → Nat → Exec Heap
  | 0, m, _ => throw (m, Stop.outOfFuel)
  | fuel + 1, m, b => do
    let c ← m.block b
    let m1 := m.setBlock b { c with shared_count_ := c.shared_count_ - 1 }
    let c1 ← m1.block b
    let m2 ← if c1.shared_count_ = 0 then OnZeroShared (DecrementShared fuel) m1 b else pure m1
    let c2 ← m2.block b
    let m3 ← if c2.weak_count_ = 0 ∧ c2.shared_count_ = 0 then OnZeroWeak m2 b else pure m2
    if (m3.blocks b).esft then do
      let c3 ← m3.block b
      if c3.weak_count_ = 1 ∧ c3.shared_count_ = 0 then OnZeroWeak m3 b else pure m3
    else pure m3


/-- `new T` for a type with the handle members `members`, all default
constructed (empty): returns the address of the object. -/
def Heap.newObject (m : Heap) (esft : Bool) (members : List HandleKind) : Heap × Nat :=
  ({ m with
      objects := Function.update m.objects (m.nobjects + 1) { members := members, esft := esft }
      nobjects := m.nobjects + 1 }, m.nobjects + 1)

/-- `new PointerControlBlock<T>(ptr)`: counters `1` and `0`. -/
def newPointerControlBlock (esft : Bool) (m : Heap) (ptr : Nat) : Heap × Nat :=
  ({ m with
      blocks := Function.update m.blocks m.nblocks
        { kind := BlockKind.Pointer, esft := esft, ptr_ := ptr }
      nblocks := m.nblocks + 1 }, m.nblocks)

/-- `new EmplaceControlBlock<T>()`: the object is constructed inside the
block, at a fresh address. -/
def newEmplaceControlBlock (esft : Bool) (members : List HandleKind) (m : Heap) : Heap × Nat :=
  let r := m.newObject esft members
  ({ r.1 with
      blocks := Function.update r.1.blocks r.1.nblocks
        { kind := BlockKind.Emplace, esft := esft, ptr_ := r.2 }
      nblocks := r.1.nblocks + 1 }, r.1.nblocks)

/-- `WeakPtr::operator=(const SharedPtr<T>& other)`, `this` and `other`
being where the two handles live. -/
def WeakPtr.assignShared (m : Heap) (this other : Place) : Exec Heap := do
  if (← m.read this).control_block_ = (← m.read other).control_block_ then
    m.write this { (← m.read this) with ptr_ := (← m.read other).ptr_ }
  else
    let m1 ←
      match (← m.read this).control_block_ with
      | some b => DecrementWeak m b
      | none => pure m
    let m2 ← m1.write this { (← m1.read this) with ptr_ := (← m1.read other).ptr_ }
    let m3 ← m2.write this
      { (← m2.read this) with control_block_ := (← m2.read other).control_block_ }
    match (← m3.read this).control_block_ with
    | some b => IncrementWeak m3 b
    | none => pure m3

/-- `SharedPtr::EnableSharedFromThisHelper(base)`: `base->self = *this`. -/
def EnableSharedFromThisHelper (m : Heap) (this : Place) (base : Nat) : Exec Heap :=
  if base = 0 then throw (m, Stop.nullDereference)
  else WeakPtr.assignShared m (Place.self base) this

/-- `SharedPtr(T* ptr)`, constructing the handle at `this`. -/
def SharedPtr.ofPtr (esft : Bool) (m : Heap) (this : Place) (ptr : Nat) : Exec Heap := do
  let r := newPointerControlBlock esft m ptr
  let m1 ← r.1.write this { ptr_ := ptr, control_block_ := some r.2 }
  if esft then EnableSharedFromThisHelper m1 this ptr else pure m1

/-- `MakeShared<T>()`, the result constructed at `this`:
`SharedPtr<T>(block->GetRawPtr(), block)`. -/
def MakeShared (esft : Bool) (members : List HandleKind) (m : Heap) (this : Place) :
    Exec Heap := do
  let r := newEmplaceControlBlock esft members m
  let ptr := (r.1.blocks r.2).ptr_
  let m1 ← r.1.write this { ptr_ := ptr, control_block_ := some r.2 }
  if esft then EnableSharedFromThisHelper m1 this ptr else pure m1

/-- `SharedPtr::operator=(const SharedPtr& other)`, `this` and `other` being
where the two handles live: `other` is read through the reference at each
use. -/
def SharedPtr.copyAssign (fuel : Nat) (m : Heap) (this other : Place) : Exec Heap := do
  if (← m.read this).control_block_ = (← m.read other).control_block_ then
    m.write this { (← m.read this) with ptr_ := (← m.read other).ptr_ }
  else
    let m1 ←
      match (← m.read this).control_block_ with
      | some b => DecrementShared fuel m b
      | none => pure m
    let m2 ← m1.write this { (← m1.read this) with ptr_ := (← m1.read other).ptr_ }
    let m3 ← m2.write this
      { (← m2.read this) with control_block_ := (← m2.read other).control_block_ }
    match (← m3.read this).control_block_ with
    | some b => IncrementShared m3 b
    | none => pure m3

/-- `SharedPtr::Reset()`. -/
def SharedPtr.Reset (fuel : Nat) (m : Heap) (this : Place) : Exec Heap := do
  let m1 ←
    match (← m.read this).control_block_ with
    | some b => DecrementShared fuel m b
    | none => pure m
  let m2 ← m1.write this { (← m1.read this) with ptr_ := 0 }
  m2.write this { (← m2.read this) with control_block_ := none }

/-- `SharedPtr::~SharedPtr` of the handle at `this`. -/
def SharedPtr.dtor (fuel : Nat) (m : Heap) (this : Place) : Exec Heap :=
  dtorHandle (DecrementShared fuel) m this HandleKind.shared

/-- What is observed of the control block `b`: `shared_count_`,
`weak_count_`, the hooks invoked so far in order, and whether `delete this`
has run. -/
def Heap.view (m : Heap) (b : Nat) : Int × Int × List Hook × Bool :=
  ((m.blocks b).shared_count_, (m.blocks b).weak_count_, (m.blocks b).log, (m.blocks b).released)

/-- The heap an execution ended or stopped in. -/
def Exec.heap : Exec Heap → Heap
  | Except.ok m => m
  | Except.error e => e.1

/-- Why an execution stopped, if it did. -/
def Exec.stop : Exec Heap → Option Stop
  | Except.ok _ => none
  | Except.error e => some e.2


/-- The program `SharedPtr<T> p(new T); p->w = p;` for
`struct T { WeakPtr<T> w; }` (deriving from `EnableSharedFromThis<T>` when
`esft`): `p` is the variable `0`, the object is held in its own weak member. -/
def observer (esft : Bool) : Exec Heap := do
  let r := Heap.newObject {} esft [HandleKind.weak]
  let m ← SharedPtr.ofPtr esft r.1 (Place.var 0) r.2
  let p ← m.read (Place.var 0)
  WeakPtr.assignShared m (Place.member p.ptr_ 0) (Place.var 0)

/-- The program `auto p = MakeShared<T>(); p->w = p;` for the same `T`. -/
def observerEmplace (esft : Bool) : Exec Heap := do
  let m ← MakeShared esft [HandleKind.weak] {} (Place.var 0)
  let p ← m.read (Place.var 0)
  WeakPtr.assignShared m (Place.member p.ptr_ 0) (Place.var 0)

/-- The program `SharedPtr<T> p(new T); WeakPtr<T> w; w = p;` for the same
`T`: the weak handle is the variable `1`. -/
def observed (esft : Bool) : Exec Heap := do
  let r := Heap.newObject {} esft [HandleKind.weak]
  let m ← SharedPtr.ofPtr esft r.1 (Place.var 0) r.2
  WeakPtr.assignShared m (Place.var 1) (Place.var 0)

/-- The program
`SharedPtr<Parent> p(new Parent); { SharedPtr<Child> c(new Child); p->child = c; c->parent = p; }`
for `struct Parent { SharedPtr<Child> child; }` (deriving from
`EnableSharedFromThis<Parent>` when `esft`) and
`struct Child { WeakPtr<Parent> parent; }`: `p` is the variable `0`, `c` the
variable `1`. -/
def family (esft : Bool) : Exec Heap := do
  let r1 := Heap.newObject {} esft [HandleKind.shared]
  let m1 ← SharedPtr.ofPtr esft r1.1 (Place.var 0) r1.2
  let r2 := m1.newObject false [HandleKind.weak]
  let m2 ← SharedPtr.ofPtr false r2.1 (Place.var 1) r2.2
  let p ← m2.read (Place.var 0)
  let m3 ← SharedPtr.copyAssign 8 m2 (Place.member p.ptr_ 0) (Place.var 1)
  let c ← m3.read (Place.var 1)
  let m4 ← WeakPtr.assignShared m3 (Place.member c.ptr_ 0) (Place.var 0)
  SharedPtr.dtor 8 m4 (Place.var 1)

/-- The program
`SharedPtr<Node> a(new Node); SharedPtr<Node> b(new Node); a->next = b;`
for `struct Node { SharedPtr<Node> next; }`: a list of two nodes, `a` is the
variable `0`, `b` the variable `1`. -/
def twoNodes : Exec Heap := do
  let r1 := Heap.newObject {} false [HandleKind.shared]
  let m1 ← SharedPtr.ofPtr false r1.1 (Place.var 0) r1.2
  let r2 := m1.newObject false [HandleKind.shared]
  let m2 ← SharedPtr.ofPtr false r2.1 (Place.var 1) r2.2
  let a ← m2.read (Place.var 0)
  SharedPtr.copyAssign 8 m2 (Place.member a.ptr_ 0) (Place.var 1)

/-- What is observed of an execution: why it stopped, if it did, and of the
heap it ended or stopped in the control blocks `0` and `1`, the handles in
the variables `0` and `1`, and whether the objects at `1` and `2` are
destroyed. -/
def Exec.observe (e : Exec Heap) :
    Option Stop × (Int × Int × List Hook × Bool) × (Int × Int × List Hook × Bool) ×
      Handle × Handle × Bool × Bool :=
  (e.stop, e.heap.view 0, e.heap.view 1, e.heap.cell (Place.var 0), e.heap.cell (Place.var 1),
    (e.heap.objects 1).destroyed, (e.heap.objects 2).destroyed)

end Graph

/-! # Lemmas on the heap operations -/

@[simp] theorem modifyBlock_blocks (m : Mem) (b : Nat) (f : ControlBlock → ControlBlock) :
    (m.modifyBlock b f).blocks = Function.update m.blocks b (f (m.blocks b)) := rfl

@[simp] theorem modifyBlock_nblocks (m : Mem) (b : Nat) (f : ControlBlock → ControlBlock) :
    (m.modifyBlock b f).nblocks = m.nblocks := rfl

@[simp] theorem modifyBlock_objects (m : Mem) (b : Nat) (f : ControlBlock → ControlBlock) :
    (m.modifyBlock b f).objects = m.objects := rfl

@[simp] theorem modifyObject_blocks (m : Mem) (p : Nat) (f : Object → Object) :
    (m.modifyObject p f).blocks = m.blocks := rfl

@[simp] theorem modifyObject_nblocks (m : Mem) (p : Nat) (f : Object → Object) :
    (m.modifyObject p f).nblocks = m.nblocks := rfl

@[simp] theorem destroyObject_blocks (m : Mem) (p : Nat) :
    (destroyObject m p).blocks = m.blocks := rfl

@[simp] theorem destroyObject_nblocks (m : Mem) (p : Nat) :
    (destroyObject m p).nblocks = m.nblocks := rfl

theorem IncrementShared_blocks (m : Mem) (b : Nat) :
    (IncrementShared m b).blocks = Function.update m.blocks b
      { m.blocks b with shared_count_ := (m.blocks b).shared_count_ + 1 } := rfl

theorem IncrementWeak_blocks (m : Mem) (b : Nat) :
    (IncrementWeak m b).blocks = Function.update m.blocks b
      { m.blocks b with weak_count_ := (m.blocks b).weak_count_ + 1 } := rfl

theorem OnZeroWeak_blocks (m : Mem) (b : Nat) :
    (OnZeroWeak m b).blocks =
      Function.update m.blocks b { m.blocks b with log := (m.blocks b).log ++ [Hook.OnZeroWeak] } :=
  rfl

theorem PointerControlBlock_OnZeroShared_blocks (m : Mem) (b : Nat) :
    (PointerControlBlock.OnZeroShared m b).blocks = Function.update m.blocks b
      { m.blocks b with ptr_ := 0, log := (m.blocks b).log ++ [Hook.OnZeroShared] } := by
  unfold PointerControlBlock.OnZeroShared
  by_cases h : (m.blocks b).ptr_ = 0 <;> simp [h]

theorem EmplaceControlBlock_OnZeroShared_blocks (m : Mem) (b : Nat) :
    (EmplaceControlBlock.OnZeroShared m b).blocks = Function.update m.blocks b
      { m.blocks b with log := (m.blocks b).log ++ [Hook.OnZeroShared] } := by
  simp [EmplaceControlBlock.OnZeroShared]

/-- `DecrementShared` rewrites exactly the block it is called on, to the
closed form `decShared`. -/
theorem DecrementShared_blocks (m : Mem) (b : Nat) :
    (DecrementShared m b).blocks = Function.update m.blocks b (m.blocks b).decShared := by
  unfold DecrementShared PointerControlBlock.DecrementShared EmplaceControlBlock.DecrementShared
    ControlBlock.decShared
  rcases hc : m.blocks b with ⟨s, wk, k, e, p, l⟩
  cases k <;> cases e <;> by_cases h1 : s - 1 = 0 <;> by_cases h2 : wk = 0 <;>
    by_cases h3 : wk = 1 <;>
    simp [hc, h1, h2, h3, OnZeroWeak_blocks, PointerControlBlock_OnZeroShared_blocks,
      EmplaceControlBlock_OnZeroShared_blocks]

/-- `DecrementWeak` rewrites exactly the block it is called on, to the closed
form `decWeak`. -/
theorem DecrementWeak_blocks (m : Mem) (b : Nat) :
    (DecrementWeak m b).blocks = Function.update m.blocks b (m.blocks b).decWeak := by
  unfold DecrementWeak PointerControlBlock.DecrementWeak EmplaceControlBlock.DecrementWeak
    OnZeroWeak ControlBlock.decWeak
  rcases hc : m.blocks b with ⟨s, wk, k, e, p, l⟩
  cases k <;> cases e <;> by_cases h1 : wk - 1 = 0 <;> by_cases h2 : s = 0 <;>
    by_cases h3 : wk - 1 = 1 <;> simp [hc, h1, h2, h3]

theorem DecrementShared_nblocks (m : Mem) (b : Nat) :
    (DecrementShared m b).nblocks = m.nblocks := by
  unfold DecrementShared PointerControlBlock.DecrementShared EmplaceControlBlock.DecrementShared
    PointerControlBlock.OnZeroShared EmplaceControlBlock.OnZeroShared OnZeroWeak
  cases (m.blocks b).kind <;> simp only [] <;> split_ifs <;> rfl

theorem DecrementWeak_nblocks (m : Mem) (b : Nat) :
    (DecrementWeak m b).nblocks = m.nblocks := by
  unfold DecrementWeak PointerControlBlock.DecrementWeak EmplaceControlBlock.DecrementWeak
    OnZeroWeak
  cases (m.blocks b).kind <;> simp only [] <;> split_ifs <;> rfl

theorem IncrementWeak_blocks_apply (m : Mem) (b b0 : Nat) :
    ((IncrementWeak m b).blocks b0).shared_count_ = (m.blocks b0).shared_count_ ∧
    ((IncrementWeak m b).blocks b0).log = (m.blocks b0).log := by
  rw [IncrementWeak_blocks]
  by_cases h : b0 = b
  · subst h; simp
  · simp [Function.update_noteq h]

/-- The helper leaves `shared_count_` and the log of the handle's own block
as they were. -/
theorem EnableSharedFromThisHelper_block (m : Mem) (this : SharedPtr) (base b : Nat)
    (hcb : this.control_block_ = some b) (hbase : base ≠ 0) :
    ∃ m1, EnableSharedFromThisHelper m this base = some m1 ∧
      (m1.blocks b).shared_count_ = (m.blocks b).shared_count_ ∧
      (m1.blocks b).log = (m.blocks b).log := by
  unfold EnableSharedFromThisHelper WeakPtr.assignShared
  simp only [hbase, if_false, SharedPtr.GetControlBlock, hcb, SharedPtr.Get]
  refine ⟨_, rfl, ?_⟩
  by_cases hs : (m.objects base).self.control_block_ = some b
  · simp [hs]
  · simp only [hs, if_false, modifyObject_blocks, ifBlock]
    rcases hs2 : (m.objects base).self.control_block_ with _ | b2
    · exact IncrementWeak_blocks_apply m b b
    · have hne : b ≠ b2 := by
        intro h; apply hs; rw [hs2, h]
      have := IncrementWeak_blocks_apply (DecrementWeak m b2) b b
      simp only [this, DecrementWeak_blocks, Function.update_noteq hne]
      simp

theorem Lock_live (esft : Bool) (m : Mem) (w : WeakPtr) (b : Nat)
    (hcb : w.control_block_ = some b) (hn : (m.blocks b).shared_count_ ≠ 0)
    (hobj : esft = true → w.ptr_ ≠ 0) :
    ∃ m1, WeakPtr.Lock esft m w = some (m1, { ptr_ := w.ptr_, control_block_ := some b }) ∧
      (m1.blocks b).shared_count_ = (m.blocks b).shared_count_ + 1 ∧
      (m1.blocks b).log = (m.blocks b).log := by
  have hexp : w.Expired m = false := by
    simp [WeakPtr.Expired, WeakPtr.UseCount, hcb, hn]
  unfold WeakPtr.Lock SharedPtr.ofRaw
  simp only [hexp, hcb, ifBlock]
  cases esft with
  | false => exact ⟨_, rfl, by simp [IncrementShared_blocks], by simp [IncrementShared_blocks]⟩
  | true =>
    obtain ⟨m1, h1, h2, h3⟩ := EnableSharedFromThisHelper_block (IncrementShared m b)
      { ptr_ := w.ptr_, control_block_ := some b } w.ptr_ b rfl (hobj rfl)
    refine ⟨m1, by simp [h1], ?_, ?_⟩
    · rw [h2]; simp [IncrementShared_blocks]
    · rw [h3]; simp [IncrementShared_blocks]

theorem ind_none (b : Nat) : ind b none = 0 := rfl

theorem ind_some (b c : Nat) : ind b (some c) = if c = b then 1 else 0 := by
  simp [ind]

theorem sc_ifBlock_inc (m : Mem) (cb : Option Nat) (b : Nat) :
    (ifBlock cb IncrementShared m).sc b = m.sc b + ind b cb := by
  cases cb with
  | none => simp [ifBlock, ind]
  | some c =>
    by_cases h : b = c
    · subst h; simp [ifBlock, ind, Mem.sc, IncrementShared_blocks]
    · have h2 : c ≠ b := fun e => h e.symm
      simp [ifBlock, ind, Mem.sc, IncrementShared_blocks, Function.update_noteq h, h2]

theorem sc_ifBlock_dec (m : Mem) (cb : Option Nat) (b : Nat) :
    (ifBlock cb DecrementShared m).sc b = m.sc b - ind b cb := by
  cases cb with
  | none => simp [ifBlock, ind]
  | some c =>
    by_cases h : b = c
    · subst h; simp [ifBlock, ind, Mem.sc, DecrementShared_blocks, ControlBlock.decShared]
    · have h2 : c ≠ b := fun e => h e.symm
      simp [ifBlock, ind, Mem.sc, DecrementShared_blocks, Function.update_noteq h, h2]

theorem zs_ifBlock_inc (m : Mem) (cb : Option Nat) (b : Nat) :
    (ifBlock cb IncrementShared m).zs b = m.zs b := by
  cases cb with
  | none => simp [ifBlock]
  | some c =>
    by_cases h : b = c
    · subst h; simp [ifBlock, Mem.zs, IncrementShared_blocks, ControlBlock.zeroShared]
    · simp [ifBlock, Mem.zs, IncrementShared_blocks, Function.update_noteq h]

theorem zs_ifBlock_dec (m : Mem) (cb : Option Nat) (b : Nat) :
    (ifBlock cb DecrementShared m).zs b =
      m.zs b + (if cb = some b ∧ m.sc b = 1 then 1 else 0) := by
  cases cb with
  | none => simp [ifBlock]
  | some c =>
    by_cases h : b = c
    · subst h
      by_cases h1 : (m.blocks b).shared_count_ = 1
      · simp [ifBlock, Mem.zs, Mem.sc, DecrementShared_blocks, ControlBlock.decShared,
          ControlBlock.zeroShared, h1, List.count_append]
        split_ifs <;> simp
      · have h1' : ¬ ((m.blocks b).shared_count_ - 1 = 0) := by omega
        simp [ifBlock, Mem.zs, Mem.sc, DecrementShared_blocks, ControlBlock.decShared,
          ControlBlock.zeroShared, h1, h1', List.count_append]
    · have h2 : c ≠ b := fun e => h e.symm
      simp [ifBlock, Mem.zs, DecrementShared_blocks, Function.update_noteq h, h2]

theorem sc_ifBlock_incW (m : Mem) (cb : Option Nat) (b : Nat) :
    (ifBlock cb IncrementWeak m).sc b = m.sc b := by
  cases cb with
  | none => simp [ifBlock]
  | some c =>
    by_cases h : b = c
    · subst h; simp [ifBlock, Mem.sc, IncrementWeak_blocks]
    · simp [ifBlock, Mem.sc, IncrementWeak_blocks, Function.update_noteq h]

theorem zs_ifBlock_incW (m : Mem) (cb : Option Nat) (b : Nat) :
    (ifBlock cb IncrementWeak m).zs b = m.zs b := by
  cases cb with
  | none => simp [ifBlock]
  | some c =>
    by_cases h : b = c
    · subst h; simp [ifBlock, Mem.zs, IncrementWeak_blocks, ControlBlock.zeroShared]
    · simp [ifBlock, Mem.zs, IncrementWeak_blocks, Function.update_noteq h]

theorem sc_ifBlock_decW (m : Mem) (cb : Option Nat) (b : Nat) :
    (ifBlock cb DecrementWeak m).sc b = m.sc b := by
  cases cb with
  | none => simp [ifBlock]
  | some c =>
    by_cases h : b = c
    · subst h; simp [ifBlock, Mem.sc, DecrementWeak_blocks, ControlBlock.decWeak]
    · simp [ifBlock, Mem.sc, DecrementWeak_blocks, Function.update_noteq h]

theorem zs_ifBlock_decW (m : Mem) (cb : Option Nat) (b : Nat) :
    (ifBlock cb DecrementWeak m).zs b = m.zs b := by
  cases cb with
  | none => simp [ifBlock]
  | some c =>
    by_cases h : b = c
    · subst h
      simp [ifBlock, Mem.zs, DecrementWeak_blocks, ControlBlock.decWeak, ControlBlock.zeroShared,
        List.count_append]
      split_ifs <;> simp
    · simp [ifBlock, Mem.zs, DecrementWeak_blocks, Function.update_noteq h]

theorem nblocks_ifBlock (m : Mem) (cb : Option Nat) (f : Mem → Nat → Mem)
    (hf : ∀ m b, (f m b).nblocks = m.nblocks) : (ifBlock cb f m).nblocks = m.nblocks := by
  cases cb <;> simp [ifBlock, hf]


/-! ## `shared_count_` after each handle operation -/

theorem sc_modifyObject (m : Mem) (p : Nat) (f : Object → Object) (b : Nat) :
    (m.modifyObject p f).sc b = m.sc b := rfl

theorem zs_modifyObject (m : Mem) (p : Nat) (f : Object → Object) (b : Nat) :
    (m.modifyObject p f).zs b = m.zs b := rfl

theorem sc_newPointerControlBlock (esft : Bool) (m : Mem) (p b : Nat) :
    (newPointerControlBlock esft m p).1.sc b = if b = m.nblocks then 1 else m.sc b := by
  by_cases h : b = m.nblocks
  · subst h; simp [newPointerControlBlock, Mem.sc]
  · simp [newPointerControlBlock, Mem.sc, Function.update_noteq h, h]

theorem zs_newPointerControlBlock (esft : Bool) (m : Mem) (p b : Nat) :
    (newPointerControlBlock esft m p).1.zs b = if b = m.nblocks then 0 else m.zs b := by
  by_cases h : b = m.nblocks
  · subst h; simp [newPointerControlBlock, Mem.zs, ControlBlock.zeroShared]
  · simp [newPointerControlBlock, Mem.zs, Function.update_noteq h, h]

theorem sc_newEmplaceControlBlock (esft : Bool) (m : Mem) (b : Nat) :
    (newEmplaceControlBlock esft m).1.sc b = if b = m.nblocks then 1 else m.sc b := by
  by_cases h : b = m.nblocks
  · subst h; simp [newEmplaceControlBlock, Mem.sc]
  · simp [newEmplaceControlBlock, Mem.sc, Function.update_noteq h, h]

theorem zs_newEmplaceControlBlock (esft : Bool) (m : Mem) (b : Nat) :
    (newEmplaceControlBlock esft m).1.zs b = if b = m.nblocks then 0 else m.zs b := by
  by_cases h : b = m.nblocks
  · subst h; simp [newEmplaceControlBlock, Mem.zs, ControlBlock.zeroShared]
  · simp [newEmplaceControlBlock, Mem.zs, Function.update_noteq h, h]

theorem sc_copyCtor (m : Mem) (o : SharedPtr) (b : Nat) :
    (SharedPtr.copyCtor m o).1.sc b = m.sc b + ind b o.control_block_ := by
  simp [SharedPtr.copyCtor, sc_ifBlock_inc]

theorem sc_Reset (m : Mem) (t : SharedPtr) (b : Nat) :
    (SharedPtr.Reset m t).1.sc b = m.sc b - ind b t.control_block_ := by
  simp [SharedPtr.Reset, sc_ifBlock_dec]

theorem sc_moveCtor (m : Mem) (o : SharedPtr) (b : Nat) :
    (SharedPtr.moveCtor m o).1.sc b = m.sc b := by
  simp [SharedPtr.moveCtor, sc_Reset, sc_ifBlock_inc]

theorem sc_aliasCtor (m : Mem) (o : SharedPtr) (p b : Nat) :
    (SharedPtr.aliasCtor m o p).1.sc b = m.sc b + ind b o.control_block_ := by
  simp [SharedPtr.aliasCtor, sc_ifBlock_inc, SharedPtr.GetControlBlock]

theorem sc_ofWeakPtr (m : Mem) (o : WeakPtr) (b : Nat) :
    (SharedPtr.ofWeakPtr m o).1.sc b =
      m.sc b + (if o.Expired m = true then 0 else ind b o.control_block_) := by
  unfold SharedPtr.ofWeakPtr
  by_cases h : o.Expired m = true
  · simp [h]
  · simp [h, sc_ifBlock_inc, WeakPtr.GetControlBlock]

theorem sc_copyAssign (m : Mem) (t o : SharedPtr) (b : Nat) :
    (SharedPtr.copyAssign m t o).1.sc b =
      m.sc b - ind b t.control_block_ + ind b o.control_block_ := by
  unfold SharedPtr.copyAssign
  by_cases h : t.control_block_ = o.control_block_
  · simp [h]
  · simp [h, sc_ifBlock_inc, sc_ifBlock_dec]

theorem sc_moveAssign (m : Mem) (t o : SharedPtr) (b : Nat) :
    (SharedPtr.moveAssign m t o).1.sc b = m.sc b - ind b t.control_block_ := by
  unfold SharedPtr.moveAssign
  by_cases h : t.control_block_ = o.control_block_
  · simp [h, sc_ifBlock_dec]
  · simp [h, sc_ifBlock_dec]

theorem sc_IncrementShared (m : Mem) (c b : Nat) :
    (IncrementShared m c).sc b = m.sc b + ind b (some c) :=
  sc_ifBlock_inc m (some c) b

theorem zs_IncrementShared (m : Mem) (c b : Nat) :
    (IncrementShared m c).zs b = m.zs b :=
  zs_ifBlock_inc m (some c) b

theorem sc_moveAssignU (m : Mem) (t o : SharedPtr) (b : Nat) (r : Mem × SharedPtr × SharedPtr)
    (hr : SharedPtr.moveAssignU m t o = some r) :
    r.1.sc b = m.sc b - ind b t.control_block_ := by
  unfold SharedPtr.moveAssignU at hr
  simp only [SharedPtr.GetControlBlock, SharedPtr.Get] at hr
  by_cases h : t.control_block_ = o.control_block_
  · simp only [h, if_true, Option.some.injEq] at hr
    subst hr
    simp [sc_Reset, h]
  · simp only [h, if_false] at hr
    cases hc : o.control_block_ with
    | none => simp [hc] at hr
    | some c =>
      simp only [hc, Option.some.injEq] at hr
      subst hr
      simp [sc_Reset, hc, sc_IncrementShared, sc_ifBlock_dec]

theorem sc_dtor (m : Mem) (t : SharedPtr) (b : Nat) :
    (SharedPtr.dtor m t).sc b = m.sc b - ind b t.control_block_ := by
  simp [SharedPtr.dtor, sc_ifBlock_dec]

theorem sc_ResetPtr (esft : Bool) (m : Mem) (t : SharedPtr) (p b : Nat) :
    (SharedPtr.ResetPtr esft m t p).1.sc b =
      if t.ptr_ = p then m.sc b
      else if b = m.nblocks then 1 else m.sc b - ind b t.control_block_ := by
  unfold SharedPtr.ResetPtr
  by_cases h : t.ptr_ = p
  · simp [h]
  · simp [h, sc_newPointerControlBlock, sc_ifBlock_dec, nblocks_ifBlock, DecrementShared_nblocks]


theorem nb_ifBlock_inc (m : Mem) (cb : Option Nat) :
    (ifBlock cb IncrementShared m).nblocks = m.nblocks :=
  nblocks_ifBlock m cb _ (fun _ _ => rfl)

theorem nb_ifBlock_dec (m : Mem) (cb : Option Nat) :
    (ifBlock cb DecrementShared m).nblocks = m.nblocks :=
  nblocks_ifBlock m cb _ DecrementShared_nblocks

theorem nb_ifBlock_incW (m : Mem) (cb : Option Nat) :
    (ifBlock cb IncrementWeak m).nblocks = m.nblocks :=
  nblocks_ifBlock m cb _ (fun _ _ => rfl)

theorem nb_ifBlock_decW (m : Mem) (cb : Option Nat) :
    (ifBlock cb DecrementWeak m).nblocks = m.nblocks :=
  nblocks_ifBlock m cb _ DecrementWeak_nblocks

/-- Every `WeakPtr` operation other than `Lock` leaves `shared_count_`, the
number of `OnZeroShared` runs and the number of blocks as they were. -/
theorem weak_copyCtor_shared (m : Mem) (o : WeakPtr) (b : Nat) :
    (WeakPtr.copyCtor m o).1.sc b = m.sc b ∧ (WeakPtr.copyCtor m o).1.zs b = m.zs b ∧
    (WeakPtr.copyCtor m o).1.nblocks = m.nblocks := by
  simp [WeakPtr.copyCtor, sc_ifBlock_incW, zs_ifBlock_incW, nb_ifBlock_incW]

theorem weak_Reset_shared (m : Mem) (t : WeakPtr) (b : Nat) :
    (WeakPtr.Reset m t).1.sc b = m.sc b ∧ (WeakPtr.Reset m t).1.zs b = m.zs b ∧
    (WeakPtr.Reset m t).1.nblocks = m.nblocks := by
  simp [WeakPtr.Reset, sc_ifBlock_decW, zs_ifBlock_decW, nb_ifBlock_decW]

theorem weak_moveCtor_shared (m : Mem) (o : WeakPtr) (b : Nat) :
    (WeakPtr.moveCtor m o).1.sc b = m.sc b ∧ (WeakPtr.moveCtor m o).1.zs b = m.zs b ∧
    (WeakPtr.moveCtor m o).1.nblocks = m.nblocks := by
  have h := weak_Reset_shared (ifBlock o.GetControlBlock IncrementWeak m) o b
  simp [WeakPtr.moveCtor, h, sc_ifBlock_incW, zs_ifBlock_incW, nb_ifBlock_incW]

theorem weak_ofSharedPtr_shared (m : Mem) (o : SharedPtr) (b : Nat) :
    (WeakPtr.ofSharedPtr m o).1.sc b = m.sc b ∧ (WeakPtr.ofSharedPtr m o).1.zs b = m.zs b ∧
    (WeakPtr.ofSharedPtr m o).1.nblocks = m.nblocks := by
  simp [WeakPtr.ofSharedPtr, sc_ifBlock_incW, zs_ifBlock_incW, nb_ifBlock_incW]

theorem weak_copyAssign_shared (m : Mem) (t o : WeakPtr) (b : Nat) :
    (WeakPtr.copyAssign m t o).1.sc b = m.sc b ∧ (WeakPtr.copyAssign m t o).1.zs b = m.zs b ∧
    (WeakPtr.copyAssign m t o).1.nblocks = m.nblocks := by
  unfold WeakPtr.copyAssign
  split_ifs <;>
    simp [sc_ifBlock_incW, zs_ifBlock_incW, nb_ifBlock_incW, sc_ifBlock_decW, zs_ifBlock_decW,
      nb_ifBlock_decW]

theorem weak_assignShared_shared (m : Mem) (t : WeakPtr) (o : SharedPtr) (b : Nat) :
    (WeakPtr.assignShared m t o).1.sc b = m.sc b ∧ (WeakPtr.assignShared m t o).1.zs b = m.zs b ∧
    (WeakPtr.assignShared m t o).1.nblocks = m.nblocks := by
  unfold WeakPtr.assignShared
  split_ifs <;>
    simp [sc_ifBlock_incW, zs_ifBlock_incW, nb_ifBlock_incW, sc_ifBlock_decW, zs_ifBlock_decW,
      nb_ifBlock_decW]

theorem weak_moveAssign_shared (m : Mem) (t o : WeakPtr) (b : Nat) :
    (WeakPtr.moveAssign m t o).1.sc b = m.sc b ∧ (WeakPtr.moveAssign m t o).1.zs b = m.zs b ∧
    (WeakPtr.moveAssign m t o).1.nblocks = m.nblocks := by
  unfold WeakPtr.moveAssign
  split_ifs <;> simp [sc_ifBlock_decW, zs_ifBlock_decW, nb_ifBlock_decW]

theorem weak_dtor_shared (m : Mem) (t : WeakPtr) (b : Nat) :
    (WeakPtr.dtor m t).sc b = m.sc b ∧ (WeakPtr.dtor m t).zs b = m.zs b ∧
    (WeakPtr.dtor m t).nblocks = m.nblocks := by
  simp [WeakPtr.dtor, sc_ifBlock_decW, zs_ifBlock_decW, nb_ifBlock_decW]

theorem helper_shared (m m1 : Mem) (t : SharedPtr) (base b : Nat)
    (h : EnableSharedFromThisHelper m t base = some m1) :
    m1.sc b = m.sc b ∧ m1.zs b = m.zs b ∧ m1.nblocks = m.nblocks ∧ base ≠ 0 := by
  unfold EnableSharedFromThisHelper at h
  by_cases hb : base = 0
  · simp [hb] at h
  · simp only [hb, if_false, Option.some.injEq] at h
    subst h
    have := weak_assignShared_shared m (m.objects base).self t b
    exact ⟨this.1, this.2.1, this.2.2, hb⟩

theorem ext_refl (m : Mem) : m.ext m := ⟨rfl, fun _ _ h => h⟩

theorem ext_trans {m m1 m2 : Mem} (h1 : m.ext m1) (h2 : m1.ext m2) : m.ext m2 :=
  ⟨h2.1.trans h1.1, fun q c h => h1.2 q c (h2.2 q c h)⟩

theorem ext_of_objects {m m1 : Mem} (hn : m1.nblocks = m.nblocks) (ho : m1.objects = m.objects) :
    m.ext m1 :=
  ⟨hn, fun q c h => by rw [ho] at h; exact h⟩

theorem ext_destroyObject (m : Mem) (p : Nat) : m.ext (destroyObject m p) := by
  refine ⟨rfl, fun q c h => ?_⟩
  unfold destroyObject Mem.modifyObject at h
  by_cases hq : q = p
  · subst hq; simp at h
  · simpa [Function.update_noteq hq] using h

theorem ext_modifyBlock {m m1 : Mem} (b : Nat) (f : ControlBlock → ControlBlock)
    (h : m.ext m1) : m.ext (m1.modifyBlock b f) :=
  ext_trans h (ext_of_objects rfl rfl)

theorem ext_OnZeroWeak {m m1 : Mem} (b : Nat) (h : m.ext m1) : m.ext (OnZeroWeak m1 b) :=
  ext_trans h (ext_of_objects rfl rfl)

theorem ext_PointerOnZeroShared {m m1 : Mem} (b : Nat) (h : m.ext m1) :
    m.ext (PointerControlBlock.OnZeroShared m1 b) := by
  unfold PointerControlBlock.OnZeroShared
  dsimp only
  split_ifs
  · exact ext_modifyBlock _ _ h
  · exact ext_trans (ext_modifyBlock _ _ h) (ext_destroyObject _ _)

theorem ext_EmplaceOnZeroShared {m m1 : Mem} (b : Nat) (h : m.ext m1) :
    m.ext (EmplaceControlBlock.OnZeroShared m1 b) := by
  unfold EmplaceControlBlock.OnZeroShared
  exact ext_trans (ext_modifyBlock _ _ h) (ext_destroyObject _ _)

theorem ext_DecrementShared (m : Mem) (b : Nat) : m.ext (DecrementShared m b) := by
  unfold DecrementShared PointerControlBlock.DecrementShared EmplaceControlBlock.DecrementShared
  cases (m.blocks b).kind <;> dsimp only <;> split_ifs <;>
    repeat (first
      | exact ext_refl _
      | with_reducible apply ext_OnZeroWeak
      | with_reducible apply ext_PointerOnZeroShared
      | with_reducible apply ext_EmplaceOnZeroShared
      | with_reducible apply ext_modifyBlock)

theorem DecrementWeak_objects (m : Mem) (b : Nat) : (DecrementWeak m b).objects = m.objects := by
  unfold DecrementWeak PointerControlBlock.DecrementWeak EmplaceControlBlock.DecrementWeak
    OnZeroWeak
  cases (m.blocks b).kind <;> simp only [] <;> split_ifs <;> rfl

theorem ext_DecrementWeak (m : Mem) (b : Nat) : m.ext (DecrementWeak m b) :=
  ext_of_objects (DecrementWeak_nblocks m b) (DecrementWeak_objects m b)

theorem ext_ifBlock (m : Mem) (cb : Option Nat) (f : Mem → Nat → Mem)
    (hf : ∀ (m : Mem) (b : Nat), m.ext (f m b)) : m.ext (ifBlock cb f m) := by
  cases cb with
  | none => exact ext_refl m
  | some b => exact hf m b

theorem ext_ifBlock_inc (m : Mem) (cb : Option Nat) : m.ext (ifBlock cb IncrementShared m) :=
  ext_ifBlock m cb _ (fun _ _ => ext_of_objects rfl rfl)

theorem ext_ifBlock_dec (m : Mem) (cb : Option Nat) : m.ext (ifBlock cb DecrementShared m) :=
  ext_ifBlock m cb _ ext_DecrementShared

theorem ext_ifBlock_incW (m : Mem) (cb : Option Nat) : m.ext (ifBlock cb IncrementWeak m) :=
  ext_ifBlock m cb _ (fun _ _ => ext_of_objects rfl rfl)

theorem ext_ifBlock_decW (m : Mem) (cb : Option Nat) : m.ext (ifBlock cb DecrementWeak m) :=
  ext_ifBlock m cb _ ext_DecrementWeak


theorem ext_copyCtor (m : Mem) (o : SharedPtr) : m.ext (SharedPtr.copyCtor m o).1 :=
  ext_ifBlock_inc m _

theorem ext_Reset (m : Mem) (t : SharedPtr) : m.ext (SharedPtr.Reset m t).1 :=
  ext_ifBlock_dec m _

theorem ext_moveCtor (m : Mem) (o : SharedPtr) : m.ext (SharedPtr.moveCtor m o).1 :=
  ext_trans (ext_ifBlock_inc m _) (ext_Reset _ _)

theorem ext_aliasCtor (m : Mem) (o : SharedPtr) (p : Nat) :
    m.ext (SharedPtr.aliasCtor m o p).1 :=
  ext_ifBlock_inc m _

theorem ext_ofWeakPtr (m : Mem) (o : WeakPtr) : m.ext (SharedPtr.ofWeakPtr m o).1 := by
  unfold SharedPtr.ofWeakPtr
  split_ifs
  · exact ext_refl m
  · exact ext_ifBlock_inc m _

theorem ext_copyAssign (m : Mem) (t o : SharedPtr) : m.ext (SharedPtr.copyAssign m t o).1 := by
  unfold SharedPtr.copyAssign
  split_ifs
  · exact ext_refl m
  · exact ext_trans (ext_ifBlock_dec m _) (ext_ifBlock_inc _ _)

theorem ext_moveAssign (m : Mem) (t o : SharedPtr) : m.ext (SharedPtr.moveAssign m t o).1 := by
  unfold SharedPtr.moveAssign
  split_ifs
  · exact ext_ifBlock_dec m _
  · exact ext_ifBlock_dec m _

theorem ext_moveAssignU (m : Mem) (t o : SharedPtr) (r : Mem × SharedPtr × SharedPtr)
    (hr : SharedPtr.moveAssignU m t o = some r) : m.ext r.1 := by
  unfold SharedPtr.moveAssignU at hr
  split_ifs at hr
  · simp only [Option.some.injEq] at hr
    subst hr
    exact ext_Reset _ _
  · cases hc : o.GetControlBlock with
    | none => simp [hc] at hr
    | some c =>
      simp only [hc, Option.some.injEq] at hr
      subst hr
      exact ext_trans (ext_trans (ext_ifBlock_dec m _) (ext_ifBlock_inc _ (some c))) (ext_Reset _ _)

theorem ext_dtor (m : Mem) (t : SharedPtr) : m.ext (SharedPtr.dtor m t) :=
  ext_ifBlock_dec m _

theorem ext_weak_copyCtor (m : Mem) (o : WeakPtr) : m.ext (WeakPtr.copyCtor m o).1 :=
  ext_ifBlock_incW m _

theorem ext_weak_Reset (m : Mem) (t : WeakPtr) : m.ext (WeakPtr.Reset m t).1 :=
  ext_ifBlock_decW m _

theorem ext_weak_moveCtor (m : Mem) (o : WeakPtr) : m.ext (WeakPtr.moveCtor m o).1 :=
  ext_trans (ext_ifBlock_incW m _) (ext_weak_Reset _ _)

theorem ext_weak_ofSharedPtr (m : Mem) (o : SharedPtr) : m.ext (WeakPtr.ofSharedPtr m o).1 :=
  ext_ifBlock_incW m _

theorem ext_weak_copyAssign (m : Mem) (t o : WeakPtr) :
    m.ext (WeakPtr.copyAssign m t o).1 := by
  unfold WeakPtr.copyAssign
  split_ifs
  · exact ext_refl m
  · exact ext_trans (ext_ifBlock_decW m _) (ext_ifBlock_incW _ _)

theorem ext_weak_assignShared (m : Mem) (t : WeakPtr) (o : SharedPtr) :
    m.ext (WeakPtr.assignShared m t o).1 := by
  unfold WeakPtr.assignShared
  split_ifs
  · exact ext_refl m
  · exact ext_trans (ext_ifBlock_decW m _) (ext_ifBlock_incW _ _)

theorem ext_weak_moveAssign (m : Mem) (t o : WeakPtr) :
    m.ext (WeakPtr.moveAssign m t o).1 := by
  unfold WeakPtr.moveAssign
  split_ifs
  · exact ext_ifBlock_decW m _
  · exact ext_ifBlock_decW m _

theorem ext_weak_dtor (m : Mem) (t : WeakPtr) : m.ext (WeakPtr.dtor m t) :=
  ext_ifBlock_decW m _

/-- The helper keeps the blocks, and an internal handle attached afterwards
was attached before or is attached to the block of `*this`. -/
theorem helper_self (m m1 : Mem) (t : SharedPtr) (base : Nat)
    (h : EnableSharedFromThisHelper m t base = some m1) :
    ∀ q c, (m1.objects q).self.control_block_ = some c →
      (m.objects q).self.control_block_ = some c ∨ t.control_block_ = some c := by
  unfold EnableSharedFromThisHelper at h
  by_cases hb : base = 0
  · simp [hb] at h
  · simp only [hb, if_false, Option.some.injEq] at h
    subst h
    intro q c hq
    have he := ext_weak_assignShared m (m.objects base).self t
    by_cases hqb : q = base
    · subst hqb
      simp only [Mem.modifyObject, Function.update_same] at hq
      unfold WeakPtr.assignShared at hq
      split_ifs at hq with h1
      · left
        simpa using hq
      · right
        simpa [SharedPtr.GetControlBlock] using hq
    · left
      apply he.2
      simpa [Mem.modifyObject, Function.update_noteq hqb] using hq

/-! ## Counting handle variables -/

theorem countP_set_add {α : Type} (p : α → Bool) :
    ∀ (l : List α) (i : Nat) (x y : α), l.get? i = some x →
      List.countP p (l.set i y) + (if p x = true then 1 else 0) =
        List.countP p l + (if p y = true then 1 else 0) := by
  intro l
  induction l with
  | nil => intro i x y h; simp at h
  | cons a t ih =>
    intro i x y h
    cases i with
    | zero =>
      simp only [List.get?_cons_zero, Option.some.injEq] at h
      subst h
      simp only [List.set_cons_zero, List.countP_cons]
      omega
    | succ n =>
      simp only [List.get?_cons_succ] at h
      have := ih n x y h
      simp only [List.set_cons_succ, List.countP_cons]
      omega

theorem on_some (b : Nat) (h : SharedPtr) :
    (if SharedPtr.on b (some h) = true then (1 : Int) else 0) = ind b h.control_block_ := by
  simp [SharedPtr.on, ind]

theorem getS_get {w : World} {i : Nat} {h : SharedPtr} (hg : w.getS i = some h) :
    w.sp.get? i = some (some h) := by
  unfold World.getS at hg
  cases hx : w.sp.get? i with
  | none => rw [hx] at hg; exact absurd hg (by simp [Option.join])
  | some x =>
    rw [hx] at hg
    cases x with
    | none => exact absurd hg (by simp [Option.join])
    | some y =>
      have : y = h := by simpa [Option.join] using hg
      rw [this]

theorem getS_mem {w : World} {i : Nat} {h : SharedPtr} (hg : w.getS i = some h) :
    some h ∈ w.sp :=
  List.get?_mem (getS_get hg)

theorem getW_get {w : World} {i : Nat} {h : WeakPtr} (hg : w.getW i = some h) :
    w.wp.get? i = some (some h) := by
  unfold World.getW at hg
  cases hx : w.wp.get? i with
  | none => rw [hx] at hg; exact absurd hg (by simp [Option.join])
  | some x =>
    rw [hx] at hg
    cases x with
    | none => exact absurd hg (by simp [Option.join])
    | some y =>
      have : y = h := by simpa [Option.join] using hg
      rw [this]

theorem getW_mem {w : World} {i : Nat} {h : WeakPtr} (hg : w.getW i = some h) :
    some h ∈ w.wp :=
  List.get?_mem (getW_get hg)

theorem cntS_append (b : Nat) (l : List (Option SharedPtr)) (h : SharedPtr) :
    cntS b (l ++ [some h]) = cntS b l + ind b h.control_block_ := by
  simp only [cntS, List.countP_append, List.countP_cons, List.countP_nil, Nat.cast_add,
    ← on_some]
  split_ifs <;> simp

theorem cntS_set (b : Nat) (l : List (Option SharedPtr)) (i : Nat) (h h1 : SharedPtr)
    (hg : l.get? i = some (some h)) :
    cntS b (l.set i (some h1)) = cntS b l - ind b h.control_block_ + ind b h1.control_block_ := by
  have := countP_set_add (SharedPtr.on b) l i (some h) (some h1) hg
  simp only [cntS, ← on_some]
  split_ifs at this ⊢ <;> omega

theorem cntS_set_none (b : Nat) (l : List (Option SharedPtr)) (i : Nat) (h : SharedPtr)
    (hg : l.get? i = some (some h)) :
    cntS b (l.set i none) = cntS b l - ind b h.control_block_ := by
  have := countP_set_add (SharedPtr.on b) l i (some h) none hg
  have hnone : SharedPtr.on b none = false := rfl
  simp only [hnone, Bool.false_eq_true, if_false, Nat.add_zero] at this
  simp only [cntS, ← on_some]
  split_ifs at this ⊢ <;> omega

theorem get?_set_self {α : Type} (l : List α) (i : Nat) (x y : α) (hg : l.get? i = some x) :
    (l.set i y).get? i = some y := by
  induction l generalizing i with
  | nil => simp at hg
  | cons a t ih =>
    cases i with
    | zero => simp
    | succ n => simpa using ih n (by simpa using hg)

theorem get?_set_other {α : Type} (l : List α) (i j : Nat) (y : α) (hne : i ≠ j) :
    (l.set i y).get? j = l.get? j := by
  induction l generalizing i j with
  | nil => simp
  | cons a t ih =>
    cases i with
    | zero =>
      cases j with
      | zero => exact absurd rfl hne
      | succ k => simp
    | succ n =>
      cases j with
      | zero => simp
      | succ k => simpa using ih n k (fun e => hne (by rw [e]))

theorem validS_append {n : Nat} {l : List (Option SharedPtr)} {h : SharedPtr}
    (hl : validS n l) (hh : ∀ c, h.control_block_ = some c → c < n) :
    validS n (l ++ [some h]) := by
  intro x c hx hc
  rcases List.mem_append.1 hx with h1 | h1
  · exact hl x c h1 hc
  · have : x = h := by simpa using h1
    subst this
    exact hh c hc

theorem validS_set {n : Nat} {l : List (Option SharedPtr)} {h : SharedPtr} (i : Nat)
    (hl : validS n l) (hh : ∀ c, h.control_block_ = some c → c < n) :
    validS n (l.set i (some h)) := by
  intro x c hx hc
  rcases List.mem_or_eq_of_mem_set hx with h1 | h1
  · exact hl x c h1 hc
  · have : x = h := by simpa using h1
    subst this
    exact hh c hc

theorem validS_set_none {n : Nat} {l : List (Option SharedPtr)} (i : Nat)
    (hl : validS n l) : validS n (l.set i none) := by
  intro x c hx hc
  rcases List.mem_or_eq_of_mem_set hx with h1 | h1
  · exact hl x c h1 hc
  · simp at h1

theorem validS_mono {n n1 : Nat} {l : List (Option SharedPtr)} (hn : n ≤ n1)
    (hl : validS n l) : validS n1 l :=
  fun x c hx hc => lt_of_lt_of_le (hl x c hx hc) hn

theorem validW_append {n : Nat} {l : List (Option WeakPtr)} {h : WeakPtr}
    (hl : validW n l) (hh : ∀ c, h.control_block_ = some c → c < n) :
    validW n (l ++ [some h]) := by
  intro x c hx hc
  rcases List.mem_append.1 hx with h1 | h1
  · exact hl x c h1 hc
  · have : x = h := by simpa using h1
    subst this
    exact hh c hc

theorem validW_set {n : Nat} {l : List (Option WeakPtr)} {h : WeakPtr} (i : Nat)
    (hl : validW n l) (hh : ∀ c, h.control_block_ = some c → c < n) :
    validW n (l.set i (some h)) := by
  intro x c hx hc
  rcases List.mem_or_eq_of_mem_set hx with h1 | h1
  · exact hl x c h1 hc
  · have : x = h := by simpa using h1
    subst this
    exact hh c hc

theorem validW_set_none {n : Nat} {l : List (Option WeakPtr)} (i : Nat)
    (hl : validW n l) : validW n (l.set i none) := by
  intro x c hx hc
  rcases List.mem_or_eq_of_mem_set hx with h1 | h1
  · exact hl x c h1 hc
  · simp at h1

theorem validW_mono {n n1 : Nat} {l : List (Option WeakPtr)} (hn : n ≤ n1)
    (hl : validW n l) : validW n1 l :=
  fun x c hx hc => lt_of_lt_of_le (hl x c hx hc) hn

theorem validSelf_ext {m m1 : Mem} (hm : validSelf m) (he : m.ext m1) : validSelf m1 :=
  fun q c hq => by rw [he.1]; exact hm q c (he.2 q c hq)

theorem cntS_eq_zero (b : Nat) (l : List (Option SharedPtr))
    (hl : ∀ h, some h ∈ l → h.control_block_ ≠ some b) : cntS b l = 0 := by
  unfold cntS
  have : List.countP (SharedPtr.on b) l = 0 := by
    rw [List.countP_eq_zero]
    intro x hx
    cases x with
    | none => simp [SharedPtr.on]
    | some h => simpa [SharedPtr.on] using hl h hx
  simp [this]

theorem cntS_fresh {n : Nat} {l : List (Option SharedPtr)} (hl : validS n l) : cntS n l = 0 :=
  cntS_eq_zero n l (fun h hx hc => lt_irrefl _ (hl h n hx hc))

theorem cntS_pos {b : Nat} {l : List (Option SharedPtr)} {h : SharedPtr}
    (hx : some h ∈ l) (hc : h.control_block_ = some b) : 1 ≤ cntS b l := by
  unfold cntS
  have : 0 < List.countP (SharedPtr.on b) l :=
    List.countP_pos_iff.2 ⟨some h, hx, by simp [SharedPtr.on, hc]⟩
  omega

theorem validS_get {w : World} {n i : Nat} {h : SharedPtr} (hl : validS n w.sp)
    (hg : w.getS i = some h) : ∀ c, h.control_block_ = some c → c < n :=
  fun c hc => hl h c (getS_mem hg) hc

theorem validW_get {w : World} {n i : Nat} {h : WeakPtr} (hl : validW n w.wp)
    (hg : w.getW i = some h) : ∀ c, h.control_block_ = some c → c < n :=
  fun c hc => hl h c (getW_mem hg) hc

theorem valid_none {n : Nat} : ∀ c, (none : Option Nat) = some c → c < n :=
  fun _ h => by simp at h

/-- A world built from a well-formed, counted world is well-formed and counted
when no block was allocated, the handles written are valid, and the change
of every `shared_count_` is the change of the number of live handles. -/
theorem counted_of (w : World) (m1 : Mem) (sp1 : List (Option SharedPtr))
    (wp1 : List (Option WeakPtr)) (hC : w.Counted)
    (hn : m1.nblocks = w.mem.nblocks) (hself : validSelf m1)
    (hsp : validS w.mem.nblocks sp1) (hwp : validW w.mem.nblocks wp1)
    (hcnt : ∀ b, m1.sc b - w.mem.sc b = cntS b sp1 - cntS b w.sp) :
    World.WF { mem := m1, sp := sp1, wp := wp1 } ∧
      World.Counted { mem := m1, sp := sp1, wp := wp1 } ∧ w.mem.nblocks ≤ m1.nblocks := by
  refine ⟨⟨?_, ?_, hself⟩, ?_, le_of_eq hn.symm⟩
  · simpa only [hn] using hsp
  · simpa only [hn] using hwp
  · intro b hb
    simp only [hn] at hb
    have h1 := hC b hb
    have h2 := hcnt b
    simp only at h1 h2 ⊢
    omega

theorem cb_copyAssign (m : Mem) (t o : SharedPtr) :
    (SharedPtr.copyAssign m t o).2.control_block_ = o.control_block_ := by
  unfold SharedPtr.copyAssign
  split_ifs with h <;> simp [h]

theorem cb_moveAssign (m : Mem) (t o : SharedPtr) :
    (SharedPtr.moveAssign m t o).2.1.control_block_ = o.control_block_ ∧
    (SharedPtr.moveAssign m t o).2.2.control_block_ = none := by
  unfold SharedPtr.moveAssign
  split_ifs with h <;> simp [h]

theorem cb_moveAssignU (m : Mem) (t o : SharedPtr) (r : Mem × SharedPtr × SharedPtr)
    (hr : SharedPtr.moveAssignU m t o = some r) :
    r.2.1.control_block_ = o.control_block_ ∧ r.2.2.control_block_ = none := by
  unfold SharedPtr.moveAssignU at hr
  simp only [SharedPtr.GetControlBlock, SharedPtr.Get] at hr
  split_ifs at hr with h
  · simp only [Option.some.injEq] at hr
    subst hr
    simp [h, SharedPtr.Reset]
  · cases hc : o.control_block_ with
    | none => simp [hc] at hr
    | some c =>
      simp only [hc, Option.some.injEq] at hr
      subst hr
      simp [SharedPtr.Reset]

theorem cb_weak_copyAssign (m : Mem) (t o : WeakPtr) :
    (WeakPtr.copyAssign m t o).2.control_block_ = o.control_block_ := by
  unfold WeakPtr.copyAssign
  split_ifs with h <;> simp [h]

theorem cb_weak_assignShared (m : Mem) (t : WeakPtr) (o : SharedPtr) :
    (WeakPtr.assignShared m t o).2.control_block_ = o.control_block_ := by
  unfold WeakPtr.assignShared
  split_ifs with h <;> simp [h, SharedPtr.GetControlBlock]

theorem cb_weak_moveAssign (m : Mem) (t o : WeakPtr) :
    (WeakPtr.moveAssign m t o).2.1.control_block_ = o.control_block_ ∧
    (WeakPtr.moveAssign m t o).2.2.control_block_ = none := by
  unfold WeakPtr.moveAssign
  split_ifs with h <;> simp [h]

theorem cntS_set_set (b : Nat) (l : List (Option SharedPtr)) (i j : Nat) (t o t1 o1 : SharedPtr)
    (hi : l.get? i = some (some t)) (hj : l.get? j = some (some o)) :
    cntS b ((l.set i (some t1)).set j (some o1)) =
      if i = j then cntS b l - ind b t.control_block_ + ind b o1.control_block_
      else cntS b l - ind b t.control_block_ + ind b t1.control_block_
        - ind b o.control_block_ + ind b o1.control_block_ := by
  by_cases hij : i = j
  · subst hij
    simp only [if_true, List.set_set]
    exact cntS_set b l i t o1 hi
  · simp only [hij, if_false]
    rw [cntS_set b (l.set i (some t1)) j o o1 (by rw [get?_set_other l i j _ hij]; exact hj),
      cntS_set b l i t t1 hi]

theorem validS_set_set {n : Nat} {l : List (Option SharedPtr)} {t1 o1 : SharedPtr} (i j : Nat)
    (hl : validS n l) (h1 : ∀ c, t1.control_block_ = some c → c < n)
    (h2 : ∀ c, o1.control_block_ = some c → c < n) :
    validS n ((l.set i (some t1)).set j (some o1)) :=
  validS_set j (validS_set i hl h1) h2

theorem validW_set_set {n : Nat} {l : List (Option WeakPtr)} {t1 o1 : WeakPtr} (i j : Nat)
    (hl : validW n l) (h1 : ∀ c, t1.control_block_ = some c → c < n)
    (h2 : ∀ c, o1.control_block_ = some c → c < n) :
    validW n ((l.set i (some t1)).set j (some o1)) :=
  validW_set j (validW_set i hl h1) h2

theorem same_slot {w : World} {i j : Nat} {t o : SharedPtr} (hi : w.getS i = some t)
    (hj : w.getS j = some o) (hij : i = j) : t = o := by
  subst hij
  rw [hi] at hj
  exact Option.some.inj hj

theorem cb_copyCtor (m : Mem) (o : SharedPtr) :
    (SharedPtr.copyCtor m o).2.control_block_ = o.control_block_ := rfl

theorem cb_moveCtor (m : Mem) (o : SharedPtr) :
    (SharedPtr.moveCtor m o).2.1.control_block_ = o.control_block_ ∧
    (SharedPtr.moveCtor m o).2.2.control_block_ = none := ⟨rfl, rfl⟩

theorem cb_aliasCtor (m : Mem) (o : SharedPtr) (p : Nat) :
    (SharedPtr.aliasCtor m o p).2.control_block_ = o.control_block_ := rfl

theorem cb_Reset (m : Mem) (t : SharedPtr) :
    (SharedPtr.Reset m t).2.control_block_ = none := rfl

theorem valid_of_eq {n : Nat} {x y : Option Nat} (hxy : x = y)
    (hy : ∀ c, y = some c → c < n) : ∀ c, x = some c → c < n := by
  subst hxy
  exact hy

theorem step_counted_spDefault (esft : Bool) (w w1 : World)
    (hW : w.WF) (hC : w.Counted) (hs : step esft w Op.spDefault = some w1) :
    w1.WF ∧ w1.Counted ∧ w.mem.nblocks ≤ w1.mem.nblocks := by
  simp only [step, Option.some.injEq] at hs
  subst hs
  refine counted_of w _ _ _ hC rfl hW.2.2 (validS_append hW.1 valid_none) hW.2.1 (fun b => ?_)
  simp only [cntS_append, ind_none]
  omega

theorem step_counted_spCopy (esft : Bool) (w w1 : World) (i : Nat)
    (hW : w.WF) (hC : w.Counted) (hs : step esft w (Op.spCopy i) = some w1) :
    w1.WF ∧ w1.Counted ∧ w.mem.nblocks ≤ w1.mem.nblocks := by
  simp only [step] at hs
  cases hg : w.getS i with
  | none =>
    simp only [hg, Option.some.injEq] at hs
    subst hs
    exact ⟨hW, hC, le_refl _⟩
  | some o =>
    simp only [hg, Option.some.injEq] at hs
    subst hs
    have he := ext_copyCtor w.mem o
    refine counted_of w _ _ _ hC he.1 (validSelf_ext hW.2.2 he)
      (validS_append hW.1 (validS_get hW.1 hg)) hW.2.1 (fun b => ?_)
    simp only [sc_copyCtor, cntS_append, cb_copyCtor]
    omega

theorem step_counted_spMove (esft : Bool) (w w1 : World) (i : Nat)
    (hW : w.WF) (hC : w.Counted) (hs : step esft w (Op.spMove i) = some w1) :
    w1.WF ∧ w1.Counted ∧ w.mem.nblocks ≤ w1.mem.nblocks := by
  simp only [step] at hs
  cases hg : w.getS i with
  | none =>
    simp only [hg, Option.some.injEq] at hs
    subst hs
    exact ⟨hW, hC, le_refl _⟩
  | some o =>
    simp only [hg, Option.some.injEq] at hs
    subst hs
    have he := ext_moveCtor w.mem o
    refine counted_of w _ _ _ hC he.1 (validSelf_ext hW.2.2 he)
      (validS_append (validS_set i hW.1 (valid_of_eq (cb_moveCtor w.mem o).2 valid_none))
        (validS_get hW.1 hg)) hW.2.1 (fun b => ?_)
    simp only [sc_moveCtor, cntS_append, cntS_set b w.sp i o _ (getS_get hg),
      (cb_moveCtor w.mem o).1, (cb_moveCtor w.mem o).2, ind_none]
    omega

theorem step_counted_spAlias (esft : Bool) (w w1 : World) (i p : Nat)
    (hW : w.WF) (hC : w.Counted) (hs : step esft w (Op.spAlias i p) = some w1) :
    w1.WF ∧ w1.Counted ∧ w.mem.nblocks ≤ w1.mem.nblocks := by
  simp only [step] at hs
  cases hg : w.getS i with
  | none =>
    simp only [hg, Option.some.injEq] at hs
    subst hs
    exact ⟨hW, hC, le_refl _⟩
  | some o =>
    simp only [hg, Option.some.injEq] at hs
    subst hs
    have he := ext_aliasCtor w.mem o p
    refine counted_of w _ _ _ hC he.1 (validSelf_ext hW.2.2 he)
      (validS_append hW.1 (valid_of_eq (cb_aliasCtor w.mem o p) (validS_get hW.1 hg)))
      hW.2.1 (fun b => ?_)
    simp only [sc_aliasCtor, cntS_append, cb_aliasCtor]
    omega

theorem step_counted_spDtor (esft : Bool) (w w1 : World) (i : Nat)
    (hW : w.WF) (hC : w.Counted) (hs : step esft w (Op.spDtor i) = some w1) :
    w1.WF ∧ w1.Counted ∧ w.mem.nblocks ≤ w1.mem.nblocks := by
  simp only [step] at hs
  cases hg : w.getS i with
  | none =>
    simp only [hg, Option.some.injEq] at hs
    subst hs
    exact ⟨hW, hC, le_refl _⟩
  | some o =>
    simp only [hg, Option.some.injEq] at hs
    subst hs
    have he := ext_dtor w.mem o
    refine counted_of w _ _ _ hC he.1 (validSelf_ext hW.2.2 he)
      (validS_set_none i hW.1) hW.2.1 (fun b => ?_)
    simp only [sc_dtor, cntS_set_none b w.sp i o (getS_get hg)]
    omega

theorem step_counted_spReset (esft : Bool) (w w1 : World) (i : Nat)
    (hW : w.WF) (hC : w.Counted) (hs : step esft w (Op.spReset i) = some w1) :
    w1.WF ∧ w1.Counted ∧ w.mem.nblocks ≤ w1.mem.nblocks := by
  simp only [step] at hs
  cases hg : w.getS i with
  | none =>
    simp only [hg, Option.some.injEq] at hs
    subst hs
    exact ⟨hW, hC, le_refl _⟩
  | some o =>
    simp only [hg, Option.some.injEq] at hs
    subst hs
    have he := ext_Reset w.mem o
    refine counted_of w _ _ _ hC he.1 (validSelf_ext hW.2.2 he)
      (validS_set i hW.1 (valid_of_eq (cb_Reset w.mem o) valid_none)) hW.2.1 (fun b => ?_)
    simp only [sc_Reset, cntS_set b w.sp i o _ (getS_get hg), cb_Reset, ind_none]
    omega

theorem step_counted_spCopyAssign (esft : Bool) (w w1 : World) (i j : Nat)
    (hW : w.WF) (hC : w.Counted) (hs : step esft w (Op.spCopyAssign i j) = some w1) :
    w1.WF ∧ w1.Counted ∧ w.mem.nblocks ≤ w1.mem.nblocks := by
  simp only [step] at hs
  cases hgi : w.getS i with
  | none =>
    simp only [hgi, Option.some.injEq] at hs
    subst hs
    exact ⟨hW, hC, le_refl _⟩
  | some t =>
    cases hgj : w.getS j with
    | none =>
      simp only [hgi, hgj, Option.some.injEq] at hs
      subst hs
      exact ⟨hW, hC, le_refl _⟩
    | some o =>
      simp only [hgi, hgj, Option.some.injEq] at hs
      subst hs
      have he := ext_copyAssign w.mem t o
      refine counted_of w _ _ _ hC he.1 (validSelf_ext hW.2.2 he)
        (validS_set i hW.1 (valid_of_eq (cb_copyAssign w.mem t o) (validS_get hW.1 hgj)))
        hW.2.1 (fun b => ?_)
      simp only [sc_copyAssign, cntS_set b w.sp i t _ (getS_get hgi), cb_copyAssign]
      omega

theorem step_counted_spMoveAssign (esft : Bool) (w w1 : World) (i j : Nat)
    (hW : w.WF) (hC : w.Counted) (hs : step esft w (Op.spMoveAssign i j) = some w1) :
    w1.WF ∧ w1.Counted ∧ w.mem.nblocks ≤ w1.mem.nblocks := by
  simp only [step] at hs
  cases hgi : w.getS i with
  | none =>
    simp only [hgi, Option.some.injEq] at hs
    subst hs
    exact ⟨hW, hC, le_refl _⟩
  | some t =>
    cases hgj : w.getS j with
    | none =>
      simp only [hgi, hgj, Option.some.injEq] at hs
      subst hs
      exact ⟨hW, hC, le_refl _⟩
    | some o =>
      simp only [hgi, hgj, Option.some.injEq] at hs
      subst hs
      have he := ext_moveAssign w.mem t o
      have hcb := cb_moveAssign w.mem t o
      refine counted_of w _ _ _ hC he.1 (validSelf_ext hW.2.2 he)
        (validS_set_set i j hW.1 (valid_of_eq hcb.1 (validS_get hW.1 hgj))
          (valid_of_eq hcb.2 valid_none)) hW.2.1 (fun b => ?_)
      simp only [sc_moveAssign, cntS_set_set b w.sp i j t o _ _ (getS_get hgi) (getS_get hgj),
        hcb.1, hcb.2, ind_none]
      split_ifs <;> omega

theorem step_counted_spMoveAssignU (esft : Bool) (w w1 : World) (i j : Nat)
    (hW : w.WF) (hC : w.Counted) (hs : step esft w (Op.spMoveAssignU i j) = some w1) :
    w1.WF ∧ w1.Counted ∧ w.mem.nblocks ≤ w1.mem.nblocks := by
  simp only [step] at hs
  cases hgi : w.getS i with
  | none =>
    simp only [hgi, Option.some.injEq] at hs
    subst hs
    exact ⟨hW, hC, le_refl _⟩
  | some t =>
    cases hgj : w.getS j with
    | none =>
      simp only [hgi, hgj, Option.some.injEq] at hs
      subst hs
      exact ⟨hW, hC, le_refl _⟩
    | some o =>
      simp only [hgi, hgj] at hs
      cases hr : SharedPtr.moveAssignU w.mem t o with
      | none => simp [hr] at hs
      | some r =>
        simp only [hr, Option.map_some', Option.some.injEq] at hs
        subst hs
        have he := ext_moveAssignU w.mem t o r hr
        have hcb := cb_moveAssignU w.mem t o r hr
        refine counted_of w _ _ _ hC he.1 (validSelf_ext hW.2.2 he)
          (validS_set_set i j hW.1 (valid_of_eq hcb.1 (validS_get hW.1 hgj))
            (valid_of_eq hcb.2 valid_none)) hW.2.1 (fun b => ?_)
        simp only [sc_moveAssignU w.mem t o b r hr,
          cntS_set_set b w.sp i j t o _ _ (getS_get hgi) (getS_get hgj), hcb.1, hcb.2, ind_none]
        split_ifs <;> omega

theorem step_counted_spSwap (esft : Bool) (w w1 : World) (i j : Nat)
    (hW : w.WF) (hC : w.Counted) (hs : step esft w (Op.spSwap i j) = some w1) :
    w1.WF ∧ w1.Counted ∧ w.mem.nblocks ≤ w1.mem.nblocks := by
  simp only [step] at hs
  cases hgi : w.getS i with
  | none =>
    simp only [hgi, Option.some.injEq] at hs
    subst hs
    exact ⟨hW, hC, le_refl _⟩
  | some t =>
    cases hgj : w.getS j with
    | none =>
      simp only [hgi, hgj, Option.some.injEq] at hs
      subst hs
      exact ⟨hW, hC, le_refl _⟩
    | some o =>
      simp only [hgi, hgj, Option.some.injEq] at hs
      subst hs
      refine counted_of w _ _ _ hC rfl hW.2.2
        (validS_set_set i j hW.1 (validS_get hW.1 hgj) (validS_get hW.1 hgi)) hW.2.1
        (fun b => ?_)
      simp only [cntS_set_set b w.sp i j t o _ _ (getS_get hgi) (getS_get hgj), SharedPtr.Swap]
      split_ifs with hij
      · have := same_slot hgi hgj hij
        subst this
        omega
      · omega

theorem step_counted_wpDefault (esft : Bool) (w w1 : World)
    (hW : w.WF) (hC : w.Counted) (hs : step esft w Op.wpDefault = some w1) :
    w1.WF ∧ w1.Counted ∧ w.mem.nblocks ≤ w1.mem.nblocks := by
  simp only [step, Option.some.injEq] at hs
  subst hs
  refine counted_of w _ _ _ hC rfl hW.2.2 hW.1 (validW_append hW.2.1 valid_none) (fun b => ?_)
  omega

theorem step_counted_wpCopy (esft : Bool) (w w1 : World) (i : Nat)
    (hW : w.WF) (hC : w.Counted) (hs : step esft w (Op.wpCopy i) = some w1) :
    w1.WF ∧ w1.Counted ∧ w.mem.nblocks ≤ w1.mem.nblocks := by
  simp only [step] at hs
  cases hg : w.getW i with
  | none =>
    simp only [hg, Option.some.injEq] at hs
    subst hs
    exact ⟨hW, hC, le_refl _⟩
  | some o =>
    simp only [hg, Option.some.injEq] at hs
    subst hs
    have he := ext_weak_copyCtor w.mem o
    refine counted_of w _ _ _ hC he.1 (validSelf_ext hW.2.2 he) hW.1
      (validW_append hW.2.1 (validW_get hW.2.1 hg)) (fun b => ?_)
    have := (weak_copyCtor_shared w.mem o b).1
    omega

theorem step_counted_wpMove (esft : Bool) (w w1 : World) (i : Nat)
    (hW : w.WF) (hC : w.Counted) (hs : step esft w (Op.wpMove i) = some w1) :
    w1.WF ∧ w1.Counted ∧ w.mem.nblocks ≤ w1.mem.nblocks := by
  simp only [step] at hs
  cases hg : w.getW i with
  | none =>
    simp only [hg, Option.some.injEq] at hs
    subst hs
    exact ⟨hW, hC, le_refl _⟩
  | some o =>
    simp only [hg, Option.some.injEq] at hs
    subst hs
    have he := ext_weak_moveCtor w.mem o
    refine counted_of w _ _ _ hC he.1 (validSelf_ext hW.2.2 he) hW.1
      (validW_append (validW_set i hW.2.1 valid_none) (validW_get hW.2.1 hg)) (fun b => ?_)
    have := (weak_moveCtor_shared w.mem o b).1
    omega

theorem step_counted_wpOfShared (esft : Bool) (w w1 : World) (i : Nat)
    (hW : w.WF) (hC : w.Counted) (hs : step esft w (Op.wpOfShared i) = some w1) :
    w1.WF ∧ w1.Counted ∧ w.mem.nblocks ≤ w1.mem.nblocks := by
  simp only [step] at hs
  cases hg : w.getS i with
  | none =>
    simp only [hg, Option.some.injEq] at hs
    subst hs
    exact ⟨hW, hC, le_refl _⟩
  | some o =>
    simp only [hg, Option.some.injEq] at hs
    subst hs
    have he := ext_weak_ofSharedPtr w.mem o
    refine counted_of w _ _ _ hC he.1 (validSelf_ext hW.2.2 he) hW.1
      (validW_append hW.2.1 (validS_get hW.1 hg)) (fun b => ?_)
    have := (weak_ofSharedPtr_shared w.mem o b).1
    omega

theorem step_counted_wpCopyAssign (esft : Bool) (w w1 : World) (i j : Nat)
    (hW : w.WF) (hC : w.Counted) (hs : step esft w (Op.wpCopyAssign i j) = some w1) :
    w1.WF ∧ w1.Counted ∧ w.mem.nblocks ≤ w1.mem.nblocks := by
  simp only [step] at hs
  cases hgi : w.getW i with
  | none =>
    simp only [hgi, Option.some.injEq] at hs
    subst hs
    exact ⟨hW, hC, le_refl _⟩
  | some t =>
    cases hgj : w.getW j with
    | none =>
      simp only [hgi, hgj, Option.some.injEq] at hs
      subst hs
      exact ⟨hW, hC, le_refl _⟩
    | some o =>
      simp only [hgi, hgj, Option.some.injEq] at hs
      subst hs
      have he := ext_weak_copyAssign w.mem t o
      refine counted_of w _ _ _ hC he.1 (validSelf_ext hW.2.2 he) hW.1
        (validW_set i hW.2.1 (valid_of_eq (cb_weak_copyAssign w.mem t o) (validW_get hW.2.1 hgj)))
        (fun b => ?_)
      have := (weak_copyAssign_shared w.mem t o b).1
      omega

theorem step_counted_wpAssignShared (esft : Bool) (w w1 : World) (i j : Nat)
    (hW : w.WF) (hC : w.Counted) (hs : step esft w (Op.wpAssignShared i j) = some w1) :
    w1.WF ∧ w1.Counted ∧ w.mem.nblocks ≤ w1.mem.nblocks := by
  simp only [step] at hs
  cases hgi : w.getW i with
  | none =>
    simp only [hgi, Option.some.injEq] at hs
    subst hs
    exact ⟨hW, hC, le_refl _⟩
  | some t =>
    cases hgj : w.getS j with
    | none =>
      simp only [hgi, hgj, Option.some.injEq] at hs
      subst hs
      exact ⟨hW, hC, le_refl _⟩
    | some o =>
      simp only [hgi, hgj, Option.some.injEq] at hs
      subst hs
      have he := ext_weak_assignShared w.mem t o
      refine counted_of w _ _ _ hC he.1 (validSelf_ext hW.2.2 he) hW.1
        (validW_set i hW.2.1
          (valid_of_eq (cb_weak_assignShared w.mem t o) (validS_get hW.1 hgj)))
        (fun b => ?_)
      have := (weak_assignShared_shared w.mem t o b).1
      omega

theorem step_counted_wpMoveAssign (esft : Bool) (w w1 : World) (i j : Nat)
    (hW : w.WF) (hC : w.Counted) (hs : step esft w (Op.wpMoveAssign i j) = some w1) :
    w1.WF ∧ w1.Counted ∧ w.mem.nblocks ≤ w1.mem.nblocks := by
  simp only [step] at hs
  cases hgi : w.getW i with
  | none =>
    simp only [hgi, Option.some.injEq] at hs
    subst hs
    exact ⟨hW, hC, le_refl _⟩
  | some t =>
    cases hgj : w.getW j with
    | none =>
      simp only [hgi, hgj, Option.some.injEq] at hs
      subst hs
      exact ⟨hW, hC, le_refl _⟩
    | some o =>
      simp only [hgi, hgj, Option.some.injEq] at hs
      subst hs
      have he := ext_weak_moveAssign w.mem t o
      have hcb := cb_weak_moveAssign w.mem t o
      refine counted_of w _ _ _ hC he.1 (validSelf_ext hW.2.2 he) hW.1
        (validW_set_set i j hW.2.1 (valid_of_eq hcb.1 (validW_get hW.2.1 hgj))
          (valid_of_eq hcb.2 valid_none)) (fun b => ?_)
      have := (weak_moveAssign_shared w.mem t o b).1
      omega

theorem step_counted_wpDtor (esft : Bool) (w w1 : World) (i : Nat)
    (hW : w.WF) (hC : w.Counted) (hs : step esft w (Op.wpDtor i) = some w1) :
    w1.WF ∧ w1.Counted ∧ w.mem.nblocks ≤ w1.mem.nblocks := by
  simp only [step] at hs
  cases hg : w.getW i with
  | none =>
    simp only [hg, Option.some.injEq] at hs
    subst hs
    exact ⟨hW, hC, le_refl _⟩
  | some o =>
    simp only [hg, Option.some.injEq] at hs
    subst hs
    have he := ext_weak_dtor w.mem o
    refine counted_of w _ _ _ hC he.1 (validSelf_ext hW.2.2 he) hW.1
      (validW_set_none i hW.2.1) (fun b => ?_)
    have := (weak_dtor_shared w.mem o b).1
    omega

theorem step_counted_wpReset (esft : Bool) (w w1 : World) (i : Nat)
    (hW : w.WF) (hC : w.Counted) (hs : step esft w (Op.wpReset i) = some w1) :
    w1.WF ∧ w1.Counted ∧ w.mem.nblocks ≤ w1.mem.nblocks := by
  simp only [step] at hs
  cases hg : w.getW i with
  | none =>
    simp only [hg, Option.some.injEq] at hs
    subst hs
    exact ⟨hW, hC, le_refl _⟩
  | some o =>
    simp only [hg, Option.some.injEq] at hs
    subst hs
    have he := ext_weak_Reset w.mem o
    refine counted_of w _ _ _ hC he.1 (validSelf_ext hW.2.2 he) hW.1
      (validW_set i hW.2.1 valid_none) (fun b => ?_)
    have := (weak_Reset_shared w.mem o b).1
    omega

theorem step_counted_wpSwap (esft : Bool) (w w1 : World) (i j : Nat)
    (hW : w.WF) (hC : w.Counted) (hs : step esft w (Op.wpSwap i j) = some w1) :
    w1.WF ∧ w1.Counted ∧ w.mem.nblocks ≤ w1.mem.nblocks := by
  simp only [step] at hs
  cases hgi : w.getW i with
  | none =>
    simp only [hgi, Option.some.injEq] at hs
    subst hs
    exact ⟨hW, hC, le_refl _⟩
  | some t =>
    cases hgj : w.getW j with
    | none =>
      simp only [hgi, hgj, Option.some.injEq] at hs
      subst hs
      exact ⟨hW, hC, le_refl _⟩
    | some o =>
      simp only [hgi, hgj, Option.some.injEq] at hs
      subst hs
      refine counted_of w _ _ _ hC rfl hW.2.2 hW.1
        (validW_set_set i j hW.2.1 (validW_get hW.2.1 hgj) (validW_get hW.2.1 hgi))
        (fun b => ?_)
      omega

theorem ofWeakPtr_cases (m : Mem) (o : WeakPtr) :
    (o.Expired m = true ∧ SharedPtr.ofWeakPtr m o = (m, Except.error BadWeakPtr.thrown)) ∨
    (o.Expired m = false ∧ SharedPtr.ofWeakPtr m o =
      (ifBlock o.control_block_ IncrementShared m,
        Except.ok { ptr_ := o.ptr_, control_block_ := o.control_block_ })) := by
  unfold SharedPtr.ofWeakPtr
  cases h : o.Expired m
  · right; simp [WeakPtr.Get, WeakPtr.GetControlBlock]
  · left; simp

theorem step_counted_spOfWeak (esft : Bool) (w w1 : World) (j : Nat)
    (hW : w.WF) (hC : w.Counted) (hs : step esft w (Op.spOfWeak j) = some w1) :
    w1.WF ∧ w1.Counted ∧ w.mem.nblocks ≤ w1.mem.nblocks := by
  simp only [step] at hs
  cases hg : w.getW j with
  | none =>
    simp only [hg, Option.some.injEq] at hs
    subst hs
    exact ⟨hW, hC, le_refl _⟩
  | some o =>
    simp only [hg] at hs
    rcases ofWeakPtr_cases w.mem o with ⟨_, h2⟩ | ⟨_, h2⟩
    · simp only [h2, Option.some.injEq] at hs
      subst hs
      exact ⟨hW, hC, le_refl _⟩
    · simp only [h2, Option.some.injEq] at hs
      subst hs
      have he := ext_ifBlock_inc w.mem o.control_block_
      refine counted_of w _ _ _ hC he.1 (validSelf_ext hW.2.2 he)
        (validS_append hW.1 (validW_get hW.2.1 hg)) hW.2.1 (fun b => ?_)
      simp only [sc_ifBlock_inc, cntS_append]
      omega

theorem step_counted_sharedFromThis (esft : Bool) (w w1 : World) (p : Nat)
    (hW : w.WF) (hC : w.Counted) (hs : step esft w (Op.sharedFromThis p) = some w1) :
    w1.WF ∧ w1.Counted ∧ w.mem.nblocks ≤ w1.mem.nblocks := by
  simp only [step] at hs
  cases esft with
  | false =>
    simp only [Bool.false_eq_true, if_false, Option.some.injEq] at hs
    subst hs
    exact ⟨hW, hC, le_refl _⟩
  | true =>
    simp only [if_true, SharedFromThis] at hs
    rcases ofWeakPtr_cases w.mem (w.mem.objects p).self with ⟨_, h2⟩ | ⟨_, h2⟩
    · simp only [h2, Option.some.injEq] at hs
      subst hs
      exact ⟨hW, hC, le_refl _⟩
    · simp only [h2, Option.some.injEq] at hs
      subst hs
      have he := ext_ifBlock_inc w.mem (w.mem.objects p).self.control_block_
      refine counted_of w _ _ _ hC he.1 (validSelf_ext hW.2.2 he)
        (validS_append hW.1 (hW.2.2 p)) hW.2.1 (fun b => ?_)
      simp only [sc_ifBlock_inc, cntS_append]
      omega

theorem step_counted_weakFromThis (esft : Bool) (w w1 : World) (p : Nat)
    (hW : w.WF) (hC : w.Counted) (hs : step esft w (Op.weakFromThis p) = some w1) :
    w1.WF ∧ w1.Counted ∧ w.mem.nblocks ≤ w1.mem.nblocks := by
  simp only [step] at hs
  cases esft with
  | false =>
    simp only [Bool.false_eq_true, if_false, Option.some.injEq] at hs
    subst hs
    exact ⟨hW, hC, le_refl _⟩
  | true =>
    simp only [if_true, WeakFromThis, Option.some.injEq] at hs
    subst hs
    have he := ext_weak_copyCtor w.mem (w.mem.objects p).self
    refine counted_of w _ _ _ hC he.1 (validSelf_ext hW.2.2 he) hW.1
      (validW_append hW.2.1 (hW.2.2 p)) (fun b => ?_)
    have := (weak_copyCtor_shared w.mem (w.mem.objects p).self b).1
    omega

/-- `SharedPtr(T* ptr, ControlBlock* cb)`, when it returns: the handle is
`(ptr, cb)`, no block is allocated, `shared_count_` and the `OnZeroShared`
runs are untouched, and an internal handle is attached to `cb` at most. -/
theorem ofRaw_effect (esft : Bool) (m : Mem) (ptr : Nat) (cb : Option Nat)
    (r : Mem × SharedPtr) (hr : SharedPtr.ofRaw esft m ptr cb = some r) :
    r.2 = { ptr_ := ptr, control_block_ := cb } ∧ r.1.nblocks = m.nblocks ∧
    (∀ b, r.1.sc b = m.sc b ∧ r.1.zs b = m.zs b) ∧
    (∀ q c, (r.1.objects q).self.control_block_ = some c →
      (m.objects q).self.control_block_ = some c ∨ cb = some c) := by
  unfold SharedPtr.ofRaw at hr
  cases esft with
  | false =>
    simp only [Bool.false_eq_true, if_false, Option.some.injEq] at hr
    subst hr
    exact ⟨rfl, rfl, fun b => ⟨rfl, rfl⟩, fun q c h => Or.inl h⟩
  | true =>
    simp only [if_true] at hr
    cases hh : EnableSharedFromThisHelper m { ptr_ := ptr, control_block_ := cb } ptr with
    | none => simp [hh] at hr
    | some m1 =>
      simp only [hh, Option.map_some', Option.some.injEq] at hr
      subst hr
      refine ⟨rfl, (helper_shared m m1 _ ptr 0 hh).2.2.1, fun b => ?_, ?_⟩
      · exact ⟨(helper_shared m m1 _ ptr b hh).1, (helper_shared m m1 _ ptr b hh).2.1⟩
      · exact helper_self m m1 _ ptr hh

theorem Lock_effect (esft : Bool) (m : Mem) (t : WeakPtr) (r : Mem × SharedPtr)
    (hr : WeakPtr.Lock esft m t = some r) :
    r.2.control_block_ = t.control_block_ ∧ r.1.nblocks = m.nblocks ∧
    (∀ b, r.1.sc b = m.sc b + ind b t.control_block_) ∧
    (∀ q c, (r.1.objects q).self.control_block_ = some c →
      (m.objects q).self.control_block_ = some c ∨ t.control_block_ = some c) := by
  unfold WeakPtr.Lock at hr
  have he := ext_ifBlock_inc m t.control_block_
  split_ifs at hr
  all_goals
    obtain ⟨h1, h2, h3, h4⟩ := ofRaw_effect esft _ _ _ r hr
    refine ⟨by rw [h1], by rw [h2, he.1], fun b => ?_, fun q c hq => ?_⟩
    · rw [(h3 b).1, sc_ifBlock_inc]
    · rcases h4 q c hq with h5 | h5
      · exact Or.inl (he.2 q c h5)
      · exact Or.inr h5

theorem step_counted_wpLock (esft : Bool) (w w1 : World) (i : Nat)
    (hW : w.WF) (hC : w.Counted) (hs : step esft w (Op.wpLock i) = some w1) :
    w1.WF ∧ w1.Counted ∧ w.mem.nblocks ≤ w1.mem.nblocks := by
  simp only [step] at hs
  cases hg : w.getW i with
  | none =>
    simp only [hg, Option.some.injEq] at hs
    subst hs
    exact ⟨hW, hC, le_refl _⟩
  | some t =>
    simp only [hg] at hs
    cases hr : WeakPtr.Lock esft w.mem t with
    | none => simp [hr] at hs
    | some r =>
      simp only [hr, Option.map_some', Option.some.injEq] at hs
      subst hs
      obtain ⟨h1, h2, h3, h4⟩ := Lock_effect esft w.mem t r hr
      have hv := validW_get hW.2.1 hg
      refine counted_of w _ _ _ hC h2 ?_ (validS_append hW.1 (valid_of_eq h1 hv)) hW.2.1
        (fun b => ?_)
      · intro q c hq
        rw [h2]
        rcases h4 q c hq with h5 | h5
        · exact hW.2.2 q c h5
        · exact hv c h5
      · simp only [h3, cntS_append, h1]
        omega

/-- As `counted_of`, for an operation that allocated one block. -/
theorem counted_alloc (w : World) (m1 : Mem) (sp1 : List (Option SharedPtr))
    (wp1 : List (Option WeakPtr)) (hC : w.Counted)
    (hn : m1.nblocks = w.mem.nblocks + 1) (hself : validSelf m1)
    (hsp : validS (w.mem.nblocks + 1) sp1) (hwp : validW w.mem.nblocks wp1)
    (hcnt : ∀ b, b < w.mem.nblocks → m1.sc b - w.mem.sc b = cntS b sp1 - cntS b w.sp)
    (hnew : m1.sc w.mem.nblocks = cntS w.mem.nblocks sp1) :
    World.WF { mem := m1, sp := sp1, wp := wp1 } ∧
      World.Counted { mem := m1, sp := sp1, wp := wp1 } ∧ w.mem.nblocks ≤ m1.nblocks := by
  refine ⟨⟨?_, ?_, hself⟩, ?_, by omega⟩
  · simpa only [hn] using hsp
  · simpa only [hn] using validW_mono (Nat.le_succ _) hwp
  · intro b hb
    simp only [hn] at hb
    by_cases hb2 : b = w.mem.nblocks
    · subst hb2
      exact hnew
    · have hb3 : b < w.mem.nblocks := by omega
      have h1 := hC b hb3
      have h2 := hcnt b hb3
      simp only at h1 h2 ⊢
      omega

theorem valid_new {n : Nat} : ∀ c, some n = some c → c < n + 1 := by
  intro c h
  have : n = c := Option.some.inj h
  omega

theorem valid_succ {n : Nat} {x : Option Nat} (h : ∀ c, x = some c → c < n) :
    ∀ c, x = some c → c < n + 1 :=
  fun c hc => Nat.lt_succ_of_lt (h c hc)

theorem ext_newPointerControlBlock_self (esft : Bool) (m : Mem) (p : Nat) :
    (newPointerControlBlock esft m p).1.nblocks = m.nblocks + 1 ∧
    (newPointerControlBlock esft m p).1.objects = m.objects ∧
    (newPointerControlBlock esft m p).2 = m.nblocks := ⟨rfl, rfl, rfl⟩

theorem step_counted_spResetPtr (esft : Bool) (w w1 : World) (i p : Nat)
    (hW : w.WF) (hC : w.Counted) (hs : step esft w (Op.spResetPtr i p) = some w1) :
    w1.WF ∧ w1.Counted ∧ w.mem.nblocks ≤ w1.mem.nblocks := by
  simp only [step] at hs
  cases hg : w.getS i with
  | none =>
    simp only [hg, Option.some.injEq] at hs
    subst hs
    exact ⟨hW, hC, le_refl _⟩
  | some t =>
    simp only [hg, Option.some.injEq] at hs
    subst hs
    by_cases hp : t.ptr_ = p
    · have e : SharedPtr.ResetPtr esft w.mem t p = (w.mem, t) := by
        simp [SharedPtr.ResetPtr, hp]
      simp only [e]
      refine counted_of w _ _ _ hC rfl hW.2.2 (validS_set i hW.1 (validS_get hW.1 hg)) hW.2.1
        (fun b => ?_)
      simp only [cntS_set b w.sp i t t (getS_get hg)]
      omega
    · have he := ext_ifBlock_dec w.mem t.control_block_
      have e : SharedPtr.ResetPtr esft w.mem t p =
          ((newPointerControlBlock esft (ifBlock t.control_block_ DecrementShared w.mem) p).1,
            { ptr_ := p, control_block_ := some w.mem.nblocks }) := by
        simp [SharedPtr.ResetPtr, hp, newPointerControlBlock, he.1]
      simp only [e]
      refine counted_alloc w _ _ _ hC (by simp [newPointerControlBlock, he.1]) ?_
        (validS_set i (validS_mono (Nat.le_succ _) hW.1) valid_new) hW.2.1 (fun b hb => ?_) ?_
      · intro q c hq
        have := hW.2.2 q c (he.2 q c hq)
        simp only [newPointerControlBlock, he.1]
        omega
      · simp only [sc_newPointerControlBlock, he.1, Nat.ne_of_lt hb, if_false, sc_ifBlock_dec,
          cntS_set b w.sp i t _ (getS_get hg), ind_some, Nat.ne_of_gt hb]
        omega
      · simp only [sc_newPointerControlBlock, he.1, if_true,
          cntS_set w.mem.nblocks w.sp i t _ (getS_get hg), ind_some, cntS_fresh hW.1]
        have : ind w.mem.nblocks t.control_block_ = 0 := by
          unfold ind
          split_ifs with h
          · exact absurd (validS_get hW.1 hg _ h) (lt_irrefl _)
          · rfl
        omega

theorem ofPtr_effect (esft : Bool) (m : Mem) (p : Nat) (r : Mem × SharedPtr)
    (hr : SharedPtr.ofPtr esft m p = some r) :
    r.2 = { ptr_ := p, control_block_ := some m.nblocks } ∧ r.1.nblocks = m.nblocks + 1 ∧
    (∀ b, r.1.sc b = (if b = m.nblocks then 1 else m.sc b) ∧
      r.1.zs b = (if b = m.nblocks then 0 else m.zs b)) ∧
    (∀ q c, (r.1.objects q).self.control_block_ = some c →
      (m.objects q).self.control_block_ = some c ∨ c = m.nblocks) := by
  unfold SharedPtr.ofPtr at hr
  cases esft with
  | false =>
    simp only [Bool.false_eq_true, if_false, Option.some.injEq] at hr
    subst hr
    exact ⟨rfl, rfl, fun b => ⟨sc_newPointerControlBlock _ _ _ _,
      zs_newPointerControlBlock _ _ _ _⟩, fun q c h => Or.inl h⟩
  | true =>
    simp only [if_true] at hr
    cases hh : EnableSharedFromThisHelper (newPointerControlBlock true m p).1
        { ptr_ := p, control_block_ := some (newPointerControlBlock true m p).2 } p with
    | none => simp [hh] at hr
    | some m1 =>
      simp only [hh, Option.map_some', Option.some.injEq] at hr
      subst hr
      refine ⟨rfl, (helper_shared _ m1 _ p 0 hh).2.2.1, fun b => ?_, fun q c hq => ?_⟩
      · rw [(helper_shared _ m1 _ p b hh).1, (helper_shared _ m1 _ p b hh).2.1]
        exact ⟨sc_newPointerControlBlock _ _ _ _, zs_newPointerControlBlock _ _ _ _⟩
      · rcases helper_self _ m1 _ p hh q c hq with h5 | h5
        · exact Or.inl h5
        · right
          have : m.nblocks = c := Option.some.inj h5
          exact this.symm

theorem MakeShared_effect (esft : Bool) (m : Mem) (r : Mem × SharedPtr)
    (hr : MakeShared esft m = some r) :
    r.2 = { ptr_ := m.nobjects + 1, control_block_ := some m.nblocks } ∧
    r.1.nblocks = m.nblocks + 1 ∧
    (∀ b, r.1.sc b = (if b = m.nblocks then 1 else m.sc b) ∧
      r.1.zs b = (if b = m.nblocks then 0 else m.zs b)) ∧
    (∀ q c, (r.1.objects q).self.control_block_ = some c →
      (m.objects q).self.control_block_ = some c ∨ c = m.nblocks) := by
  unfold MakeShared at hr
  obtain ⟨h1, h2, h3, h4⟩ := ofRaw_effect esft _ _ _ r hr
  have hp : ((newEmplaceControlBlock esft m).1.blocks (newEmplaceControlBlock esft m).2).ptr_
      = m.nobjects + 1 := by
    simp [newEmplaceControlBlock]
  refine ⟨by rw [h1, hp]; rfl, by rw [h2]; rfl, fun b => ?_, fun q c hq => ?_⟩
  · rw [(h3 b).1, (h3 b).2]
    exact ⟨sc_newEmplaceControlBlock _ _ _, zs_newEmplaceControlBlock _ _ _⟩
  · rcases h4 q c hq with h5 | h5
    · left
      by_cases hq2 : q = m.nobjects + 1
      · subst hq2
        simp [newEmplaceControlBlock] at h5
      · simpa [newEmplaceControlBlock, Function.update_noteq hq2] using h5
    · right
      have : m.nblocks = c := Option.some.inj h5
      exact this.symm

/-- A world after an operation that allocated block `nblocks` and appended
one handle on it. -/
theorem counted_new (w : World) (m1 : Mem) (t : SharedPtr) (hW : w.WF) (hC : w.Counted)
    (ht : t.control_block_ = some w.mem.nblocks)
    (hn : m1.nblocks = w.mem.nblocks + 1)
    (hsc : ∀ b, m1.sc b = if b = w.mem.nblocks then 1 else w.mem.sc b)
    (hself : ∀ q c, (m1.objects q).self.control_block_ = some c →
      (w.mem.objects q).self.control_block_ = some c ∨ c = w.mem.nblocks) :
    World.WF { mem := m1, sp := w.sp ++ [some t], wp := w.wp } ∧
      World.Counted { mem := m1, sp := w.sp ++ [some t], wp := w.wp } ∧
      w.mem.nblocks ≤ m1.nblocks := by
  refine counted_alloc w _ _ _ hC hn ?_
    (validS_append (validS_mono (Nat.le_succ _) hW.1) (valid_of_eq ht valid_new)) hW.2.1
    (fun b hb => ?_) ?_
  · intro q c hq
    rw [hn]
    rcases hself q c hq with h | h
    · exact Nat.lt_succ_of_lt (hW.2.2 q c h)
    · omega
  · simp only [hsc, Nat.ne_of_lt hb, if_false, cntS_append, ht, ind_some, Nat.ne_of_gt hb]
    omega
  · simp only [hsc, if_true, cntS_append, ht, ind_some, cntS_fresh hW.1]
    omega

theorem step_counted_spOfPtr (esft : Bool) (w w1 : World) (p : Nat)
    (hW : w.WF) (hC : w.Counted) (hs : step esft w (Op.spOfPtr p) = some w1) :
    w1.WF ∧ w1.Counted ∧ w.mem.nblocks ≤ w1.mem.nblocks := by
  simp only [step] at hs
  cases hr : SharedPtr.ofPtr esft w.mem p with
  | none => simp [hr] at hs
  | some r =>
    simp only [hr, Option.map_some', Option.some.injEq] at hs
    subst hs
    obtain ⟨h1, h2, h3, h4⟩ := ofPtr_effect esft w.mem p r hr
    exact counted_new w r.1 r.2 hW hC (by rw [h1]) h2 (fun b => (h3 b).1) h4

theorem step_counted_makeShared (esft : Bool) (w w1 : World)
    (hW : w.WF) (hC : w.Counted) (hs : step esft w Op.makeShared = some w1) :
    w1.WF ∧ w1.Counted ∧ w.mem.nblocks ≤ w1.mem.nblocks := by
  simp only [step] at hs
  cases hr : MakeShared esft w.mem with
  | none => simp [hr] at hs
  | some r =>
    simp only [hr, Option.map_some', Option.some.injEq] at hs
    subst hs
    obtain ⟨h1, h2, h3, h4⟩ := MakeShared_effect esft w.mem r hr
    exact counted_new w r.1 r.2 hW hC (by rw [h1]) h2 (fun b => (h3 b).1) h4

/-- Every statement keeps a world well-formed and counted. -/
theorem step_counted (esft : Bool) (w w1 : World) (op : Op)
    (hW : w.WF) (hC : w.Counted) (hs : step esft w op = some w1) :
    w1.WF ∧ w1.Counted ∧ w.mem.nblocks ≤ w1.mem.nblocks := by
  cases op with
  | spDefault => exact step_counted_spDefault esft w w1 hW hC hs
  | spOfPtr p => exact step_counted_spOfPtr esft w w1 p hW hC hs
  | makeShared => exact step_counted_makeShared esft w w1 hW hC hs
  | spCopy i => exact step_counted_spCopy esft w w1 i hW hC hs
  | spMove i => exact step_counted_spMove esft w w1 i hW hC hs
  | spAlias i p => exact step_counted_spAlias esft w w1 i p hW hC hs
  | spOfWeak j => exact step_counted_spOfWeak esft w w1 j hW hC hs
  | spCopyAssign i j => exact step_counted_spCopyAssign esft w w1 i j hW hC hs
  | spMoveAssign i j => exact step_counted_spMoveAssign esft w w1 i j hW hC hs
  | spMoveAssignU i j => exact step_counted_spMoveAssignU esft w w1 i j hW hC hs
  | spDtor i => exact step_counted_spDtor esft w w1 i hW hC hs
  | spReset i => exact step_counted_spReset esft w w1 i hW hC hs
  | spResetPtr i p => exact step_counted_spResetPtr esft w w1 i p hW hC hs
  | spSwap i j => exact step_counted_spSwap esft w w1 i j hW hC hs
  | wpDefault => exact step_counted_wpDefault esft w w1 hW hC hs
  | wpCopy i => exact step_counted_wpCopy esft w w1 i hW hC hs
  | wpMove i => exact step_counted_wpMove esft w w1 i hW hC hs
  | wpOfShared i => exact step_counted_wpOfShared esft w w1 i hW hC hs
  | wpCopyAssign i j => exact step_counted_wpCopyAssign esft w w1 i j hW hC hs
  | wpAssignShared i j => exact step_counted_wpAssignShared esft w w1 i j hW hC hs
  | wpMoveAssign i j => exact step_counted_wpMoveAssign esft w w1 i j hW hC hs
  | wpDtor i => exact step_counted_wpDtor esft w w1 i hW hC hs
  | wpReset i => exact step_counted_wpReset esft w w1 i hW hC hs
  | wpSwap i j => exact step_counted_wpSwap esft w w1 i j hW hC hs
  | wpLock i => exact step_counted_wpLock esft w w1 i hW hC hs
  | sharedFromThis p => exact step_counted_sharedFromThis esft w w1 p hW hC hs
  | weakFromThis p => exact step_counted_weakFromThis esft w w1 p hW hC hs

theorem run_counted (esft : Bool) (ops : List Op) :
    ∀ (w w1 : World), w.WF → w.Counted → run esft w ops = some w1 → w1.WF ∧ w1.Counted ∧ w.mem.nblocks ≤ w1.mem.nblocks := by
  induction ops with
  | nil =>
    intro w w1 hW hC hr
    simp only [run, Option.some.injEq] at hr
    subst hr
    exact ⟨hW, hC, le_refl _⟩
  | cons op ops ih =>
    intro w w1 hW hC hr
    simp only [run] at hr
    cases hs : step esft w op with
    | none => simp [hs] at hr
    | some w2 =>
      simp only [hs, Option.some_bind] at hr
      obtain ⟨hW2, hC2, hn2⟩ := step_counted esft w w2 op hW hC hs
      obtain ⟨hW3, hC3, hn3⟩ := ih w2 w1 hW2 hC2 hr
      exact ⟨hW3, hC3, le_trans hn2 hn3⟩

theorem empty_WF : World.WF {} := by
  refine ⟨?_, ?_, ?_⟩
  · intro h c hx; simp at hx
  · intro h c hx; simp at hx
  · intro q c hq; simp at hq

theorem empty_Counted : World.Counted {} := by
  intro b hb
  simp at hb

theorem Z_of_same {m m1 : Mem} {b : Nat} (h1 : m1.sc b = m.sc b) (h2 : m1.zs b = m.zs b)
    (h : m.Z b) : m1.Z b := by
  unfold Mem.Z at *
  rw [h1, h2]
  exact h

theorem Z_inc {m : Mem} {b : Nat} (cb : Option Nat) (h : m.Z b)
    (hpre : cb = some b → 1 ≤ m.sc b) : (ifBlock cb IncrementShared m).Z b := by
  unfold Mem.Z at *
  rw [sc_ifBlock_inc, zs_ifBlock_inc]
  unfold ind
  by_cases hc : cb = some b
  · have := hpre hc
    simp only [hc, if_true]
    constructor
    · omega
    · rw [h.2]
      split_ifs <;> omega
  · simp only [hc, if_false, add_zero]
    exact h

theorem Z_dec {m : Mem} {b : Nat} (cb : Option Nat) (h : m.Z b)
    (hpre : cb = some b → 1 ≤ m.sc b) : (ifBlock cb DecrementShared m).Z b := by
  unfold Mem.Z at *
  rw [sc_ifBlock_dec, zs_ifBlock_dec]
  unfold ind
  by_cases hc : cb = some b
  · have := hpre hc
    simp only [hc, if_true, true_and]
    constructor
    · omega
    · rw [h.2]
      split_ifs <;> omega
  · simp only [hc, if_false, sub_zero, false_and, add_zero]
    exact h

theorem Z_copyCtor {m : Mem} {b : Nat} (o : SharedPtr) (h : m.Z b)
    (hpre : o.control_block_ = some b → 1 ≤ m.sc b) : (SharedPtr.copyCtor m o).1.Z b :=
  Z_inc _ h hpre

theorem Z_Reset {m : Mem} {b : Nat} (t : SharedPtr) (h : m.Z b)
    (hpre : t.control_block_ = some b → 1 ≤ m.sc b) : (SharedPtr.Reset m t).1.Z b :=
  Z_dec _ h hpre

theorem Z_dtor {m : Mem} {b : Nat} (t : SharedPtr) (h : m.Z b)
    (hpre : t.control_block_ = some b → 1 ≤ m.sc b) : (SharedPtr.dtor m t).Z b :=
  Z_dec _ h hpre

theorem Z_moveCtor {m : Mem} {b : Nat} (o : SharedPtr) (h : m.Z b)
    (hpre : o.control_block_ = some b → 1 ≤ m.sc b) : (SharedPtr.moveCtor m o).1.Z b := by
  refine Z_dec _ (Z_inc _ h hpre) (fun hc => ?_)
  rw [sc_ifBlock_inc]
  have := hpre hc
  have : ind b o.control_block_ = 1 := by simp [ind, hc]
  show 1 ≤ m.sc b + ind b o.control_block_
  omega

theorem Z_aliasCtor {m : Mem} {b : Nat} (o : SharedPtr) (p : Nat) (h : m.Z b)
    (hpre : o.control_block_ = some b → 1 ≤ m.sc b) : (SharedPtr.aliasCtor m o p).1.Z b :=
  Z_inc _ h hpre

theorem Z_copyAssign {m : Mem} {b : Nat} (t o : SharedPtr) (h : m.Z b)
    (ht : t.control_block_ = some b → 1 ≤ m.sc b)
    (ho : o.control_block_ = some b → 1 ≤ m.sc b) : (SharedPtr.copyAssign m t o).1.Z b := by
  unfold SharedPtr.copyAssign
  split_ifs with hc
  · exact h
  · refine Z_inc _ (Z_dec _ h ht) (fun hob => ?_)
    rw [sc_ifBlock_dec]
    have : ind b t.control_block_ = 0 := by
      unfold ind
      split_ifs with h3
      · exact absurd (h3.trans hob.symm) hc
      · rfl
    have := ho hob
    omega

theorem Z_moveAssign {m : Mem} {b : Nat} (t o : SharedPtr) (h : m.Z b)
    (ht : t.control_block_ = some b → 1 ≤ m.sc b) : (SharedPtr.moveAssign m t o).1.Z b := by
  unfold SharedPtr.moveAssign
  split_ifs with hc
  · exact Z_dec _ h ht
  · exact Z_dec _ h ht

theorem Z_moveAssignU {m : Mem} {b : Nat} (t o : SharedPtr) (r : Mem × SharedPtr × SharedPtr)
    (hr : SharedPtr.moveAssignU m t o = some r) (h : m.Z b)
    (ht : t.control_block_ = some b → 1 ≤ m.sc b)
    (ho : o.control_block_ = some b → 1 ≤ m.sc b) : r.1.Z b := by
  unfold SharedPtr.moveAssignU at hr
  simp only [SharedPtr.GetControlBlock, SharedPtr.Get] at hr
  split_ifs at hr with hc
  · simp only [Option.some.injEq] at hr
    subst hr
    exact Z_Reset _ h ho
  · cases hcb : o.control_block_ with
    | none => simp [hcb] at hr
    | some c =>
      simp only [hcb, Option.some.injEq] at hr
      subst hr
      have hind : o.control_block_ = some b → ind b t.control_block_ = 0 := by
        intro hob
        unfold ind
        split_ifs with h3
        · exact absurd (h3.trans hob.symm) hc
        · rfl
      have h1 : (ifBlock (some c) IncrementShared
          (ifBlock t.control_block_ DecrementShared m)).Z b := by
        refine Z_inc _ (Z_dec _ h ht) (fun hob => ?_)
        rw [sc_ifBlock_dec]
        have := ho (hcb.trans hob)
        have := hind (hcb.trans hob)
        omega
      refine Z_Reset _ h1 (fun hob => ?_)
      rw [sc_IncrementShared, sc_ifBlock_dec]
      have := ho hob
      have := hind hob
      have : ind b (some c) = 1 := by
        unfold ind
        rw [← hcb, hob]
        simp
      omega

theorem Z_ofWeakPtr {m : Mem} {b : Nat} (o : WeakPtr) (h : m.Z b) :
    (SharedPtr.ofWeakPtr m o).1.Z b := by
  rcases ofWeakPtr_cases m o with ⟨_, h2⟩ | ⟨h1, h2⟩
  · rw [h2]
    exact h
  · rw [h2]
    refine Z_inc _ h (fun hc => ?_)
    have : m.sc b ≠ 0 := by
      intro h0
      have : o.Expired m = true := by
        simp [WeakPtr.Expired, WeakPtr.UseCount, hc]
        exact h0
      rw [h1] at this
      exact absurd this (by simp)
    have := h.1
    omega

theorem Z_ResetPtr {esft : Bool} {m : Mem} {b : Nat} (t : SharedPtr) (p : Nat) (h : m.Z b)
    (hb : b < m.nblocks)
    (ht : t.control_block_ = some b → 1 ≤ m.sc b) : (SharedPtr.ResetPtr esft m t p).1.Z b := by
  unfold SharedPtr.ResetPtr
  split_ifs with hc
  · exact h
  · have h1 := Z_dec t.control_block_ h ht
    have hn := nb_ifBlock_dec m t.control_block_
    have hne : b ≠ (ifBlock t.control_block_ DecrementShared m).nblocks := by omega
    refine Z_of_same ?_ ?_ h1
    · simp only [sc_newPointerControlBlock, hne, if_false]
    · simp only [zs_newPointerControlBlock, hne, if_false]

theorem pre_of {w : World} (hW : w.WF) (hC : w.Counted) {i : Nat} {o : SharedPtr}
    (hg : w.getS i = some o) (b : Nat) (hc : o.control_block_ = some b) : 1 ≤ w.mem.sc b := by
  rw [hC b (validS_get hW.1 hg b hc)]
  exact cntS_pos (getS_mem hg) hc

theorem Z_fresh {m m1 : Mem} (h1 : m1.sc m.nblocks = if m.nblocks = m.nblocks then 1 else m.sc m.nblocks)
    (h2 : m1.zs m.nblocks = if m.nblocks = m.nblocks then 0 else m.zs m.nblocks) :
    m1.Z m.nblocks := by
  unfold Mem.Z
  rw [h1, h2]
  simp

/-- Every statement other than `Lock` keeps every block in state `Z`. -/
theorem step_Z (esft : Bool) (w w1 : World) (op : Op) (hop : ∀ i, op ≠ Op.wpLock i)
    (hW : w.WF) (hC : w.Counted) (hZ : w.ZS) (hs : step esft w op = some w1) : w1.ZS := by
  cases op with
  | wpLock i => exact absurd rfl (hop i)
  | spDefault =>
    simp only [step, Option.some.injEq] at hs
    subst hs
    exact hZ
  | wpDefault =>
    simp only [step, Option.some.injEq] at hs
    subst hs
    exact hZ
  | spOfPtr p =>
    simp only [step] at hs
    cases hr : SharedPtr.ofPtr esft w.mem p with
    | none => simp [hr] at hs
    | some r =>
      simp only [hr, Option.map_some', Option.some.injEq] at hs
      subst hs
      obtain ⟨_, h2, h3, _⟩ := ofPtr_effect esft w.mem p r hr
      intro b hb
      simp only [h2] at hb
      by_cases hb2 : b = w.mem.nblocks
      · subst hb2
        exact Z_fresh (h3 _).1 (h3 _).2
      · refine Z_of_same ?_ ?_ (hZ b (by omega))
        · simp only [(h3 b).1, hb2, if_false]
        · simp only [(h3 b).2, hb2, if_false]
  | makeShared =>
    simp only [step] at hs
    cases hr : MakeShared esft w.mem with
    | none => simp [hr] at hs
    | some r =>
      simp only [hr, Option.map_some', Option.some.injEq] at hs
      subst hs
      obtain ⟨_, h2, h3, _⟩ := MakeShared_effect esft w.mem r hr
      intro b hb
      simp only [h2] at hb
      by_cases hb2 : b = w.mem.nblocks
      · subst hb2
        exact Z_fresh (h3 _).1 (h3 _).2
      · refine Z_of_same ?_ ?_ (hZ b (by omega))
        · simp only [(h3 b).1, hb2, if_false]
        · simp only [(h3 b).2, hb2, if_false]
  | spCopy i =>
    simp only [step] at hs
    cases hg : w.getS i with
    | none => simp only [hg, Option.some.injEq] at hs; subst hs; exact hZ
    | some o =>
      simp only [hg, Option.some.injEq] at hs
      subst hs
      intro b hb
      simp only [(ext_copyCtor w.mem o).1] at hb
      exact Z_copyCtor o (hZ b hb) (pre_of hW hC hg b)
  | spMove i =>
    simp only [step] at hs
    cases hg : w.getS i with
    | none => simp only [hg, Option.some.injEq] at hs; subst hs; exact hZ
    | some o =>
      simp only [hg, Option.some.injEq] at hs
      subst hs
      intro b hb
      simp only [(ext_moveCtor w.mem o).1] at hb
      exact Z_moveCtor o (hZ b hb) (pre_of hW hC hg b)
  | spAlias i p =>
    simp only [step] at hs
    cases hg : w.getS i with
    | none => simp only [hg, Option.some.injEq] at hs; subst hs; exact hZ
    | some o =>
      simp only [hg, Option.some.injEq] at hs
      subst hs
      intro b hb
      simp only [(ext_aliasCtor w.mem o p).1] at hb
      exact Z_aliasCtor o p (hZ b hb) (pre_of hW hC hg b)
  | spOfWeak j =>
    simp only [step] at hs
    cases hg : w.getW j with
    | none => simp only [hg, Option.some.injEq] at hs; subst hs; exact hZ
    | some o =>
      simp only [hg] at hs
      have hz : ∀ b, b < (SharedPtr.ofWeakPtr w.mem o).1.nblocks →
          (SharedPtr.ofWeakPtr w.mem o).1.Z b := by
        intro b hb
        rw [(ext_ofWeakPtr w.mem o).1] at hb
        exact Z_ofWeakPtr o (hZ b hb)
      rcases ofWeakPtr_cases w.mem o with ⟨_, h2⟩ | ⟨_, h2⟩ <;>
      · rw [h2] at hz
        simp only [h2, Option.some.injEq] at hs
        subst hs
        exact hz
  | spCopyAssign i j =>
    simp only [step] at hs
    cases hgi : w.getS i with
    | none => simp only [hgi, Option.some.injEq] at hs; subst hs; exact hZ
    | some t =>
      cases hgj : w.getS j with
      | none => simp only [hgi, hgj, Option.some.injEq] at hs; subst hs; exact hZ
      | some o =>
        simp only [hgi, hgj, Option.some.injEq] at hs
        subst hs
        intro b hb
        simp only [(ext_copyAssign w.mem t o).1] at hb
        exact Z_copyAssign t o (hZ b hb) (pre_of hW hC hgi b) (pre_of hW hC hgj b)
  | spMoveAssign i j =>
    simp only [step] at hs
    cases hgi : w.getS i with
    | none => simp only [hgi, Option.some.injEq] at hs; subst hs; exact hZ
    | some t =>
      cases hgj : w.getS j with
      | none => simp only [hgi, hgj, Option.some.injEq] at hs; subst hs; exact hZ
      | some o =>
        simp only [hgi, hgj, Option.some.injEq] at hs
        subst hs
        intro b hb
        simp only [(ext_moveAssign w.mem t o).1] at hb
        exact Z_moveAssign t o (hZ b hb) (pre_of hW hC hgi b)
  | spMoveAssignU i j =>
    simp only [step] at hs
    cases hgi : w.getS i with
    | none => simp only [hgi, Option.some.injEq] at hs; subst hs; exact hZ
    | some t =>
      cases hgj : w.getS j with
      | none => simp only [hgi, hgj, Option.some.injEq] at hs; subst hs; exact hZ
      | some o =>
        simp only [hgi, hgj] at hs
        cases hr : SharedPtr.moveAssignU w.mem t o with
        | none => simp [hr] at hs
        | some r =>
          simp only [hr, Option.map_some', Option.some.injEq] at hs
          subst hs
          intro b hb
          simp only [(ext_moveAssignU w.mem t o r hr).1] at hb
          exact Z_moveAssignU t o r hr (hZ b hb) (pre_of hW hC hgi b) (pre_of hW hC hgj b)
  | spDtor i =>
    simp only [step] at hs
    cases hg : w.getS i with
    | none => simp only [hg, Option.some.injEq] at hs; subst hs; exact hZ
    | some o =>
      simp only [hg, Option.some.injEq] at hs
      subst hs
      intro b hb
      simp only [(ext_dtor w.mem o).1] at hb
      exact Z_dtor o (hZ b hb) (pre_of hW hC hg b)
  | spReset i =>
    simp only [step] at hs
    cases hg : w.getS i with
    | none => simp only [hg, Option.some.injEq] at hs; subst hs; exact hZ
    | some o =>
      simp only [hg, Option.some.injEq] at hs
      subst hs
      intro b hb
      simp only [(ext_Reset w.mem o).1] at hb
      exact Z_Reset o (hZ b hb) (pre_of hW hC hg b)
  | spResetPtr i p =>
    simp only [step] at hs
    cases hg : w.getS i with
    | none => simp only [hg, Option.some.injEq] at hs; subst hs; exact hZ
    | some t =>
      simp only [hg, Option.some.injEq] at hs
      subst hs
      intro b hb
      by_cases hb2 : b < w.mem.nblocks
      · exact Z_ResetPtr t p (hZ b hb2) hb2 (pre_of hW hC hg b)
      · have hp : ¬ t.ptr_ = p := by
          intro hp
          apply hb2
          simpa [SharedPtr.ResetPtr, hp] using hb
        have hn := nb_ifBlock_dec w.mem t.control_block_
        have hb3 : b = (ifBlock t.control_block_ DecrementShared w.mem).nblocks := by
          simp [SharedPtr.ResetPtr, hp, newPointerControlBlock] at hb
          omega
        subst hb3
        simp only [SharedPtr.ResetPtr, hp, if_false]
        exact Z_fresh (sc_newPointerControlBlock _ _ _ _) (zs_newPointerControlBlock _ _ _ _)
  | spSwap i j =>
    simp only [step] at hs
    cases hgi : w.getS i with
    | none => simp only [hgi, Option.some.injEq] at hs; subst hs; exact hZ
    | some t =>
      cases hgj : w.getS j with
      | none => simp only [hgi, hgj, Option.some.injEq] at hs; subst hs; exact hZ
      | some o =>
        simp only [hgi, hgj, Option.some.injEq] at hs
        subst hs
        exact hZ
  | wpCopy i =>
    simp only [step] at hs
    cases hg : w.getW i with
    | none => simp only [hg, Option.some.injEq] at hs; subst hs; exact hZ
    | some o =>
      simp only [hg, Option.some.injEq] at hs
      subst hs
      intro b hb
      have h := weak_copyCtor_shared w.mem o b
      simp only [h.2.2] at hb
      exact Z_of_same h.1 h.2.1 (hZ b hb)
  | wpMove i =>
    simp only [step] at hs
    cases hg : w.getW i with
    | none => simp only [hg, Option.some.injEq] at hs; subst hs; exact hZ
    | some o =>
      simp only [hg, Option.some.injEq] at hs
      subst hs
      intro b hb
      have h := weak_moveCtor_shared w.mem o b
      simp only [h.2.2] at hb
      exact Z_of_same h.1 h.2.1 (hZ b hb)
  | wpOfShared i =>
    simp only [step] at hs
    cases hg : w.getS i with
    | none => simp only [hg, Option.some.injEq] at hs; subst hs; exact hZ
    | some o =>
      simp only [hg, Option.some.injEq] at hs
      subst hs
      intro b hb
      have h := weak_ofSharedPtr_shared w.mem o b
      simp only [h.2.2] at hb
      exact Z_of_same h.1 h.2.1 (hZ b hb)
  | wpCopyAssign i j =>
    simp only [step] at hs
    cases hgi : w.getW i with
    | none => simp only [hgi, Option.some.injEq] at hs; subst hs; exact hZ
    | some t =>
      cases hgj : w.getW j with
      | none => simp only [hgi, hgj, Option.some.injEq] at hs; subst hs; exact hZ
      | some o =>
        simp only [hgi, hgj, Option.some.injEq] at hs
        subst hs
        intro b hb
        have h := weak_copyAssign_shared w.mem t o b
        simp only [h.2.2] at hb
        exact Z_of_same h.1 h.2.1 (hZ b hb)
  | wpAssignShared i j =>
    simp only [step] at hs
    cases hgi : w.getW i with
    | none => simp only [hgi, Option.some.injEq] at hs; subst hs; exact hZ
    | some t =>
      cases hgj : w.getS j with
      | none => simp only [hgi, hgj, Option.some.injEq] at hs; subst hs; exact hZ
      | some o =>
        simp only [hgi, hgj, Option.some.injEq] at hs
        subst hs
        intro b hb
        have h := weak_assignShared_shared w.mem t o b
        simp only [h.2.2] at hb
        exact Z_of_same h.1 h.2.1 (hZ b hb)
  | wpMoveAssign i j =>
    simp only [step] at hs
    cases hgi : w.getW i with
    | none => simp only [hgi, Option.some.injEq] at hs; subst hs; exact hZ
    | some t =>
      cases hgj : w.getW j with
      | none => simp only [hgi, hgj, Option.some.injEq] at hs; subst hs; exact hZ
      | some o =>
        simp only [hgi, hgj, Option.some.injEq] at hs
        subst hs
        intro b hb
        have h := weak_moveAssign_shared w.mem t o b
        simp only [h.2.2] at hb
        exact Z_of_same h.1 h.2.1 (hZ b hb)
  | wpDtor i =>
    simp only [step] at hs
    cases hg : w.getW i with
    | none => simp only [hg, Option.some.injEq] at hs; subst hs; exact hZ
    | some o =>
      simp only [hg, Option.some.injEq] at hs
      subst hs
      intro b hb
      have h := weak_dtor_shared w.mem o b
      simp only [h.2.2] at hb
      exact Z_of_same h.1 h.2.1 (hZ b hb)
  | wpReset i =>
    simp only [step] at hs
    cases hg : w.getW i with
    | none => simp only [hg, Option.some.injEq] at hs; subst hs; exact hZ
    | some o =>
      simp only [hg, Option.some.injEq] at hs
      subst hs
      intro b hb
      have h := weak_Reset_shared w.mem o b
      simp only [h.2.2] at hb
      exact Z_of_same h.1 h.2.1 (hZ b hb)
  | wpSwap i j =>
    simp only [step] at hs
    cases hgi : w.getW i with
    | none => simp only [hgi, Option.some.injEq] at hs; subst hs; exact hZ
    | some t =>
      cases hgj : w.getW j with
      | none => simp only [hgi, hgj, Option.some.injEq] at hs; subst hs; exact hZ
      | some o =>
        simp only [hgi, hgj, Option.some.injEq] at hs
        subst hs
        exact hZ
  | sharedFromThis p =>
    simp only [step] at hs
    cases esft with
    | false =>
      simp only [Bool.false_eq_true, if_false, Option.some.injEq] at hs
      subst hs
      exact hZ
    | true =>
      simp only [if_true, SharedFromThis] at hs
      have hz : ∀ b, b < (SharedPtr.ofWeakPtr w.mem (w.mem.objects p).self).1.nblocks →
          (SharedPtr.ofWeakPtr w.mem (w.mem.objects p).self).1.Z b := by
        intro b hb
        rw [(ext_ofWeakPtr w.mem _).1] at hb
        exact Z_ofWeakPtr _ (hZ b hb)
      rcases ofWeakPtr_cases w.mem (w.mem.objects p).self with ⟨_, h2⟩ | ⟨_, h2⟩ <;>
      · rw [h2] at hz
        simp only [h2, Option.some.injEq] at hs
        subst hs
        exact hz
  | weakFromThis p =>
    simp only [step] at hs
    cases esft with
    | false =>
      simp only [Bool.false_eq_true, if_false, Option.some.injEq] at hs
      subst hs
      exact hZ
    | true =>
      simp only [if_true, WeakFromThis, Option.some.injEq] at hs
      subst hs
      intro b hb
      have h := weak_copyCtor_shared w.mem (w.mem.objects p).self b
      simp only [h.2.2] at hb
      exact Z_of_same h.1 h.2.1 (hZ b hb)

theorem run_Z (esft : Bool) (ops : List Op) :
    ∀ (w w1 : World), (∀ op ∈ ops, op.notLock = true) → w.WF → w.Counted → w.ZS →
      run esft w ops = some w1 →
        w1.WF ∧ w1.Counted ∧ w1.ZS ∧ w.mem.nblocks ≤ w1.mem.nblocks := by
  induction ops with
  | nil =>
    intro w w1 _ hW hC hZ hr
    simp only [run, Option.some.injEq] at hr
    subst hr
    exact ⟨hW, hC, hZ, le_refl _⟩
  | cons op ops ih =>
    intro w w1 hops hW hC hZ hr
    simp only [run] at hr
    cases hs : step esft w op with
    | none => simp [hs] at hr
    | some w2 =>
      simp only [hs, Option.some_bind] at hr
      obtain ⟨hW2, hC2, hn2⟩ := step_counted esft w w2 op hW hC hs
      have hnl : ∀ i, op ≠ Op.wpLock i := by
        intro i e
        have := hops op (List.mem_cons_self _ _)
        rw [e] at this
        simp [Op.notLock] at this
      have hZ2 := step_Z esft w w2 op hnl hW hC hZ hs
      obtain ⟨hW3, hC3, hZ3, hn3⟩ :=
        ih w2 w1 (fun o ho => hops o (List.mem_cons_of_mem _ ho)) hW2 hC2 hZ2 hr
      exact ⟨hW3, hC3, hZ3, le_trans hn2 hn3⟩

theorem empty_ZS : World.ZS {} := by
  intro b hb
  simp at hb

/-- In a counted world in state `ZS`, `OnZeroShared` ran once on a block
without live `SharedPtr` variables and never on a block with one. -/
theorem zeroShared_of_ZS {w : World} (hC : w.Counted) (hZ : w.ZS) (b : Nat)
    (hb : b < w.mem.nblocks) :
    (w.mem.blocks b).zeroShared = if w.liveShared b = 0 then 1 else 0 := by
  have h1 := (hZ b hb).2
  have h2 := hC b hb
  unfold Mem.zs at h1
  rw [h1, h2]
  unfold cntS World.liveShared
  split_ifs <;> omega

/-- The first statement of a program allocates block `0`. -/
theorem init_nblocks (esft : Bool) (init : Op) (w0 : World)
    (hinit : (∃ p, init = Op.spOfPtr p) ∨ init = Op.makeShared)
    (h0 : step esft {} init = some w0) : w0.mem.nblocks = 1 := by
  rcases hinit with ⟨p, rfl⟩ | rfl
  · simp only [step] at h0
    cases hr : SharedPtr.ofPtr esft ({} : World).mem p with
    | none => simp [hr] at h0
    | some r =>
      simp only [hr, Option.map_some', Option.some.injEq] at h0
      subst h0
      exact (ofPtr_effect esft _ p r hr).2.1
  · simp only [step] at h0
    cases hr : MakeShared esft ({} : World).mem with
    | none => simp [hr] at h0
    | some r =>
      simp only [hr, Option.map_some', Option.some.injEq] at h0
      subst h0
      exact (MakeShared_effect esft _ r hr).2.1

theorem init_inv (esft : Bool) (init : Op) (w0 : World)
    (hinit : (∃ p, init = Op.spOfPtr p) ∨ init = Op.makeShared)
    (h0 : step esft {} init = some w0) : w0.WF ∧ w0.Counted ∧ w0.ZS := by
  have hnl : ∀ i, init ≠ Op.wpLock i := by
    rcases hinit with ⟨p, rfl⟩ | rfl <;> intro i e <;> cases e
  obtain ⟨h1, h2, _⟩ := step_counted esft {} w0 init empty_WF empty_Counted h0
  exact ⟨h1, h2, step_Z esft {} w0 init hnl empty_WF empty_Counted empty_ZS h0⟩

/-- A program that constructs a handle and then executes statements other
than `Lock()`: at the end `OnZeroShared` ran on block `0` once if no live
`SharedPtr` variable is on it, and never if one is. -/
theorem fires_once_when_last_released (esft : Bool) (init : Op) (ops : List Op) (w0 w : World)
    (hinit : (∃ p, init = Op.spOfPtr p) ∨ init = Op.makeShared)
    (h0 : step esft {} init = some w0)
    (hops : ∀ op ∈ ops, op.notLock = true)
    (hrun : run esft w0 ops = some w) :
    (w.mem.blocks 0).zeroShared = if w.liveShared 0 = 0 then 1 else 0 := by
  obtain ⟨hW0, hC0, hZ0⟩ := init_inv esft init w0 hinit h0
  obtain ⟨_, hC, hZ, hn⟩ := run_Z esft ops w0 w hops hW0 hC0 hZ0 hrun
  have := init_nblocks esft init w0 hinit h0
  exact zeroShared_of_ZS hC hZ 0 (by omega)

theorem step_total (esft : Bool) (w : World) (op : Op)
    (hop : op.isLifetimeOp = true ∨ op.isAliasOp = true)
    (hU : ∀ i j, op ≠ Op.spMoveAssignU i j) : ∃ w1, step esft w op = some w1 := by
  cases op <;> simp [Op.isLifetimeOp, Op.isAliasOp] at hop
  case spMoveAssignU i j => exact absurd rfl (hU i j)
  all_goals
    simp only [step]
    repeat' split
    all_goals exact ⟨_, rfl⟩

theorem run_total (esft : Bool) (ops : List Op) :
    ∀ (w : World), (∀ op ∈ ops, op.isLifetimeOp = true ∨ op.isAliasOp = true) →
      (∀ i j, Op.spMoveAssignU i j ∉ ops) → ∃ w1, run esft w ops = some w1 := by
  induction ops with
  | nil => intro w _ _; exact ⟨w, rfl⟩
  | cons op ops ih =>
    intro w hops hU
    obtain ⟨w2, h2⟩ := step_total esft w op (hops op (List.mem_cons_self _ _))
      (fun i j e => hU i j (by rw [← e]; exact List.mem_cons_self _ _))
    obtain ⟨w3, h3⟩ := ih w2 (fun o ho => hops o (List.mem_cons_of_mem _ ho))
      (fun i j hm => hU i j (List.mem_cons_of_mem _ hm))
    exact ⟨w3, by simp only [run, h2, Option.some_bind, h3]⟩

theorem notLock_of_lifetime (op : Op) (h : op.isLifetimeOp = true) : op.notLock = true := by
  cases op <;> simp [Op.isLifetimeOp, Op.notLock] at h ⊢

theorem notLock_of_alias (op : Op) (h : op.isAliasOp = true) : op.notLock = true := by
  cases op <;> simp [Op.isAliasOp, Op.notLock] at h ⊢

theorem blocks_ifBlock_inc (m : Mem) (cb : Option Nat) (b : Nat) :
    (ifBlock cb IncrementShared m).blocks b =
      if cb = some b then { m.blocks b with shared_count_ := (m.blocks b).shared_count_ + 1 }
      else m.blocks b := by
  cases cb with
  | none => simp [ifBlock]
  | some c =>
    by_cases h : b = c
    · subst h; simp [ifBlock, IncrementShared_blocks]
    · have h2 : c ≠ b := fun e => h e.symm
      simp [ifBlock, IncrementShared_blocks, Function.update_noteq h, h2]

theorem blocks_ifBlock_incW (m : Mem) (cb : Option Nat) (b : Nat) :
    (ifBlock cb IncrementWeak m).blocks b =
      if cb = some b then { m.blocks b with weak_count_ := (m.blocks b).weak_count_ + 1 }
      else m.blocks b := by
  cases cb with
  | none => simp [ifBlock]
  | some c =>
    by_cases h : b = c
    · subst h; simp [ifBlock, IncrementWeak_blocks]
    · have h2 : c ≠ b := fun e => h e.symm
      simp [ifBlock, IncrementWeak_blocks, Function.update_noteq h, h2]

theorem blocks_ifBlock_dec (m : Mem) (cb : Option Nat) (b : Nat) :
    (ifBlock cb DecrementShared m).blocks b =
      if cb = some b then (m.blocks b).decShared else m.blocks b := by
  cases cb with
  | none => simp [ifBlock]
  | some c =>
    by_cases h : b = c
    · subst h; simp [ifBlock, DecrementShared_blocks]
    · have h2 : c ≠ b := fun e => h e.symm
      simp [ifBlock, DecrementShared_blocks, Function.update_noteq h, h2]

theorem blocks_ifBlock_decW (m : Mem) (cb : Option Nat) (b : Nat) :
    (ifBlock cb DecrementWeak m).blocks b =
      if cb = some b then (m.blocks b).decWeak else m.blocks b := by
  cases cb with
  | none => simp [ifBlock]
  | some c =>
    by_cases h : b = c
    · subst h; simp [ifBlock, DecrementWeak_blocks]
    · have h2 : c ≠ b := fun e => h e.symm
      simp [ifBlock, DecrementWeak_blocks, Function.update_noteq h, h2]

theorem EW_inc {m : Mem} {b : Nat} (cb : Option Nat) (h : m.EW b)
    (hpre : cb = some b → 1 ≤ m.sc b) : (ifBlock cb IncrementShared m).EW b := by
  unfold Mem.EW Mem.sc Mem.wc Mem.zw at *
  rw [blocks_ifBlock_inc]
  by_cases hc : cb = some b
  · have := hpre hc
    obtain ⟨h1, h2, h3, h4⟩ := h
    simp only [hc, if_true]
    refine ⟨h1, by omega, h3, ?_⟩
    simp only [ControlBlock.zeroWeak] at h4 ⊢
    rw [h4]
    split_ifs <;> omega
  · simp only [hc, if_false]
    exact h

theorem EW_incW {m : Mem} {b : Nat} (cb : Option Nat) (h : m.EW b)
    (hpre : cb = some b → 1 ≤ m.sc b ∨ 2 ≤ m.wc b) : (ifBlock cb IncrementWeak m).EW b := by
  unfold Mem.EW Mem.sc Mem.wc Mem.zw at *
  rw [blocks_ifBlock_incW]
  by_cases hc : cb = some b
  · have := hpre hc
    obtain ⟨h1, h2, h3, h4⟩ := h
    simp only [hc, if_true]
    refine ⟨h1, h2, by omega, ?_⟩
    simp only [ControlBlock.zeroWeak] at h4 ⊢
    rw [h4]
    split_ifs <;> omega
  · simp only [hc, if_false]
    exact h

theorem EW_dec {m : Mem} {b : Nat} (cb : Option Nat) (h : m.EW b)
    (hpre : cb = some b → 1 ≤ m.sc b) : (ifBlock cb DecrementShared m).EW b := by
  unfold Mem.EW Mem.sc Mem.wc Mem.zw at *
  rw [blocks_ifBlock_dec]
  by_cases hc : cb = some b
  · have := hpre hc
    obtain ⟨h1, h2, h3, h4⟩ := h
    simp only [hc, if_true, ControlBlock.decShared, ControlBlock.zeroWeak, h1, true_and,
      List.count_append] at h4 ⊢
    refine ⟨by omega, h3, ?_⟩
    rw [h4]
    split_ifs <;> simp <;> omega
  · simp only [hc, if_false]
    exact h

theorem EW_decW {m : Mem} {b : Nat} (cb : Option Nat) (h : m.EW b)
    (hpre : cb = some b → 2 ≤ m.wc b) : (ifBlock cb DecrementWeak m).EW b := by
  unfold Mem.EW Mem.sc Mem.wc Mem.zw at *
  rw [blocks_ifBlock_decW]
  by_cases hc : cb = some b
  · have := hpre hc
    obtain ⟨h1, h2, h3, h4⟩ := h
    simp only [hc, if_true, ControlBlock.decWeak, ControlBlock.zeroWeak, h1, true_and,
      List.count_append] at h4 ⊢
    refine ⟨h2, by omega, ?_⟩
    rw [h4]
    split_ifs <;> simp <;> omega
  · simp only [hc, if_false]
    exact h

theorem wc_ifBlock_inc (m : Mem) (cb : Option Nat) (b : Nat) :
    (ifBlock cb IncrementShared m).wc b = m.wc b := by
  unfold Mem.wc
  rw [blocks_ifBlock_inc]
  split_ifs <;> rfl

theorem wc_ifBlock_dec (m : Mem) (cb : Option Nat) (b : Nat) :
    (ifBlock cb DecrementShared m).wc b = m.wc b := by
  unfold Mem.wc
  rw [blocks_ifBlock_dec]
  split_ifs <;> rfl

theorem wc_ifBlock_incW (m : Mem) (cb : Option Nat) (b : Nat) :
    (ifBlock cb IncrementWeak m).wc b = m.wc b + ind b cb := by
  unfold Mem.wc ind
  rw [blocks_ifBlock_incW]
  split_ifs <;> simp

theorem wc_ifBlock_decW (m : Mem) (cb : Option Nat) (b : Nat) :
    (ifBlock cb DecrementWeak m).wc b = m.wc b - ind b cb := by
  unfold Mem.wc ind
  rw [blocks_ifBlock_decW]
  split_ifs <;> simp [ControlBlock.decWeak]

theorem onW_some (b : Nat) (h : WeakPtr) :
    (if WeakPtr.on b (some h) = true then (1 : Int) else 0) = ind b h.control_block_ := by
  simp [WeakPtr.on, ind]

theorem cntW_append (b : Nat) (l : List (Option WeakPtr)) (h : WeakPtr) :
    cntW b (l ++ [some h]) = cntW b l + ind b h.control_block_ := by
  simp only [cntW, List.countP_append, List.countP_cons, List.countP_nil, Nat.cast_add,
    ← onW_some]
  split_ifs <;> simp

theorem cntW_set (b : Nat) (l : List (Option WeakPtr)) (i : Nat) (h h1 : WeakPtr)
    (hg : l.get? i = some (some h)) :
    cntW b (l.set i (some h1)) = cntW b l - ind b h.control_block_ + ind b h1.control_block_ := by
  have := countP_set_add (WeakPtr.on b) l i (some h) (some h1) hg
  simp only [cntW, ← onW_some]
  split_ifs at this ⊢ <;> omega

theorem cntW_set_none (b : Nat) (l : List (Option WeakPtr)) (i : Nat) (h : WeakPtr)
    (hg : l.get? i = some (some h)) :
    cntW b (l.set i none) = cntW b l - ind b h.control_block_ := by
  have := countP_set_add (WeakPtr.on b) l i (some h) none hg
  have hnone : WeakPtr.on b none = false := rfl
  simp only [hnone, Bool.false_eq_true, if_false, Nat.add_zero] at this
  simp only [cntW, ← onW_some]
  split_ifs at this ⊢ <;> omega

theorem cntW_pos {b : Nat} {l : List (Option WeakPtr)} {h : WeakPtr}
    (hx : some h ∈ l) (hc : h.control_block_ = some b) : 1 ≤ cntW b l := by
  unfold cntW
  have : 0 < List.countP (WeakPtr.on b) l :=
    List.countP_pos_iff.2 ⟨some h, hx, by simp [WeakPtr.on, hc]⟩
  omega

theorem ind_nonneg (b : Nat) (cb : Option Nat) : 0 ≤ ind b cb := by
  unfold ind
  split_ifs <;> omega

/-- Each statement of claim C8 keeps the world in state `Cap`. -/
theorem step_Cap (esft : Bool) (w w1 : World) (op : Op) (hop : op.isShareOrRelease = true)
    (hw : w.Cap) (hs : step esft w op = some w1) : w1.Cap := by
  obtain ⟨hW, hC, hn, hwc, hE⟩ := hw
  obtain ⟨hW1, hC1, hn1⟩ := step_counted esft w w1 op hW hC hs
  refine ⟨hW1, hC1, lt_of_lt_of_le hn hn1, ?_⟩
  cases op <;> simp [Op.isShareOrRelease] at hop <;> simp only [step] at hs
  case spCopy i =>
    cases hg : w.getS i with
    | none => simp only [hg, Option.some.injEq] at hs; subst hs; exact ⟨hwc, hE⟩
    | some o =>
      simp only [hg, Option.some.injEq] at hs
      subst hs
      exact ⟨by simp only [SharedPtr.copyCtor, wc_ifBlock_inc]; exact hwc,
        EW_inc _ hE (pre_of hW hC hg 0)⟩
  case spDtor i =>
    cases hg : w.getS i with
    | none => simp only [hg, Option.some.injEq] at hs; subst hs; exact ⟨hwc, hE⟩
    | some o =>
      simp only [hg, Option.some.injEq] at hs
      subst hs
      exact ⟨by simp only [SharedPtr.dtor, wc_ifBlock_dec]; exact hwc,
        EW_dec _ hE (pre_of hW hC hg 0)⟩
  case spReset i =>
    cases hg : w.getS i with
    | none => simp only [hg, Option.some.injEq] at hs; subst hs; exact ⟨hwc, hE⟩
    | some o =>
      simp only [hg, Option.some.injEq] at hs
      subst hs
      exact ⟨by simp only [SharedPtr.Reset, wc_ifBlock_dec]; exact hwc,
        EW_dec _ hE (pre_of hW hC hg 0)⟩
  case wpOfShared i =>
    cases hg : w.getS i with
    | none => simp only [hg, Option.some.injEq] at hs; subst hs; exact ⟨hwc, hE⟩
    | some o =>
      simp only [hg, Option.some.injEq] at hs
      subst hs
      refine ⟨?_, EW_incW _ hE (fun hc => Or.inl (pre_of hW hC hg 0 hc))⟩
      simp only [WeakPtr.ofSharedPtr, wc_ifBlock_incW, cntW_append, SharedPtr.GetControlBlock]
      omega
  case wpCopy i =>
    cases hg : w.getW i with
    | none => simp only [hg, Option.some.injEq] at hs; subst hs; exact ⟨hwc, hE⟩
    | some o =>
      simp only [hg, Option.some.injEq] at hs
      subst hs
      refine ⟨?_, EW_incW _ hE (fun hc => Or.inr ?_)⟩
      · simp only [WeakPtr.copyCtor, wc_ifBlock_incW, cntW_append]
        omega
      · have := cntW_pos (getW_mem hg) hc
        omega
  case wpDtor i =>
    cases hg : w.getW i with
    | none => simp only [hg, Option.some.injEq] at hs; subst hs; exact ⟨hwc, hE⟩
    | some o =>
      simp only [hg, Option.some.injEq] at hs
      subst hs
      refine ⟨?_, EW_decW _ hE (fun hc => ?_)⟩
      · simp only [WeakPtr.dtor, wc_ifBlock_decW, cntW_set_none 0 w.wp i o (getW_get hg)]
        omega
      · have := cntW_pos (getW_mem hg) hc
        omega
  case wpReset i =>
    cases hg : w.getW i with
    | none => simp only [hg, Option.some.injEq] at hs; subst hs; exact ⟨hwc, hE⟩
    | some o =>
      simp only [hg, Option.some.injEq] at hs
      subst hs
      refine ⟨?_, EW_decW _ hE (fun hc => ?_)⟩
      · simp only [WeakPtr.Reset, wc_ifBlock_decW, cntW_set 0 w.wp i o _ (getW_get hg), ind_none]
        omega
      · have := cntW_pos (getW_mem hg) hc
        omega

theorem init_block (init : Op) (w0 : World)
    (hinit : (∃ p, init = Op.spOfPtr p) ∨ init = Op.makeShared)
    (h0 : step true {} init = some w0) :
    (w0.mem.blocks 0).shared_count_ = 1 ∧ (w0.mem.blocks 0).weak_count_ = 1 ∧
    (w0.mem.blocks 0).esft = true ∧ (w0.mem.blocks 0).log = [] ∧ w0.wp = [] := by
  rcases hinit with ⟨p, rfl⟩ | rfl
  · simp only [step, SharedPtr.ofPtr, EnableSharedFromThisHelper, if_true] at h0
    by_cases hp : p = 0
    · simp [hp] at h0
    · simp only [hp, if_false, Option.map_some', Option.some.injEq] at h0
      subst h0
      simp [WeakPtr.assignShared, newPointerControlBlock, ifBlock, IncrementWeak_blocks,
        SharedPtr.GetControlBlock]
  · simp only [step, MakeShared, SharedPtr.ofRaw, EnableSharedFromThisHelper, if_true] at h0
    simp [newEmplaceControlBlock] at h0
    subst h0
    simp [WeakPtr.assignShared, newEmplaceControlBlock, ifBlock, IncrementWeak_blocks,
      SharedPtr.GetControlBlock]

theorem init_Cap (init : Op) (w0 : World)
    (hinit : (∃ p, init = Op.spOfPtr p) ∨ init = Op.makeShared)
    (h0 : step true {} init = some w0) : w0.Cap := by
  obtain ⟨hW, hC, _⟩ := init_inv true init w0 hinit h0
  obtain ⟨h1, h2, h3, h4, h5⟩ := init_block init w0 hinit h0
  refine ⟨hW, hC, by rw [init_nblocks true init w0 hinit h0]; exact Nat.one_pos, ?_, ?_⟩
  · simp [Mem.wc, h2, h5, cntW]
  · simp [Mem.EW, Mem.sc, Mem.wc, Mem.zw, ControlBlock.zeroWeak, h1, h2, h3, h4]

theorem run_Cap (esft : Bool) (ops : List Op) :
    ∀ (w : World), (∀ op ∈ ops, op.isShareOrRelease = true) → w.Cap →
      ∃ w1, run esft w ops = some w1 ∧ w1.Cap := by
  induction ops with
  | nil => intro w _ hw; exact ⟨w, rfl, hw⟩
  | cons op ops ih =>
    intro w hops hw
    have hop := hops op (List.mem_cons_self _ _)
    have ht : ∃ w2, step esft w op = some w2 := by
      cases op <;> simp [Op.isShareOrRelease] at hop
      all_goals
        simp only [step]
        repeat' split
        all_goals exact ⟨_, rfl⟩
    obtain ⟨w2, h2⟩ := ht
    obtain ⟨w3, h3, hc3⟩ := ih w2 (fun o ho => hops o (List.mem_cons_of_mem _ ho))
      (step_Cap esft w w2 op hop hw h2)
    exact ⟨w3, by simp only [run, h2, Option.some_bind, h3], hc3⟩

/-- In state `Cap`, `OnZeroWeak` ran once on block `0` if no external handle
is live on it and never otherwise. -/
theorem zeroWeak_of_Cap {w : World} (hw : w.Cap) :
    (w.mem.blocks 0).shared_count_ = (w.liveShared 0 : Int) ∧
    (w.mem.blocks 0).weak_count_ = (w.liveWeak 0 : Int) + 1 ∧
    (w.mem.blocks 0).zeroWeak = if w.liveShared 0 = 0 ∧ w.liveWeak 0 = 0 then 1 else 0 := by
  obtain ⟨_, hC, hn, hwc, hE⟩ := hw
  have h1 : (w.mem.blocks 0).shared_count_ = (w.liveShared 0 : Int) := hC 0 hn
  have h2 : (w.mem.blocks 0).weak_count_ = (w.liveWeak 0 : Int) + 1 := hwc
  refine ⟨h1, h2, ?_⟩
  have h3 := hE.2.2.2
  unfold Mem.zw Mem.sc Mem.wc at h3
  rw [h3, h1, h2]
  split_ifs <;> omega

theorem getS_of_get {w : World} {i : Nat} {h : SharedPtr} (hg : w.sp.get? i = some (some h)) :
    w.getS i = some h := by
  unfold World.getS
  rw [hg]
  rfl

theorem DecrementShared_objects_of_ne (m : Mem) (b : Nat)
    (h : (m.blocks b).shared_count_ ≠ 1) : (DecrementShared m b).objects = m.objects := by
  have h1 : ¬ ((m.blocks b).shared_count_ - 1 = 0) := by omega
  unfold DecrementShared PointerControlBlock.DecrementShared
    EmplaceControlBlock.DecrementShared OnZeroWeak
  cases (m.blocks b).kind <;> simp only [modifyBlock_blocks, Function.update_same, h1, if_false]
    <;> split_ifs <;> rfl

/-- Move construction from a handle whose block, if any, has
`shared_count_ ≠ 0`: no block and no object changes. -/
theorem moveCtor_frame (m : Mem) (s : SharedPtr)
    (hs : ∀ b, s.control_block_ = some b → (m.blocks b).shared_count_ ≠ 0) :
    (SharedPtr.moveCtor m s).1.blocks = m.blocks ∧
    (SharedPtr.moveCtor m s).1.objects = m.objects := by
  unfold SharedPtr.moveCtor SharedPtr.Reset
  cases hc : s.control_block_ with
  | none => simp [ifBlock]
  | some b =>
    have h0 := hs b hc
    constructor
    · simp only [ifBlock, DecrementShared_blocks, IncrementShared_blocks,
        Function.update_same, Function.update_idem]
      funext c
      by_cases hcb : c = b
      · subst hcb
        simp [ControlBlock.decShared, h0]
      · simp [Function.update_noteq hcb]
    · simp only [ifBlock]
      rw [DecrementShared_objects_of_ne]
      · rfl
      · simp only [IncrementShared_blocks, Function.update_same]
        omega

/-- Where the converting move assignment is defined (the source has a block,
or source and target have the same block pointer) and the block of the
source has `shared_count_ ≠ 0`, it returns the handles, the blocks and the
objects of the same-type move assignment. -/
theorem moveAssignU_agrees (m : Mem) (t o : SharedPtr)
    (hdef : t.control_block_ = o.control_block_ ∨ o.control_block_ ≠ none)
    (ho : ∀ c, o.control_block_ = some c → (m.blocks c).shared_count_ ≠ 0) :
    ∃ r, SharedPtr.moveAssignU m t o = some r ∧ r.2 = (SharedPtr.moveAssign m t o).2 ∧
      r.1.blocks = (SharedPtr.moveAssign m t o).1.blocks ∧
      r.1.objects = (SharedPtr.moveAssign m t o).1.objects := by
  unfold SharedPtr.moveAssignU SharedPtr.moveAssign
  simp only [SharedPtr.GetControlBlock, SharedPtr.Get]
  by_cases h : t.control_block_ = o.control_block_
  · simp only [h, if_true]
    exact ⟨_, rfl, rfl, rfl, rfl⟩
  · simp only [h, if_false]
    cases hc : o.control_block_ with
    | none => rcases hdef with h1 | h1 <;> [exact absurd h1 h; exact absurd hc h1]
    | some c =>
      have hne : ¬ t.control_block_ = some c := fun e => h (e.trans hc.symm)
      have hblk : (ifBlock t.control_block_ DecrementShared m).blocks c = m.blocks c := by
        rw [blocks_ifBlock_dec]
        simp [hne]
      have h0 : ((ifBlock t.control_block_ DecrementShared m).blocks c).shared_count_ ≠ 0 := by
        rw [hblk]
        exact ho c hc
      have hf := moveCtor_frame (ifBlock t.control_block_ DecrementShared m)
        { ptr_ := o.ptr_, control_block_ := some c }
        (fun b hb => by
          have : c = b := Option.some.inj hb
          subst this
          exact h0)
      simp only [SharedPtr.moveCtor, SharedPtr.Reset, ifBlock] at hf
      refine ⟨_, rfl, ?_, ?_, ?_⟩
      · simp [SharedPtr.Reset]
      · simpa [SharedPtr.Reset, hc, ifBlock] using hf.1
      · simpa [SharedPtr.Reset, hc, ifBlock] using hf.2

/-- The effect of `a = std::move(b)` on two distinct handles. -/
theorem moveAssign_effect {D : Type} (s : UMem D) (a b : Nat) (hab : a ≠ b) :
    (UniquePtr.moveAssign s a b).calls
      = s.calls ++ [(UniquePtr.GetDeleter s a, UniquePtr.Get s a)] ∧
    (UniquePtr.moveAssign s a b).handles
      = Function.update (Function.update s.handles b { s.handles b with ptr_ := 0 }) a
          { ptr_ := (s.handles b).ptr_, deleter_ := (s.handles b).deleter_ } := by
  have hba : b ≠ a := fun h => hab h.symm
  constructor
  · simp [UniquePtr.moveAssign, hab, UniquePtr.Reset, UniquePtr.Release, UMem.invoke, UMem.setPtr,
      UMem.setDeleter, UniquePtr.GetDeleter, UniquePtr.Get, Function.update_noteq hab]
  · simp [UniquePtr.moveAssign, hab, UniquePtr.Reset, UniquePtr.Release, UMem.invoke, UMem.setPtr,
      UMem.setDeleter, UniquePtr.GetDeleter, UniquePtr.Get, Function.update_noteq hab,
      Function.update_noteq hba]

theorem objects_ifBlock_incW (cb : Option Nat) (m : Mem) :
    (ifBlock cb IncrementWeak m).objects = m.objects := by
  cases cb <;> rfl

theorem objects_ifBlock_decW (cb : Option Nat) (m : Mem) :
    (ifBlock cb DecrementWeak m).objects = m.objects := by
  cases cb with
  | none => rfl
  | some b => exact DecrementWeak_objects m b

/-! ## `weak_count_` over programs of a type without the capability -/

theorem cntW_eq_zero (b : Nat) (l : List (Option WeakPtr))
    (hl : ∀ h, some h ∈ l → h.control_block_ ≠ some b) : cntW b l = 0 := by
  unfold cntW
  have : List.countP (WeakPtr.on b) l = 0 := by
    rw [List.countP_eq_zero]
    intro x hx
    cases x with
    | none => simp [WeakPtr.on]
    | some h => simpa [WeakPtr.on] using hl h hx
  simp [this]

theorem cntW_fresh {n : Nat} {l : List (Option WeakPtr)} (hl : validW n l) : cntW n l = 0 :=
  cntW_eq_zero n l (fun h hx hc => lt_irrefl _ (hl h n hx hc))

theorem cntW_set_set (b : Nat) (l : List (Option WeakPtr)) (i j : Nat) (t o t1 o1 : WeakPtr)
    (hi : l.get? i = some (some t)) (hj : l.get? j = some (some o)) :
    cntW b ((l.set i (some t1)).set j (some o1)) =
      if i = j then cntW b l - ind b t.control_block_ + ind b o1.control_block_
      else cntW b l - ind b t.control_block_ + ind b t1.control_block_
        - ind b o.control_block_ + ind b o1.control_block_ := by
  by_cases hij : i = j
  · subst hij
    simp only [if_true, List.set_set]
    exact cntW_set b l i t o1 hi
  · simp only [hij, if_false]
    rw [cntW_set b (l.set i (some t1)) j o o1 (by rw [get?_set_other l i j _ hij]; exact hj),
      cntW_set b l i t t1 hi]

theorem same_slotW {w : World} {i j : Nat} {t o : WeakPtr} (hi : w.getW i = some t)
    (hj : w.getW j = some o) (hij : i = j) : t = o := by
  subst hij
  rw [hi] at hj
  exact Option.some.inj hj

/-- A world built from a weak-counted world is weak-counted when no block was
allocated and the change of every `weak_count_` is the change of the number
of live `WeakPtr` variables. -/
theorem weakCounted_of (w : World) (m1 : Mem) (sp1 : List (Option SharedPtr))
    (wp1 : List (Option WeakPtr)) (hK : w.WeakCounted) (hn : m1.nblocks = w.mem.nblocks)
    (hcnt : ∀ b, m1.wc b - w.mem.wc b = cntW b wp1 - cntW b w.wp) :
    World.WeakCounted { mem := m1, sp := sp1, wp := wp1 } := by
  intro b hb
  simp only [hn] at hb
  have h1 := hK b hb
  have h2 := hcnt b
  simp only at h1 h2 ⊢
  omega

/-- The same when one block was allocated, with `weak_count_ = 0`, and no
`WeakPtr` variable was written. -/
theorem weakCounted_alloc (w : World) (m1 : Mem) (sp1 : List (Option SharedPtr))
    (hV : validW w.mem.nblocks w.wp) (hK : w.WeakCounted)
    (hn : m1.nblocks = w.mem.nblocks + 1)
    (hwc : ∀ b, m1.wc b = if b = w.mem.nblocks then 0 else w.mem.wc b) :
    World.WeakCounted { mem := m1, sp := sp1, wp := w.wp } := by
  intro b hb
  simp only [hn] at hb
  by_cases hb2 : b = w.mem.nblocks
  · subst hb2
    simp only [hwc, if_true, cntW_fresh hV]
  · have hb3 : b < w.mem.nblocks := by omega
    simp only [hwc, hb2, if_false]
    exact hK b hb3

theorem wc_newPointerControlBlock (esft : Bool) (m : Mem) (p b : Nat) :
    (newPointerControlBlock esft m p).1.wc b = if b = m.nblocks then 0 else m.wc b := by
  by_cases h : b = m.nblocks
  · subst h; simp [newPointerControlBlock, Mem.wc]
  · simp [newPointerControlBlock, Mem.wc, Function.update_noteq h, h]

theorem wc_newEmplaceControlBlock (esft : Bool) (m : Mem) (b : Nat) :
    (newEmplaceControlBlock esft m).1.wc b = if b = m.nblocks then 0 else m.wc b := by
  by_cases h : b = m.nblocks
  · subst h; simp [newEmplaceControlBlock, Mem.wc]
  · simp [newEmplaceControlBlock, Mem.wc, Function.update_noteq h, h]

theorem wc_copyCtor (m : Mem) (o : SharedPtr) (b : Nat) :
    (SharedPtr.copyCtor m o).1.wc b = m.wc b ∧ (SharedPtr.copyCtor m o).1.nblocks = m.nblocks := by
  simp [SharedPtr.copyCtor, wc_ifBlock_inc, nb_ifBlock_inc]

theorem wc_Reset (m : Mem) (t : SharedPtr) (b : Nat) :
    (SharedPtr.Reset m t).1.wc b = m.wc b ∧ (SharedPtr.Reset m t).1.nblocks = m.nblocks := by
  simp [SharedPtr.Reset, wc_ifBlock_dec, nb_ifBlock_dec]

theorem wc_moveCtor (m : Mem) (o : SharedPtr) (b : Nat) :
    (SharedPtr.moveCtor m o).1.wc b = m.wc b ∧ (SharedPtr.moveCtor m o).1.nblocks = m.nblocks := by
  simp [SharedPtr.moveCtor, SharedPtr.Reset, wc_ifBlock_dec, nb_ifBlock_dec, wc_ifBlock_inc,
    nb_ifBlock_inc]

theorem wc_aliasCtor (m : Mem) (o : SharedPtr) (p b : Nat) :
    (SharedPtr.aliasCtor m o p).1.wc b = m.wc b ∧
      (SharedPtr.aliasCtor m o p).1.nblocks = m.nblocks := by
  simp [SharedPtr.aliasCtor, wc_ifBlock_inc, nb_ifBlock_inc]

theorem wc_ofWeakPtr (m : Mem) (o : WeakPtr) (b : Nat) :
    (SharedPtr.ofWeakPtr m o).1.wc b = m.wc b ∧ (SharedPtr.ofWeakPtr m o).1.nblocks = m.nblocks := by
  rcases ofWeakPtr_cases m o with ⟨_, h⟩ | ⟨_, h⟩ <;> simp [h, wc_ifBlock_inc, nb_ifBlock_inc]

theorem wc_copyAssign (m : Mem) (t o : SharedPtr) (b : Nat) :
    (SharedPtr.copyAssign m t o).1.wc b = m.wc b ∧
      (SharedPtr.copyAssign m t o).1.nblocks = m.nblocks := by
  unfold SharedPtr.copyAssign
  split_ifs <;> simp [wc_ifBlock_inc, wc_ifBlock_dec, nb_ifBlock_inc, nb_ifBlock_dec]

theorem wc_moveAssign (m : Mem) (t o : SharedPtr) (b : Nat) :
    (SharedPtr.moveAssign m t o).1.wc b = m.wc b ∧
      (SharedPtr.moveAssign m t o).1.nblocks = m.nblocks := by
  unfold SharedPtr.moveAssign
  split_ifs <;> simp [wc_ifBlock_dec, nb_ifBlock_dec]

theorem wc_moveAssignU (m : Mem) (t o : SharedPtr) (b : Nat) (r : Mem × SharedPtr × SharedPtr)
    (hr : SharedPtr.moveAssignU m t o = some r) :
    r.1.wc b = m.wc b ∧ r.1.nblocks = m.nblocks := by
  unfold SharedPtr.moveAssignU at hr
  simp only [SharedPtr.GetControlBlock, SharedPtr.Get] at hr
  by_cases h : t.control_block_ = o.control_block_
  · simp only [h, if_true, Option.some.injEq] at hr
    subst hr
    simp [SharedPtr.Reset, wc_ifBlock_dec, nb_ifBlock_dec]
  · simp only [h, if_false] at hr
    cases hc : o.control_block_ with
    | none => simp [hc] at hr
    | some c =>
      simp only [hc, Option.some.injEq] at hr
      subst hr
      have h1 : ∀ m0 : Mem, (IncrementShared m0 c).wc b = m0.wc b :=
        fun m0 => wc_ifBlock_inc m0 (some c) b
      have h2 : ∀ m0 : Mem, (IncrementShared m0 c).nblocks = m0.nblocks :=
        fun m0 => nb_ifBlock_inc m0 (some c)
      simp [SharedPtr.Reset, h1, h2, wc_ifBlock_dec, nb_ifBlock_dec]

theorem wc_dtor (m : Mem) (t : SharedPtr) (b : Nat) :
    (SharedPtr.dtor m t).wc b = m.wc b ∧ (SharedPtr.dtor m t).nblocks = m.nblocks := by
  simp [SharedPtr.dtor, wc_ifBlock_dec, nb_ifBlock_dec]

theorem wc_Lock (m : Mem) (t : WeakPtr) (b : Nat) (r : Mem × SharedPtr)
    (hr : WeakPtr.Lock false m t = some r) : r.1.wc b = m.wc b ∧ r.1.nblocks = m.nblocks := by
  unfold WeakPtr.Lock SharedPtr.ofRaw at hr
  simp only [Bool.false_eq_true, if_false] at hr
  split_ifs at hr <;> simp only [Option.some.injEq] at hr <;> subst hr <;>
    simp [wc_ifBlock_inc, nb_ifBlock_inc]


theorem weakCounted_same (w : World) (m1 : Mem) (sp1 : List (Option SharedPtr))
    (hK : w.WeakCounted) (h : ∀ b, m1.wc b = w.mem.wc b ∧ m1.nblocks = w.mem.nblocks) :
    World.WeakCounted { mem := m1, sp := sp1, wp := w.wp } :=
  weakCounted_of w m1 sp1 w.wp hK (h 0).2 (fun b => by rw [(h b).1]; omega)

/-- For a type without the capability every statement keeps `weak_count_` of
every allocated block equal to the number of live `WeakPtr` variables on it. -/
theorem step_weakCounted (w w1 : World) (op : Op) (hW : w.WF) (hK : w.WeakCounted)
    (hs : step false w op = some w1) : w1.WeakCounted := by
  have hV := hW.2.1
  cases op <;> simp only [step] at hs
  case spDefault =>
    simp only [Option.some.injEq] at hs
    subst hs
    exact weakCounted_same w _ _ hK (fun _ => ⟨rfl, rfl⟩)
  case spOfPtr p =>
    simp only [SharedPtr.ofPtr, Bool.false_eq_true, if_false, Option.map_some',
      Option.some.injEq] at hs
    subst hs
    exact weakCounted_alloc w _ _ hV hK rfl (wc_newPointerControlBlock false w.mem p)
  case makeShared =>
    simp only [MakeShared, SharedPtr.ofRaw, Bool.false_eq_true, if_false, Option.map_some',
      Option.some.injEq] at hs
    subst hs
    exact weakCounted_alloc w _ _ hV hK rfl (wc_newEmplaceControlBlock false w.mem)
  case spCopy i =>
    cases hg : w.getS i with
    | none => simp only [hg, Option.some.injEq] at hs; subst hs; exact hK
    | some o =>
      simp only [hg, Option.some.injEq] at hs
      subst hs
      exact weakCounted_same w _ _ hK (wc_copyCtor w.mem o)
  case spMove i =>
    cases hg : w.getS i with
    | none => simp only [hg, Option.some.injEq] at hs; subst hs; exact hK
    | some o =>
      simp only [hg, Option.some.injEq] at hs
      subst hs
      exact weakCounted_same w _ _ hK (wc_moveCtor w.mem o)
  case spAlias i p =>
    cases hg : w.getS i with
    | none => simp only [hg, Option.some.injEq] at hs; subst hs; exact hK
    | some o =>
      simp only [hg, Option.some.injEq] at hs
      subst hs
      exact weakCounted_same w _ _ hK (wc_aliasCtor w.mem o p)
  case spOfWeak j =>
    cases hg : w.getW j with
    | none => simp only [hg, Option.some.injEq] at hs; subst hs; exact hK
    | some o =>
      simp only [hg] at hs
      have hwc := wc_ofWeakPtr w.mem o
      rcases hr : SharedPtr.ofWeakPtr w.mem o with ⟨m1, e⟩
      rw [hr] at hs hwc
      cases e <;> simp only [Option.some.injEq] at hs <;> subst hs <;>
        exact weakCounted_same w _ _ hK hwc
  case spCopyAssign i j =>
    cases hgi : w.getS i with
    | none => simp only [hgi, Option.some.injEq] at hs; subst hs; exact hK
    | some t =>
      cases hgj : w.getS j with
      | none => simp only [hgi, hgj, Option.some.injEq] at hs; subst hs; exact hK
      | some o =>
        simp only [hgi, hgj, Option.some.injEq] at hs
        subst hs
        exact weakCounted_same w _ _ hK (wc_copyAssign w.mem t o)
  case spMoveAssign i j =>
    cases hgi : w.getS i with
    | none => simp only [hgi, Option.some.injEq] at hs; subst hs; exact hK
    | some t =>
      cases hgj : w.getS j with
      | none => simp only [hgi, hgj, Option.some.injEq] at hs; subst hs; exact hK
      | some o =>
        simp only [hgi, hgj, Option.some.injEq] at hs
        subst hs
        exact weakCounted_same w _ _ hK (wc_moveAssign w.mem t o)
  case spMoveAssignU i j =>
    cases hgi : w.getS i with
    | none => simp only [hgi, Option.some.injEq] at hs; subst hs; exact hK
    | some t =>
      cases hgj : w.getS j with
      | none => simp only [hgi, hgj, Option.some.injEq] at hs; subst hs; exact hK
      | some o =>
        simp only [hgi, hgj] at hs
        cases hr : SharedPtr.moveAssignU w.mem t o with
        | none => simp [hr] at hs
        | some r =>
          simp only [hr, Option.map_some', Option.some.injEq] at hs
          subst hs
          exact weakCounted_same w _ _ hK (fun b => wc_moveAssignU w.mem t o b r hr)
  case spDtor i =>
    cases hg : w.getS i with
    | none => simp only [hg, Option.some.injEq] at hs; subst hs; exact hK
    | some o =>
      simp only [hg, Option.some.injEq] at hs
      subst hs
      exact weakCounted_same w _ _ hK (wc_dtor w.mem o)
  case spReset i =>
    cases hg : w.getS i with
    | none => simp only [hg, Option.some.injEq] at hs; subst hs; exact hK
    | some o =>
      simp only [hg, Option.some.injEq] at hs
      subst hs
      exact weakCounted_same w _ _ hK (wc_Reset w.mem o)
  case spResetPtr i p =>
    cases hg : w.getS i with
    | none => simp only [hg, Option.some.injEq] at hs; subst hs; exact hK
    | some t =>
      simp only [hg, Option.some.injEq] at hs
      subst hs
      by_cases hp : t.ptr_ = p
      · have e : SharedPtr.ResetPtr false w.mem t p = (w.mem, t) := by
          simp [SharedPtr.ResetPtr, hp]
        simp only [e]
        exact weakCounted_same w _ _ hK (fun _ => ⟨rfl, rfl⟩)
      · have e : SharedPtr.ResetPtr false w.mem t p =
            ((newPointerControlBlock false (ifBlock t.control_block_ DecrementShared w.mem) p).1,
              { ptr_ := p, control_block_ := some w.mem.nblocks }) := by
          simp [SharedPtr.ResetPtr, hp, newPointerControlBlock, nb_ifBlock_dec]
        simp only [e]
        refine weakCounted_alloc w _ _ hV hK ?_ (fun b => ?_)
        · simp [newPointerControlBlock, nb_ifBlock_dec]
        · rw [wc_newPointerControlBlock, nb_ifBlock_dec, wc_ifBlock_dec]
  case spSwap i j =>
    cases hgi : w.getS i with
    | none => simp only [hgi, Option.some.injEq] at hs; subst hs; exact hK
    | some t =>
      cases hgj : w.getS j with
      | none => simp only [hgi, hgj, Option.some.injEq] at hs; subst hs; exact hK
      | some o =>
        simp only [hgi, hgj, Option.some.injEq] at hs
        subst hs
        exact weakCounted_same w _ _ hK (fun _ => ⟨rfl, rfl⟩)
  case wpDefault =>
    simp only [Option.some.injEq] at hs
    subst hs
    refine weakCounted_of w _ _ _ hK rfl (fun b => ?_)
    simp only [cntW_append, ind_none]
    omega
  case wpCopy i =>
    cases hg : w.getW i with
    | none => simp only [hg, Option.some.injEq] at hs; subst hs; exact hK
    | some o =>
      simp only [hg, Option.some.injEq] at hs
      subst hs
      refine weakCounted_of w _ _ _ hK (nb_ifBlock_incW _ _) (fun b => ?_)
      simp only [WeakPtr.copyCtor, wc_ifBlock_incW, cntW_append]
      omega
  case wpMove i =>
    cases hg : w.getW i with
    | none => simp only [hg, Option.some.injEq] at hs; subst hs; exact hK
    | some o =>
      simp only [hg, Option.some.injEq] at hs
      subst hs
      refine weakCounted_of w _ _ _ hK ?_ (fun b => ?_)
      · simp [WeakPtr.moveCtor, WeakPtr.Reset, nb_ifBlock_incW, nb_ifBlock_decW]
      · simp only [WeakPtr.moveCtor, WeakPtr.Reset, WeakPtr.Get, WeakPtr.GetControlBlock,
          wc_ifBlock_incW, wc_ifBlock_decW, cntW_append,
          cntW_set b w.wp i o _ (getW_get hg), ind_none]
        omega
  case wpOfShared i =>
    cases hg : w.getS i with
    | none => simp only [hg, Option.some.injEq] at hs; subst hs; exact hK
    | some o =>
      simp only [hg, Option.some.injEq] at hs
      subst hs
      refine weakCounted_of w _ _ _ hK (nb_ifBlock_incW _ _) (fun b => ?_)
      simp only [WeakPtr.ofSharedPtr, wc_ifBlock_incW, cntW_append, SharedPtr.GetControlBlock]
      omega
  case wpCopyAssign i j =>
    cases hgi : w.getW i with
    | none => simp only [hgi, Option.some.injEq] at hs; subst hs; exact hK
    | some t =>
      cases hgj : w.getW j with
      | none => simp only [hgi, hgj, Option.some.injEq] at hs; subst hs; exact hK
      | some o =>
        simp only [hgi, hgj, Option.some.injEq] at hs
        subst hs
        by_cases h : t.control_block_ = o.control_block_
        · refine weakCounted_of w _ _ _ hK (by simp [WeakPtr.copyAssign, h]) (fun b => ?_)
          simp only [WeakPtr.copyAssign, h, if_true, cntW_set b w.wp i t _ (getW_get hgi)]
          omega
        · refine weakCounted_of w _ _ _ hK
            (by simp [WeakPtr.copyAssign, h, nb_ifBlock_incW, nb_ifBlock_decW]) (fun b => ?_)
          simp only [WeakPtr.copyAssign, h, if_false, wc_ifBlock_incW, wc_ifBlock_decW,
            cntW_set b w.wp i t _ (getW_get hgi)]
          omega
  case wpAssignShared i j =>
    cases hgi : w.getW i with
    | none => simp only [hgi, Option.some.injEq] at hs; subst hs; exact hK
    | some t =>
      cases hgj : w.getS j with
      | none => simp only [hgi, hgj, Option.some.injEq] at hs; subst hs; exact hK
      | some o =>
        simp only [hgi, hgj, Option.some.injEq] at hs
        subst hs
        by_cases h : t.control_block_ = o.control_block_
        · refine weakCounted_of w _ _ _ hK
            (by simp [WeakPtr.assignShared, SharedPtr.GetControlBlock, h]) (fun b => ?_)
          simp only [WeakPtr.assignShared, SharedPtr.GetControlBlock, h, if_true,
            cntW_set b w.wp i t _ (getW_get hgi)]
          omega
        · refine weakCounted_of w _ _ _ hK
            (by simp [WeakPtr.assignShared, SharedPtr.GetControlBlock, h, nb_ifBlock_incW,
              nb_ifBlock_decW]) (fun b => ?_)
          simp only [WeakPtr.assignShared, SharedPtr.GetControlBlock, h, if_false,
            wc_ifBlock_incW, wc_ifBlock_decW, cntW_set b w.wp i t _ (getW_get hgi)]
          omega
  case wpMoveAssign i j =>
    cases hgi : w.getW i with
    | none => simp only [hgi, Option.some.injEq] at hs; subst hs; exact hK
    | some t =>
      cases hgj : w.getW j with
      | none => simp only [hgi, hgj, Option.some.injEq] at hs; subst hs; exact hK
      | some o =>
        simp only [hgi, hgj, Option.some.injEq] at hs
        subst hs
        have hto : i = j → t = o := same_slotW hgi hgj
        by_cases h : t.control_block_ = o.control_block_
        · refine weakCounted_of w _ _ _ hK
            (by simp [WeakPtr.moveAssign, h, nb_ifBlock_decW]) (fun b => ?_)
          simp only [WeakPtr.moveAssign, h, if_true, wc_ifBlock_decW,
            cntW_set_set b w.wp i j t o _ _ (getW_get hgi) (getW_get hgj), ind_none]
          split_ifs <;> omega
        · refine weakCounted_of w _ _ _ hK
            (by simp [WeakPtr.moveAssign, h, nb_ifBlock_decW]) (fun b => ?_)
          simp only [WeakPtr.moveAssign, h, if_false, wc_ifBlock_decW,
            cntW_set_set b w.wp i j t o _ _ (getW_get hgi) (getW_get hgj), ind_none]
          split_ifs with hij
          · exact absurd (congrArg WeakPtr.control_block_ (hto hij)) h
          · omega
  case wpDtor i =>
    cases hg : w.getW i with
    | none => simp only [hg, Option.some.injEq] at hs; subst hs; exact hK
    | some o =>
      simp only [hg, Option.some.injEq] at hs
      subst hs
      refine weakCounted_of w _ _ _ hK (nb_ifBlock_decW _ _) (fun b => ?_)
      simp only [WeakPtr.dtor, wc_ifBlock_decW, cntW_set_none b w.wp i o (getW_get hg)]
      omega
  case wpReset i =>
    cases hg : w.getW i with
    | none => simp only [hg, Option.some.injEq] at hs; subst hs; exact hK
    | some o =>
      simp only [hg, Option.some.injEq] at hs
      subst hs
      refine weakCounted_of w _ _ _ hK (nb_ifBlock_decW _ _) (fun b => ?_)
      simp only [WeakPtr.Reset, wc_ifBlock_decW, cntW_set b w.wp i o _ (getW_get hg), ind_none]
      omega
  case wpSwap i j =>
    cases hgi : w.getW i with
    | none => simp only [hgi, Option.some.injEq] at hs; subst hs; exact hK
    | some t =>
      cases hgj : w.getW j with
      | none => simp only [hgi, hgj, Option.some.injEq] at hs; subst hs; exact hK
      | some o =>
        simp only [hgi, hgj, Option.some.injEq] at hs
        subst hs
        have hto : i = j → t = o := same_slotW hgi hgj
        refine weakCounted_of w _ _ _ hK rfl (fun b => ?_)
        simp only [WeakPtr.Swap, cntW_set_set b w.wp i j t o _ _ (getW_get hgi) (getW_get hgj)]
        split_ifs with hij
        · rw [hto hij]
          omega
        · omega
  case wpLock i =>
    cases hg : w.getW i with
    | none => simp only [hg, Option.some.injEq] at hs; subst hs; exact hK
    | some t =>
      simp only [hg] at hs
      cases hr : WeakPtr.Lock false w.mem t with
      | none => simp [hr] at hs
      | some r =>
        simp only [hr, Option.map_some', Option.some.injEq] at hs
        subst hs
        exact weakCounted_same w _ _ hK (fun b => wc_Lock w.mem t b r hr)
  case sharedFromThis p =>
    simp only [Bool.false_eq_true, if_false, Option.some.injEq] at hs
    subst hs
    exact hK
  case weakFromThis p =>
    simp only [Bool.false_eq_true, if_false, Option.some.injEq] at hs
    subst hs
    exact hK


theorem run_weakCounted (ops : List Op) :
    ∀ (w w1 : World), w.WF → w.Counted → w.WeakCounted → run false w ops = some w1 →
      w1.WeakCounted := by
  induction ops with
  | nil =>
    intro w w1 _ _ hK hr
    simp only [run, Option.some.injEq] at hr
    subst hr
    exact hK
  | cons op ops ih =>
    intro w w1 hW hC hK hr
    simp only [run] at hr
    cases hs : step false w op with
    | none => simp [hs] at hr
    | some w2 =>
      simp only [hs, Option.some_bind] at hr
      obtain ⟨hW2, hC2, _⟩ := step_counted false w w2 op hW hC hs
      exact ih w2 w1 hW2 hC2 (step_weakCounted w w2 op hW hK hs) hr

/-- For a type without the capability, at every point of every program of the
27 statements, `weak_count_` of every allocated block is the number of live
`WeakPtr` variables whose control block it is; it is never negative. -/
theorem weak_count_is_number_of_live_weak_handles (ops : List Op) (w : World)
    (hr : run false {} ops = some w) (b : Nat) (hb : b < w.mem.nblocks) :
    (w.mem.blocks b).weak_count_ = (w.liveWeak b : Int) ∧ 0 ≤ (w.mem.blocks b).weak_count_ := by
  have hK : World.WeakCounted {} := by
    intro c hc
    simp at hc
  have h := run_weakCounted ops {} w empty_WF empty_Counted hK hr b hb
  have h1 : (w.mem.blocks b).weak_count_ = (w.liveWeak b : Int) := h
  exact ⟨h1, by rw [h1]; exact Int.ofNat_nonneg _⟩

/-- The handles after `a.Swap(b)`: the pointers of `a` and `b` exchanged, the
deleters in place. -/
theorem Swap_handles {D : Type} (s : UMem D) (a b : Nat) :
    (UniquePtr.Swap s a b).handles =
      Function.update (Function.update s.handles a { s.handles a with ptr_ := (s.handles b).ptr_ })
        b { s.handles b with ptr_ := (s.handles a).ptr_ } := by
  by_cases h : b = a
  · subst h
    simp [UniquePtr.Swap, UMem.setPtr]
  · simp [UniquePtr.Swap, UMem.setPtr, Function.update_noteq h]

theorem Swap_Swap {D : Type} (s : UMem D) (a b : Nat) :
    UniquePtr.Swap (UniquePtr.Swap s a b) a b = s ∧
    UniquePtr.Swap (UniquePtr.Swap s a b) b a = s := by
  have hc : ∀ (t : UMem D) (x y : Nat), (UniquePtr.Swap t x y).calls = t.calls := fun _ _ _ => rfl
  have key : ∀ x y : Nat, (x = a ∧ y = b) ∨ (x = b ∧ y = a) →
      (UniquePtr.Swap (UniquePtr.Swap s a b) x y).handles = s.handles := by
    intro x y hxy
    rw [Swap_handles, Swap_handles]
    funext v
    rcases hxy with ⟨rfl, rfl⟩ | ⟨rfl, rfl⟩
    · by_cases hab : y = x
      · subst hab
        by_cases hv : v = y
        · subst hv; simp
        · simp [Function.update_noteq hv]
      · have hba : x ≠ y := fun e => hab e.symm
        by_cases hvy : v = y
        · subst hvy
          simp [Function.update_noteq hba]
        · by_cases hvx : v = x
          · subst hvx
            simp [Function.update_noteq hba, Function.update_noteq hvy]
          · simp [Function.update_noteq hvx, Function.update_noteq hvy]
    · by_cases hab : y = x
      · subst hab
        by_cases hv : v = y
        · subst hv; simp
        · simp [Function.update_noteq hv]
      · have hba : x ≠ y := fun e => hab e.symm
        by_cases hvy : v = y
        · subst hvy
          simp [Function.update_noteq hab]
        · by_cases hvx : v = x
          · subst hvx
            simp [Function.update_noteq hab, Function.update_noteq hvy]
          · simp [Function.update_noteq hvx, Function.update_noteq hvy]
  constructor
  · have h1 := key a b (Or.inl ⟨rfl, rfl⟩)
    have h2 := hc (UniquePtr.Swap s a b) a b
    rw [hc s a b] at h2
    rcases hs : UniquePtr.Swap (UniquePtr.Swap s a b) a b with ⟨hd, cl⟩
    rw [hs] at h1 h2
    rcases s with ⟨hd0, cl0⟩
    simp only at h1 h2
    rw [h1, h2]
  · have h1 := key b a (Or.inr ⟨rfl, rfl⟩)
    have h2 := hc (UniquePtr.Swap s a b) b a
    rw [hc s a b] at h2
    rcases hs : UniquePtr.Swap (UniquePtr.Swap s a b) b a with ⟨hd, cl⟩
    rw [hs] at h1 h2
    rcases s with ⟨hd0, cl0⟩
    simp only at h1 h2
    rw [h1, h2]

/-! # The claims -/

theorem Expired_iff (m : Mem) (w : WeakPtr) :
    w.Expired m = true ↔
      (w.control_block_ = none ∨
        ∃ b, w.control_block_ = some b ∧ (m.blocks b).shared_count_ = 0) := by
  unfold WeakPtr.Expired WeakPtr.UseCount
  cases h : w.control_block_ <;> simp

/-- C2: constructing a `SharedPtr` from a `WeakPtr` throws `BadWeakPtr` exactly
when the weak handle is expired (no control block, or `shared_count_ = 0`);
when it throws the heap is the one the constructor was entered with, so no
counter was touched; when it does not throw the new handle has the weak
handle's pointer and control block, `shared_count_` of that block is one
higher and `weak_count_` is unchanged. -/
theorem C2_promotion_throws_iff_expired (m : Mem) (w : WeakPtr) :
    ((SharedPtr.ofWeakPtr m w).2 = Except.error BadWeakPtr.thrown ↔ w.Expired m = true) ∧
    (w.Expired m = true ↔
      (w.control_block_ = none ∨
        ∃ b, w.control_block_ = some b ∧ (m.blocks b).shared_count_ = 0)) ∧
    (w.Expired m = true → (SharedPtr.ofWeakPtr m w).1 = m) ∧
    (w.Expired m = false → ∃ b, w.control_block_ = some b ∧
      (SharedPtr.ofWeakPtr m w).2 = Except.ok { ptr_ := w.ptr_, control_block_ := some b } ∧
      (((SharedPtr.ofWeakPtr m w).1).blocks b).shared_count_ = (m.blocks b).shared_count_ + 1 ∧
      (((SharedPtr.ofWeakPtr m w).1).blocks b).weak_count_ = (m.blocks b).weak_count_ ∧
      (((SharedPtr.ofWeakPtr m w).1).blocks b).log = (m.blocks b).log ∧
      ∀ b', b' ≠ b → ((SharedPtr.ofWeakPtr m w).1).blocks b' = m.blocks b') := by
  refine ⟨?_, Expired_iff m w, ?_, ?_⟩
  · unfold SharedPtr.ofWeakPtr
    cases h : w.Expired m <;> simp
  · intro h
    simp [SharedPtr.ofWeakPtr, h]
  · intro h
    have hne : ¬ (w.Expired m = true) := by simp [h]
    rw [Expired_iff] at hne
    cases hcb : w.control_block_ with
    | none => exact absurd (Or.inl hcb) hne
    | some b =>
      refine ⟨b, rfl, ?_⟩
      simp [SharedPtr.ofWeakPtr, h, WeakPtr.Get, WeakPtr.GetControlBlock, hcb, ifBlock,
        IncrementShared_blocks]
      intro b' hb'
      simp [Function.update_noteq hb']

/-- C3, the code at the failing input (`T` without the capability):
`SharedPtr<T> a(new T); WeakPtr<T> w(a);` and `a` destroyed leave the block with
`shared_count_ = 0`, `weak_count_ = 1` and `w.Expired()`; then `w.Lock()`
returns a handle with a null pointer (`operator bool` false) on the block, and
`shared_count_` is `1`, not `0`. -/
theorem C3_Lock_on_dead_object_increments :
    (run false {} [Op.spOfPtr 1, Op.wpOfShared 0, Op.spDtor 0]).map
        (fun w => (w.view 0, w.getW 0, (w.getW 0).map (fun h => h.Expired w.mem)))
      = some ((0, 1, [Hook.OnZeroShared], 0, 1),
          some { ptr_ := 1, control_block_ := some 0 }, some true) ∧
    (run false {} [Op.spOfPtr 1, Op.wpOfShared 0, Op.spDtor 0, Op.wpLock 0]).map
        (fun w => (w.view 0, w.getS 1, (w.getS 1).map (fun h => (h.toBool, h.UseCount w.mem))))
      = some ((1, 1, [Hook.OnZeroShared], 1, 1),
          some { ptr_ := 0, control_block_ := some 0 }, some (false, 1)) := by
  constructor <;> rfl

/-- `Lock()` on a weak handle whose block has `shared_count_ = n ≠ 0`, for a
handle that exposes an object when `T` has the capability: the returned
handle has the weak handle's pointer and block, `UseCount()` is `n + 1`, and
destroying or resetting the returned handle brings it back to `n`; the hook
log of the block is unchanged throughout. -/
theorem Lock_live_release (esft : Bool) (m : Mem) (w : WeakPtr) (b : Nat)
    (hcb : w.control_block_ = some b) (hn : (m.blocks b).shared_count_ ≠ 0)
    (hobj : esft = true → w.ptr_ ≠ 0) :
    ∃ m1 h, WeakPtr.Lock esft m w = some (m1, h) ∧
      h.ptr_ = w.ptr_ ∧ h.control_block_ = some b ∧
      h.UseCount m1 = (m.blocks b).shared_count_ + 1 ∧
      (m1.blocks b).log = (m.blocks b).log ∧
      w.UseCount (SharedPtr.dtor m1 h) = (m.blocks b).shared_count_ ∧
      ((SharedPtr.dtor m1 h).blocks b).log = (m.blocks b).log ∧
      w.UseCount (SharedPtr.Reset m1 h).1 = (m.blocks b).shared_count_ ∧
      ((SharedPtr.Reset m1 h).1.blocks b).log = (m.blocks b).log := by
  obtain ⟨m1, h1, h2, h3⟩ := Lock_live esft m w b hcb hn hobj
  refine ⟨m1, _, h1, rfl, rfl, ?_, h3, ?_, ?_, ?_, ?_⟩ <;>
    simp [SharedPtr.UseCount, WeakPtr.UseCount, SharedPtr.dtor, SharedPtr.Reset, ifBlock, hcb,
      DecrementShared_blocks, ControlBlock.decShared, h2, h3, hn]

/-- C4, the code at the failing input (`T` with the capability):
`SharedPtr<T> a(new T); SharedPtr<T> al(a, nullptr); WeakPtr<T> w(al);` gives a
weak handle with a null pointer on a block with `shared_count_ = 2`, not
expired; `w.Lock()` then passes the null pointer to
`EnableSharedFromThisHelper`, which dereferences it: no handle is returned. -/
theorem C4_Lock_live_null_pointer_dereferenced :
    (run true {} [Op.spOfPtr 1, Op.spAlias 0 0, Op.wpOfShared 1]).map
        (fun w => (w.view 0, w.getW 0, (w.getW 0).map (fun h => h.Expired w.mem)))
      = some ((2, 2, [], 2, 1), some { ptr_ := 0, control_block_ := some 0 }, some false) ∧
    (run true {} [Op.spOfPtr 1, Op.spAlias 0 0, Op.wpOfShared 1, Op.wpLock 0]).isSome = false := by
  constructor <;> rfl

/-- C5, the code at the failing input (`T` without the capability): with
`SharedPtr<T> a(new T); WeakPtr<T> w(a);` the handle `w` is not expired; after
`a` is destroyed `w.Expired()` is true; after `w.Lock()`, while the returned
handle is held, `shared_count_` is `1` and `w.Expired()` is false again. -/
theorem C5_Expired_false_again_after_Lock :
    (run false {} [Op.spOfPtr 1, Op.wpOfShared 0]).map
        (fun w => (w.view 0, (w.getW 0).map (fun h => h.Expired w.mem)))
      = some ((1, 1, [], 1, 1), some false) ∧
    (run false {} [Op.spOfPtr 1, Op.wpOfShared 0, Op.spDtor 0]).map
        (fun w => (w.view 0, (w.getW 0).map (fun h => h.Expired w.mem)))
      = some ((0, 1, [Hook.OnZeroShared], 0, 1), some true) ∧
    (run false {} [Op.spOfPtr 1, Op.wpOfShared 0, Op.spDtor 0, Op.wpLock 0]).map
        (fun w => (w.view 0, (w.getW 0).map (fun h => h.Expired w.mem)))
      = some ((1, 1, [Hook.OnZeroShared], 1, 1), some false) := by
  refine ⟨?_, ?_, ?_⟩ <;> rfl

/-- C6, the code at the failing input (`T` without the capability):
`MakeShared<T>()`, a weak handle, the owner destroyed (`OnZeroShared` runs,
`~T()` ran once), `Lock()` on the dead object (`shared_count_` becomes `1`),
and the returned handle destroyed: `OnZeroShared` runs a second time and
`~T()` has run twice on the in-place storage.  With a `PointerControlBlock`
the hook runs twice as well (the second `delete` is on a null pointer). -/
theorem C6_OnZeroShared_fires_twice :
    (run false {} [Op.makeShared, Op.wpOfShared 0, Op.spDtor 0, Op.wpLock 0]).map
        (fun w => (w.view 0, (w.mem.objects 1).dtor_runs))
      = some ((1, 1, [Hook.OnZeroShared], 1, 1), 1) ∧
    (run false {} [Op.makeShared, Op.wpOfShared 0, Op.spDtor 0, Op.wpLock 0, Op.spDtor 1]).map
        (fun w => (w.view 0, (w.mem.objects 1).dtor_runs))
      = some ((0, 1, [Hook.OnZeroShared, Hook.OnZeroShared], 0, 1), 2) ∧
    (run false {} [Op.spOfPtr 1, Op.wpOfShared 0, Op.spDtor 0, Op.wpLock 0, Op.spDtor 1]).map
        (fun w => (w.view 0, (w.mem.objects 1).dtor_runs))
      = some ((0, 1, [Hook.OnZeroShared, Hook.OnZeroShared], 0, 1), 1) := by
  refine ⟨?_, ?_, ?_⟩ <;> rfl

/-- C7, the code at the failing input (`T` with the capability):
`SharedPtr<T> a; a.Reset(new T); WeakPtr<T> w(a);` gives `shared_count_ = 1`,
`weak_count_ = 1` (the handle `w`; `Reset(ptr)` attached no internal handle).
Destroying `a` runs `OnZeroShared` and then, `weak_count_` being `1`,
`OnZeroWeak`, while `w` is live on the block; destroying `w` calls
`DecrementWeak` on the released block and runs `OnZeroWeak` a second time. -/
theorem C7_OnZeroWeak_fires_with_live_handle_and_twice :
    (run true {} [Op.spDefault, Op.spResetPtr 0 1, Op.wpOfShared 0]).map (fun w => w.view 0)
      = some (1, 1, [], 1, 1) ∧
    (run true {} [Op.spDefault, Op.spResetPtr 0 1, Op.wpOfShared 0, Op.spDtor 0]).map
        (fun w => w.view 0)
      = some (0, 1, [Hook.OnZeroShared, Hook.OnZeroWeak], 0, 1) ∧
    (run true {} [Op.spDefault, Op.spResetPtr 0 1, Op.wpOfShared 0, Op.spDtor 0, Op.wpDtor 0]).map
        (fun w => w.view 0)
      = some (0, 0, [Hook.OnZeroShared, Hook.OnZeroWeak, Hook.OnZeroWeak], 0, 0) := by
  refine ⟨?_, ?_, ?_⟩ <;> rfl

/-- C1: a program constructs one handle (`SharedPtr(T*)` or `MakeShared`) and
then executes any sequence of copy constructions, move constructions, copy
and move assignments, `Reset()` and destructions of `SharedPtr` variables.
Right after the construction one variable is live on the block and
`OnZeroShared` has not run.  At every point reached, `OnZeroShared` has run
exactly once if no live variable references the block and not at all while
one does: it runs in the statement that releases the last one, never earlier
and never again.  The sequence always executes to its end when it has no
converting move assignment. -/
theorem C1_OnZeroShared_once_at_last_release (esft : Bool) (init : Op) (ops : List Op)
    (w0 : World) (hinit : (∃ p, init = Op.spOfPtr p) ∨ init = Op.makeShared)
    (h0 : step esft {} init = some w0)
    (hops : ∀ op ∈ ops, op.isLifetimeOp = true) :
    (w0.liveShared 0 = 1 ∧ (w0.mem.blocks 0).zeroShared = 0) ∧
    (∀ w, run esft w0 ops = some w →
      (w.mem.blocks 0).zeroShared = if w.liveShared 0 = 0 then 1 else 0) ∧
    ((∀ i j, Op.spMoveAssignU i j ∉ ops) → ∃ w, run esft w0 ops = some w) := by
  have hnl : ∀ op ∈ ops, op.notLock = true := fun op h => notLock_of_lifetime op (hops op h)
  refine ⟨?_, fun w hw => fires_once_when_last_released esft init ops w0 w hinit h0 hnl hw,
    fun hU => run_total esft ops w0 (fun op h => Or.inl (hops op h)) hU⟩
  have hz := fires_once_when_last_released esft init [] w0 w0 hinit h0
    (fun _ h => absurd h (List.not_mem_nil _)) rfl
  have hl : w0.liveShared 0 = 1 := by
    rcases hinit with ⟨p, rfl⟩ | rfl
    · simp only [step] at h0
      cases hr : SharedPtr.ofPtr esft ({} : World).mem p with
      | none => simp [hr] at h0
      | some r =>
        simp only [hr, Option.map_some', Option.some.injEq] at h0
        subst h0
        have := (ofPtr_effect esft _ p r hr).1
        simp [World.liveShared, this, SharedPtr.on]
    · simp only [step] at h0
      cases hr : MakeShared esft ({} : World).mem with
      | none => simp [hr] at h0
      | some r =>
        simp only [hr, Option.map_some', Option.some.injEq] at h0
        subst h0
        have := (MakeShared_effect esft _ r hr).1
        simp [World.liveShared, this, SharedPtr.on]
  rw [hl] at hz
  exact ⟨hl, by simpa using hz⟩

/-- Witness of C1: `a(new T)`, `b(a)`, `c(std::move(b))`, `a = c`,
`b = std::move(a)`, `c.Reset()`, `b` destroyed; the hook has run once and no
variable is live on the block. -/
theorem C1_witness :
    ∃ w0 w, step false {} (Op.spOfPtr 1) = some w0 ∧
      run false w0 [Op.spCopy 0, Op.spMove 1, Op.spCopyAssign 0 2, Op.spMoveAssign 1 0,
        Op.spReset 2, Op.spDtor 1] = some w ∧
      ((w.mem.blocks 0).zeroShared = if w.liveShared 0 = 0 then 1 else 0) ∧
      w.liveShared 0 = 0 ∧ (w.mem.blocks 0).log = [Hook.OnZeroShared, Hook.OnZeroWeak] :=
  ⟨_, _, rfl, rfl,
    (C1_OnZeroShared_once_at_last_release false (Op.spOfPtr 1)
      [Op.spCopy 0, Op.spMove 1, Op.spCopyAssign 0 2, Op.spMoveAssign 1 0,
        Op.spReset 2, Op.spDtor 1] _ (Or.inl ⟨1, rfl⟩) rfl (by decide)).2.1 _ rfl,
    rfl, rfl⟩

/-- C9: the aliasing constructor `SharedPtr(a, p)` on a handle `a` with a
control block `b` yields a handle with `Get() = p` on the block `b`, adds
exactly one to `shared_count_` of `b` and runs no hook.  In every program
that constructs one handle and then executes aliasing constructions, copy
constructions, `Reset()` and destructions of `SharedPtr` variables (the
sequence always executes to its end), `OnZeroShared` has run exactly once if
no live variable references the block and not at all while one does: in
particular destroying the original while an aliased handle is live runs no
hook, and the hook runs when the last of the handles is released. -/
theorem C9_alias_shares_block_and_lifetime (esft : Bool) (init : Op) (ops : List Op)
    (w0 : World) (hinit : (∃ p, init = Op.spOfPtr p) ∨ init = Op.makeShared)
    (h0 : step esft {} init = some w0)
    (hops : ∀ op ∈ ops, op.isAliasOp = true) :
    (∀ (m : Mem) (a : SharedPtr) (p b : Nat), a.control_block_ = some b →
      (SharedPtr.aliasCtor m a p).2.Get = p ∧
      (SharedPtr.aliasCtor m a p).2.control_block_ = some b ∧
      ((SharedPtr.aliasCtor m a p).1.blocks b).shared_count_ = (m.blocks b).shared_count_ + 1 ∧
      ((SharedPtr.aliasCtor m a p).1.blocks b).weak_count_ = (m.blocks b).weak_count_ ∧
      ((SharedPtr.aliasCtor m a p).1.blocks b).log = (m.blocks b).log) ∧
    (∃ w, run esft w0 ops = some w) ∧
    (∀ w, run esft w0 ops = some w →
      (w.mem.blocks 0).zeroShared = if w.liveShared 0 = 0 then 1 else 0) := by
  have hnl : ∀ op ∈ ops, op.notLock = true := fun op h => notLock_of_alias op (hops op h)
  refine ⟨?_, run_total esft ops w0 (fun op h => Or.inr (hops op h)) ?_,
    fun w hw => fires_once_when_last_released esft init ops w0 w hinit h0 hnl hw⟩
  · intro m a p b hb
    simp [SharedPtr.aliasCtor, SharedPtr.Get, SharedPtr.GetControlBlock, hb, ifBlock,
      IncrementShared_blocks]
  · intro i j hm
    have := hops _ hm
    simp [Op.isAliasOp] at this

/-- Witness of C9: `a(new T)`, `al(a, p)` with `p = 7`, `c(al)`, `a` destroyed
(no hook: two handles are live), `al.Reset()`, `c` destroyed (the hook has run
once). -/
theorem C9_witness :
    ∃ w0 w1 w, step false {} (Op.spOfPtr 1) = some w0 ∧
      run false w0 [Op.spAlias 0 7, Op.spCopy 1, Op.spDtor 0] = some w1 ∧
      ((w1.mem.blocks 0).zeroShared = if w1.liveShared 0 = 0 then 1 else 0) ∧
      w1.liveShared 0 = 2 ∧ (w1.mem.blocks 0).log = [] ∧
      w1.getS 1 = some { ptr_ := 7, control_block_ := some 0 } ∧
      run false w1 [Op.spReset 1, Op.spDtor 2] = some w ∧
      w.liveShared 0 = 0 ∧ (w.mem.blocks 0).log = [Hook.OnZeroShared, Hook.OnZeroWeak] :=
  ⟨_, _, _, rfl, rfl,
    (C9_alias_shares_block_and_lifetime false (Op.spOfPtr 1)
      [Op.spAlias 0 7, Op.spCopy 1, Op.spDtor 0] _ (Or.inl ⟨1, rfl⟩) rfl (by decide)).2.2 _ rfl,
    rfl, rfl, rfl, rfl, rfl, rfl⟩

/-- For an object of a type with the capability that has no handle member,
owned through `SharedPtr(T*)` or `MakeShared` (`h0`: the construction is
defined): right after construction `shared_count_ = 1`
and `weak_count_ = 1` (the internal handle) and no hook has run.  Every
program that then takes further external handles (`SharedPtr` copies,
`WeakPtr` handles) and releases handles, in any order, executes to its end,
and at every point `weak_count_` is the number of live external `WeakPtr`
handles plus one (the internal handle is never decremented) and `OnZeroWeak`
has run exactly once if no external handle, shared or weak, is live, and not
at all while one is: it runs in the release of the last external handle. -/
theorem capability_block_released_once (init : Op) (ops : List Op) (w0 : World)
    (hinit : (∃ p, init = Op.spOfPtr p) ∨ init = Op.makeShared)
    (h0 : step true {} init = some w0)
    (hops : ∀ op ∈ ops, op.isShareOrRelease = true) :
    ((w0.mem.blocks 0).shared_count_ = 1 ∧ (w0.mem.blocks 0).weak_count_ = 1 ∧
      (w0.mem.blocks 0).log = [] ∧ w0.liveShared 0 = 1 ∧ w0.liveWeak 0 = 0) ∧
    ∃ w, run true w0 ops = some w ∧
      (w.mem.blocks 0).shared_count_ = (w.liveShared 0 : Int) ∧
      (w.mem.blocks 0).weak_count_ = (w.liveWeak 0 : Int) + 1 ∧
      (w.mem.blocks 0).zeroWeak = if w.liveShared 0 = 0 ∧ w.liveWeak 0 = 0 then 1 else 0 := by
  have hc0 := init_Cap init w0 hinit h0
  obtain ⟨h1, h2, _, h4, h5⟩ := init_block init w0 hinit h0
  obtain ⟨w, hw, hc⟩ := run_Cap true ops w0 hops hc0
  have hz0 := zeroWeak_of_Cap hc0
  refine ⟨⟨h1, h2, h4, ?_, ?_⟩, w, hw, zeroWeak_of_Cap hc⟩
  · have := hz0.1
    rw [h1] at this
    exact_mod_cast this.symm
  · simp [World.liveWeak, h5]

/-- An instance: `a(new T)` for `T` with the capability, a copy `b`, weak
handles `u(a)` and `v(u)`; `a`, `u`, `b` released (the hook has not run: `v`
is live and `weak_count_` is `2`), then `v` released (the hook has run once,
`weak_count_` stays `1`). -/
theorem capability_block_released_once_example :
    ∃ w0, step true {} (Op.spOfPtr 1) = some w0 ∧
      (((w0.mem.blocks 0).shared_count_ = 1 ∧ (w0.mem.blocks 0).weak_count_ = 1 ∧
        (w0.mem.blocks 0).log = [] ∧ w0.liveShared 0 = 1 ∧ w0.liveWeak 0 = 0) ∧
      ∃ w, run true w0 [Op.spCopy 0, Op.wpOfShared 0, Op.wpCopy 0, Op.spDtor 0, Op.wpReset 0,
          Op.spReset 1, Op.wpDtor 1] = some w ∧
        (w.mem.blocks 0).shared_count_ = (w.liveShared 0 : Int) ∧
        (w.mem.blocks 0).weak_count_ = (w.liveWeak 0 : Int) + 1 ∧
        (w.mem.blocks 0).zeroWeak = if w.liveShared 0 = 0 ∧ w.liveWeak 0 = 0 then 1 else 0) ∧
      (run true w0 [Op.spCopy 0, Op.wpOfShared 0, Op.wpCopy 0, Op.spDtor 0, Op.wpReset 0,
          Op.spReset 1]).map (fun w => w.view 0) = some (0, 2, [Hook.OnZeroShared], 0, 1) ∧
      (run true w0 [Op.spCopy 0, Op.wpOfShared 0, Op.wpCopy 0, Op.spDtor 0, Op.wpReset 0,
          Op.spReset 1, Op.wpDtor 1]).map (fun w => w.view 0)
        = some (0, 1, [Hook.OnZeroShared, Hook.OnZeroWeak], 0, 0) :=
  ⟨_, rfl,
    capability_block_released_once (Op.spOfPtr 1)
      [Op.spCopy 0, Op.wpOfShared 0, Op.wpCopy 0, Op.spDtor 0, Op.wpReset 0, Op.spReset 1,
        Op.wpDtor 1] _ (Or.inl ⟨1, rfl⟩) rfl (by decide),
    rfl, rfl⟩

/-- Copy assignment `a = b` for a handle `b` that the assignment does not
destroy.  When `a` and `b` have the same control
block (also both none) the heap is unchanged and `a` keeps its block and
takes the pointer of `b`.  Otherwise the block of `a`, if any, goes through
`DecrementShared` exactly once, the block of `b`, if any, has its
`shared_count_` raised by exactly one, no other block changes, and `a` ends
with the pointer and block of `b`.  In a program the variable `b` holds the
same value after the assignment, also for `a = a`. -/
theorem copyAssign_effect (m : Mem) (a b : SharedPtr) :
    (a.control_block_ = b.control_block_ →
      SharedPtr.copyAssign m a b =
        (m, { ptr_ := b.ptr_, control_block_ := a.control_block_ })) ∧
    (a.control_block_ ≠ b.control_block_ →
      (SharedPtr.copyAssign m a b).2 = b ∧
      (∀ c, (SharedPtr.copyAssign m a b).1.blocks c =
        if a.control_block_ = some c then (m.blocks c).decShared
        else if b.control_block_ = some c then
          { m.blocks c with shared_count_ := (m.blocks c).shared_count_ + 1 }
        else m.blocks c) ∧
      (∀ c, ((SharedPtr.copyAssign m a b).1.blocks c).shared_count_ =
        (m.blocks c).shared_count_ - ind c a.control_block_ + ind c b.control_block_) ∧
      (∀ c, ((SharedPtr.copyAssign m a b).1.blocks c).weak_count_ = (m.blocks c).weak_count_)) ∧
    (∀ (esft : Bool) (w : World) (i j : Nat), w.mem = m → w.getS i = some a →
      w.getS j = some b →
      ∃ w1, step esft w (Op.spCopyAssign i j) = some w1 ∧ w1.getS j = some b ∧
        w1.getS i = some (SharedPtr.copyAssign m a b).2 ∧
        w1.mem = (SharedPtr.copyAssign m a b).1) := by
  refine ⟨?_, ?_, ?_⟩
  · intro h
    simp [SharedPtr.copyAssign, h]
  · intro h
    have hb : ∀ c, (SharedPtr.copyAssign m a b).1.blocks c =
        if a.control_block_ = some c then (m.blocks c).decShared
        else if b.control_block_ = some c then
          { m.blocks c with shared_count_ := (m.blocks c).shared_count_ + 1 }
        else m.blocks c := by
      intro c
      simp only [SharedPtr.copyAssign, h, if_false, blocks_ifBlock_inc, blocks_ifBlock_dec]
      by_cases h1 : a.control_block_ = some c
      · have h2 : ¬ b.control_block_ = some c := fun e => h (h1.trans e.symm)
        simp [h1, h2]
      · simp [h1]
    refine ⟨by simp [SharedPtr.copyAssign, h], hb, fun c => ?_, fun c => ?_⟩
    · have := sc_copyAssign m a b c
      simpa [Mem.sc] using this
    · rw [hb c]
      split_ifs <;> simp [ControlBlock.decShared]
  · intro esft w i j hm hi hj
    subst hm
    refine ⟨_, by simp only [step, hi, hj]; rfl, ?_, ?_, rfl⟩
    · by_cases hij : i = j
      · subst hij
        have hab : a = b := same_slot hi hj rfl
        subst hab
        apply getS_of_get
        simp only [SharedPtr.copyAssign, if_true]
        exact get?_set_self _ _ _ _ (getS_get hi)
      · apply getS_of_get
        show (w.sp.set i _).get? j = _
        rw [get?_set_other _ _ _ _ hij]
        exact getS_get hj
    · apply getS_of_get
      exact get?_set_self _ _ _ _ (getS_get hi)

/-- C12: in every state a program can reach, move construction from a live
`SharedPtr` variable `s` (empty or not) yields a handle with the pointer and
control block `s` had and leaves `s` empty; every control block, with its
counters and its hook log, and every object is as before, so neither
`OnZeroShared` nor `OnZeroWeak` ran; the block of `s`, if any, has
`shared_count_ ≥ 1`, the case `shared_count_ = 1` included. -/
theorem C12_move_construction (esft : Bool) (ops : List Op) (w : World)
    (hrun : run esft {} ops = some w) (i : Nat) (s : SharedPtr) (hs : w.getS i = some s) :
    (SharedPtr.moveCtor w.mem s).2.1 = s ∧
    (SharedPtr.moveCtor w.mem s).2.2 = { ptr_ := 0, control_block_ := none } ∧
    (SharedPtr.moveCtor w.mem s).1.blocks = w.mem.blocks ∧
    (SharedPtr.moveCtor w.mem s).1.objects = w.mem.objects ∧
    (∀ b, s.control_block_ = some b → 1 ≤ (w.mem.blocks b).shared_count_) ∧
    ∃ w1, step esft w (Op.spMove i) = some w1 ∧ w1.getS i = some {} ∧
      w1.getS w.sp.length = some s ∧ w1.mem.blocks = w.mem.blocks := by
  obtain ⟨hW, hC, _⟩ := run_counted esft ops {} w empty_WF empty_Counted hrun
  have hpre : ∀ b, s.control_block_ = some b → 1 ≤ (w.mem.blocks b).shared_count_ :=
    fun b hb => pre_of hW hC hs b hb
  have hne : ∀ b, s.control_block_ = some b → (w.mem.blocks b).shared_count_ ≠ 0 := by
    intro b hb
    have := hpre b hb
    omega
  have hf := moveCtor_frame w.mem s hne
  refine ⟨rfl, rfl, hf.1, hf.2, hpre, _, by simp only [step, hs]; rfl, ?_, ?_, hf.1⟩
  · apply getS_of_get
    show ((w.sp.set i _) ++ [_]).get? i = _
    have hlt : i < (w.sp.set i (some (SharedPtr.moveCtor w.mem s).2.2)).length := by
      rw [List.length_set]
      exact (List.get?_eq_some.1 (getS_get hs)).1
    rw [List.get?_eq_getElem?, List.getElem?_append_left hlt, ← List.get?_eq_getElem?]
    exact get?_set_self _ _ _ _ (getS_get hs)
  · apply getS_of_get
    show ((w.sp.set i _) ++ [_]).get? w.sp.length = _
    have hl : (w.sp.set i (some (SharedPtr.moveCtor w.mem s).2.2)).length = w.sp.length :=
      List.length_set _ _ _
    rw [← hl]
    simp only [List.get?_eq_getElem?, List.getElem?_concat_length]
    rfl

/-- Witness of C12: `a(new T)` is the only owner (`shared_count_ = 1`); after
`b(std::move(a))` the count is `1`, no hook has run, `a` is empty and `b` has
the pointer and the block. -/
theorem C12_witness :
    ∃ w, run false {} [Op.spOfPtr 1] = some w ∧ w.getS 0 = some { ptr_ := 1, control_block_ := some 0 } ∧
      (w.mem.blocks 0).shared_count_ = 1 ∧
      ((SharedPtr.moveCtor w.mem { ptr_ := 1, control_block_ := some 0 }).1.blocks = w.mem.blocks) ∧
      (run false {} [Op.spOfPtr 1, Op.spMove 0]).map (fun v => (v.view 0, v.getS 0, v.getS 1))
        = some ((1, 0, [], 1, 0), some {}, some { ptr_ := 1, control_block_ := some 0 }) :=
  ⟨_, rfl, rfl, rfl,
    (C12_move_construction false [Op.spOfPtr 1] _ rfl 0 { ptr_ := 1, control_block_ := some 0 }
      rfl).2.2.1, rfl⟩

/-- C13, the code at the failing input: `SharedPtr<T> a(new T)` and an empty
handle `e` of a convertible type.  The same-type move assignment
`a = std::move(e)` releases the block of `a` and leaves both handles empty.
The converting move assignment decrements the block of `a` and then calls
`IncrementShared()` through the null block pointer of `e`: it is not
defined. -/
theorem C13_converting_move_assign_from_empty_source :
    (run false {} [Op.spOfPtr 1, Op.spDefault, Op.spMoveAssign 0 1]).map
        (fun w => (w.view 0, w.getS 0, w.getS 1))
      = some ((0, 0, [Hook.OnZeroShared, Hook.OnZeroWeak], 0, 0), some {}, some {}) ∧
    (run false {} [Op.spOfPtr 1, Op.spDefault]).map (fun w => (w.view 0, w.getS 0, w.getS 1))
      = some ((1, 0, [], 1, 0), some { ptr_ := 1, control_block_ := some 0 }, some {}) ∧
    (run false {} [Op.spOfPtr 1, Op.spDefault, Op.spMoveAssignU 0 1]).isSome = false ∧
    (SharedPtr.moveAssignU ({} : Mem) { ptr_ := 1, control_block_ := some 0 } {}).isSome = false ∧
    (SharedPtr.moveAssignU ({} : Mem) {} {}).isSome = true := by
  refine ⟨?_, ?_, ?_, ?_, ?_⟩ <;> rfl

/-- For a block whose managed type does not derive from
`EnableSharedFromThisBase` and has no handle member, `DecrementShared` (the
base-class body, both
overrides and the virtual call) leaves `shared_count_ - 1`, the same
`weak_count_`, and invokes `OnZeroShared` exactly when the new shared count is
zero and then `OnZeroWeak` exactly when both counters are zero;
`DecrementWeak` leaves `weak_count_ - 1`, the same `shared_count_`, invokes
`OnZeroWeak` exactly when both counters are zero and never `OnZeroShared`. -/
theorem decrement_hooks_without_handle_members (m : Mem) (b : Nat)
    (hT : (m.blocks b).esft = false) :
    ((ControlBlock.DecrementShared m b).blocks b).obs = specDecrementShared (m.blocks b) ∧
    ((PointerControlBlock.DecrementShared m b).blocks b).obs = specDecrementShared (m.blocks b) ∧
    ((EmplaceControlBlock.DecrementShared m b).blocks b).obs = specDecrementShared (m.blocks b) ∧
    ((DecrementShared m b).blocks b).obs = specDecrementShared (m.blocks b) ∧
    ((ControlBlock.DecrementWeak m b).blocks b).obs = specDecrementWeak (m.blocks b) ∧
    ((PointerControlBlock.DecrementWeak m b).blocks b).obs = specDecrementWeak (m.blocks b) ∧
    ((EmplaceControlBlock.DecrementWeak m b).blocks b).obs = specDecrementWeak (m.blocks b) ∧
    ((DecrementWeak m b).blocks b).obs = specDecrementWeak (m.blocks b) := by
  rcases hc : m.blocks b with ⟨s, wk, k, e, p, l⟩
  rw [hc] at hT
  simp only at hT
  subst hT
  refine ⟨?_, ?_, ?_, ?_, ?_, ?_, ?_, ?_⟩
  · unfold ControlBlock.DecrementShared OnZeroShared ControlBlock.obs specDecrementShared
    cases k <;> by_cases h1 : s - 1 = 0 <;> by_cases h2 : wk = 0 <;>
      simp [hc, h1, h2, OnZeroWeak_blocks, PointerControlBlock_OnZeroShared_blocks,
        EmplaceControlBlock_OnZeroShared_blocks]
  · unfold PointerControlBlock.DecrementShared ControlBlock.obs specDecrementShared
    by_cases h1 : s - 1 = 0 <;> by_cases h2 : wk = 0 <;>
      simp [hc, h1, h2, OnZeroWeak_blocks, PointerControlBlock_OnZeroShared_blocks]
  · unfold EmplaceControlBlock.DecrementShared ControlBlock.obs specDecrementShared
    by_cases h1 : s - 1 = 0 <;> by_cases h2 : wk = 0 <;>
      simp [hc, h1, h2, OnZeroWeak_blocks, EmplaceControlBlock_OnZeroShared_blocks]
  · rw [DecrementShared_blocks]
    unfold ControlBlock.decShared ControlBlock.obs specDecrementShared
    by_cases h1 : s - 1 = 0 <;> by_cases h2 : wk = 0 <;> simp [hc, h1, h2]
  · unfold ControlBlock.DecrementWeak ControlBlock.obs specDecrementWeak
    by_cases h1 : wk - 1 = 0 <;> by_cases h2 : s = 0 <;>
      simp [hc, h1, h2, OnZeroWeak_blocks]
  · unfold PointerControlBlock.DecrementWeak ControlBlock.obs specDecrementWeak
    by_cases h1 : wk - 1 = 0 <;> by_cases h2 : s = 0 <;>
      simp [hc, h1, h2, OnZeroWeak_blocks]
  · unfold EmplaceControlBlock.DecrementWeak ControlBlock.obs specDecrementWeak
    by_cases h1 : wk - 1 = 0 <;> by_cases h2 : s = 0 <;>
      simp [hc, h1, h2, OnZeroWeak_blocks]
  · rw [DecrementWeak_blocks]
    unfold ControlBlock.decWeak ControlBlock.obs specDecrementWeak
    by_cases h1 : wk - 1 = 0 <;> by_cases h2 : s = 0 <;> simp [hc, h1, h2]

/-- An instance: a fresh block of a type without the capability
(`shared_count_ = 1`, `weak_count_ = 0`); the last `DecrementShared` invokes
`OnZeroShared`, then `OnZeroWeak`. -/
theorem decrement_hooks_example :
    (({} : Mem).blocks 0).esft = false ∧
      ((PointerControlBlock.DecrementShared {} 0).blocks 0).obs
        = (0, 0, [Hook.OnZeroShared, Hook.OnZeroWeak]) :=
  ⟨rfl, (decrement_hooks_without_handle_members {} 0 rfl).2.1.trans rfl⟩

/-- C17: `u.Reset(p)` on a handle holding `q` invokes the deleter of `u`
exactly once, on `q`, and on no other pointer; afterwards `u.Get() == p`, the
deleter of `u` and every other handle are as before.  `u.Reset()` and
`u = nullptr` are `u.Reset(nullptr)` and leave `u` empty. -/
theorem C17_Reset_releases_previous_pointer_once (D : Type) (s : UMem D) (u p : Nat) :
    (UniquePtr.Reset s u p).calls = s.calls ++ [(UniquePtr.GetDeleter s u, UniquePtr.Get s u)] ∧
    UniquePtr.Get (UniquePtr.Reset s u p) u = p ∧
    UniquePtr.GetDeleter (UniquePtr.Reset s u p) u = UniquePtr.GetDeleter s u ∧
    (∀ v, v ≠ u → (UniquePtr.Reset s u p).handles v = s.handles v) ∧
    UniquePtr.Get (UniquePtr.Reset s u 0) u = 0 ∧
    UniquePtr.toBool (UniquePtr.Reset s u 0) u = false ∧
    UniquePtr.assignNull s u = UniquePtr.Reset s u 0 ∧
    (UniquePtr.Reset (UniquePtr.ctor (UMem.init 7) 1 5 8) 1 6).calls = [(8, 5)] ∧
    (UniquePtr.Reset (UniquePtr.ctor (UMem.init 7) 1 5 8) 1 0).calls = [(8, 5)] ∧
    (UniquePtr.Reset (UMem.init 7) 1 6).calls = [(7, 0)] := by
  refine ⟨?_, ?_, ?_, ?_, ?_, ?_, rfl, rfl, rfl, rfl⟩
  · simp [UniquePtr.Reset, UniquePtr.Get, UniquePtr.GetDeleter, UMem.invoke, UMem.setPtr]
  · simp [UniquePtr.Reset, UniquePtr.Get, UMem.invoke, UMem.setPtr]
  · simp [UniquePtr.Reset, UniquePtr.GetDeleter, UMem.invoke, UMem.setPtr]
  · intro v hv
    simp [UniquePtr.Reset, UMem.invoke, UMem.setPtr, Function.update_noteq hv]
  · simp [UniquePtr.Reset, UniquePtr.Get, UMem.invoke, UMem.setPtr]
  · simp [UniquePtr.Reset, UniquePtr.toBool, UMem.invoke, UMem.setPtr]

/-- C18, amended: for two distinct handles `a` (holding `q`) and `b` (holding
`r`), `a = std::move(b)` invokes a deleter exactly once, the previous deleter
of `a` on `q`; it leaves `a` holding `r` with the deleter of `b`, `b` empty
and every other handle as it was.  When `q ≠ r` no deleter is invoked on `r`.
When `r` is not null and `b` was its only holder, `a` is its only holder
afterwards.  Assigning a handle to itself changes nothing. -/
theorem C18_move_assignment_releases_previous_pointer (D : Type) (s : UMem D) (a b : Nat)
    (hab : a ≠ b) :
    (UniquePtr.moveAssign s a b).calls
      = s.calls ++ [(UniquePtr.GetDeleter s a, UniquePtr.Get s a)] ∧
    UniquePtr.Get (UniquePtr.moveAssign s a b) a = UniquePtr.Get s b ∧
    UniquePtr.Get (UniquePtr.moveAssign s a b) b = 0 ∧
    UniquePtr.GetDeleter (UniquePtr.moveAssign s a b) a = UniquePtr.GetDeleter s b ∧
    (∀ v, v ≠ a → v ≠ b → (UniquePtr.moveAssign s a b).handles v = s.handles v) ∧
    (UniquePtr.Get s a ≠ UniquePtr.Get s b →
      ∀ e ∈ (UniquePtr.moveAssign s a b).calls.drop s.calls.length, e.2 ≠ UniquePtr.Get s b) ∧
    (UniquePtr.Get s b ≠ 0 → (∀ v, UniquePtr.Get s v = UniquePtr.Get s b ↔ v = b) →
      ∀ v, UniquePtr.Get (UniquePtr.moveAssign s a b) v = UniquePtr.Get s b ↔ v = a) ∧
    UniquePtr.moveAssign s a a = s := by
  have hba : b ≠ a := fun h => hab h.symm
  obtain ⟨hc, hh⟩ := moveAssign_effect s a b hab
  refine ⟨hc, ?_, ?_, ?_, ?_, ?_, ?_, ?_⟩
  · simp [UniquePtr.Get, hh]
  · simp [UniquePtr.Get, hh, Function.update_noteq hba]
  · simp [UniquePtr.GetDeleter, hh]
  · intro v hva hvb
    simp [hh, Function.update_noteq hva, Function.update_noteq hvb]
  · intro hqr e he
    rw [hc, List.drop_left] at he
    simp only [List.mem_singleton] at he
    subst he
    exact hqr
  · intro hr honly v
    by_cases hva : v = a
    · subst hva
      simp [UniquePtr.Get, hh]
    · by_cases hvb : v = b
      · subst hvb
        simp only [UniquePtr.Get, hh, Function.update_noteq hva, Function.update_same]
        constructor
        · intro h
          exact absurd h.symm hr
        · intro h
          exact absurd h hva
      · have h1 : UniquePtr.Get (UniquePtr.moveAssign s a b) v = UniquePtr.Get s v := by
          simp [UniquePtr.Get, hh, Function.update_noteq hva, Function.update_noteq hvb]
        rw [h1, honly v]
        simp [hva, hvb]
  · simp [UniquePtr.moveAssign]

/-- Witness of C18: `a` at address `1` holds `5` with deleter `10`, `b` at
address `2` holds `6` with deleter `11`; after `a = std::move(b)` the only
deleter invocation is `10` on `5`. -/
theorem C18_witness :
    (1 : Nat) ≠ 2 ∧
      (UniquePtr.moveAssign (UniquePtr.ctor (UniquePtr.ctor (UMem.init 0) 1 5 10) 2 6 11) 1 2).calls
        = [(10, 5)] ∧
      UniquePtr.Get
        (UniquePtr.moveAssign (UniquePtr.ctor (UniquePtr.ctor (UMem.init 0) 1 5 10) 2 6 11) 1 2) 1
        = 6 :=
  ⟨by decide,
    (C18_move_assignment_releases_previous_pointer Nat
      (UniquePtr.ctor (UniquePtr.ctor (UMem.init 0) 1 5 10) 2 6 11) 1 2 (by decide)).1.trans rfl,
    (C18_move_assignment_releases_previous_pointer Nat
      (UniquePtr.ctor (UniquePtr.ctor (UMem.init 0) 1 5 10) 2 6 11) 1 2 (by decide)).2.1.trans rfl⟩

/-- C18, the claim at `q = r`: two distinct empty handles with deleters `10`
and `11`.  `a = std::move(b)` invokes the deleter `10` on the null pointer,
which is the pointer `b` held.  Likewise when both hold the pointer `5`: the
deleter of `a` is invoked on `5` and `a` holds `5` afterwards. -/
theorem C18_deleter_receives_pointer_of_source :
    UniquePtr.Get (UniquePtr.ctor (UniquePtr.ctor (UMem.init 0) 1 0 10) 2 0 11) 1 = 0 ∧
    UniquePtr.Get (UniquePtr.ctor (UniquePtr.ctor (UMem.init 0) 1 0 10) 2 0 11) 2 = 0 ∧
    (UniquePtr.moveAssign (UniquePtr.ctor (UniquePtr.ctor (UMem.init 0) 1 0 10) 2 0 11) 1 2).calls
      = [(10, 0)] ∧
    UniquePtr.Get (UniquePtr.ctor (UniquePtr.ctor (UMem.init 0) 1 5 10) 2 5 11) 2 = 5 ∧
    (UniquePtr.moveAssign (UniquePtr.ctor (UniquePtr.ctor (UMem.init 0) 1 5 10) 2 5 11) 1 2).calls
      = [(10, 5)] ∧
    UniquePtr.Get
      (UniquePtr.moveAssign (UniquePtr.ctor (UniquePtr.ctor (UMem.init 0) 1 5 10) 2 5 11) 1 2) 1
      = 5 := by
  refine ⟨?_, ?_, ?_, ?_, ?_, ?_⟩ <;> rfl

/-- C16: `x == y` holds exactly when `x.Get() == y.Get()`, whatever the
control blocks: handles on different blocks with the same pointer are equal,
and an aliasing handle on the block of its origin with another pointer is not
equal to the origin.  The two concrete cases: `SharedPtr<T> a(p), b(p)` are
equal on blocks `0` and `1`; `SharedPtr<T> a(p); SharedPtr<U> c(a, q)` are
unequal on block `0`. -/
theorem C16_equality_compares_exposed_pointers (x y : SharedPtr) :
    (SharedPtr.eq x y = true ↔ x.Get = y.Get) ∧
    (x.ptr_ = y.ptr_ → x.control_block_ ≠ y.control_block_ → SharedPtr.eq x y = true) ∧
    (∀ (m : Mem) (p : Nat), p ≠ x.ptr_ →
      (SharedPtr.aliasCtor m x p).2.control_block_ = x.control_block_ ∧
      SharedPtr.eq (SharedPtr.aliasCtor m x p).2 x = false) ∧
    (run false {} [Op.spOfPtr 1, Op.spOfPtr 1]).map
        (fun w => (w.getS 0, w.getS 1, (w.getS 0).bind (fun a => (w.getS 1).map a.eq)))
      = some (some { ptr_ := 1, control_block_ := some 0 },
          some { ptr_ := 1, control_block_ := some 1 }, some true) ∧
    (run false {} [Op.spOfPtr 1, Op.spAlias 0 2]).map
        (fun w => (w.getS 0, w.getS 1, (w.getS 0).bind (fun a => (w.getS 1).map a.eq)))
      = some (some { ptr_ := 1, control_block_ := some 0 },
          some { ptr_ := 2, control_block_ := some 0 }, some false) := by
  refine ⟨?_, ?_, ?_, rfl, rfl⟩
  · simp [SharedPtr.eq]
  · intro h _
    simp [SharedPtr.eq, SharedPtr.Get, h]
  · intro m p hp
    simp [SharedPtr.aliasCtor, SharedPtr.eq, SharedPtr.Get, SharedPtr.GetControlBlock, hp]

/-- C19: every `WeakPtr` operation other than `Lock` (copy and move
construction, demotion from a `SharedPtr`, the three assignments, `Reset`,
the destructor, `Swap`) leaves, on every block and from every heap,
`shared_count_` and the number of `OnZeroShared` runs as they were, and
destroys no object. -/
theorem C19_weak_operations_leave_shared_count (m : Mem) (t o : WeakPtr) (s : SharedPtr) :
    m.sharedFrame (WeakPtr.copyCtor m o).1 ∧
    m.sharedFrame (WeakPtr.moveCtor m o).1 ∧
    m.sharedFrame (WeakPtr.ofSharedPtr m s).1 ∧
    m.sharedFrame (WeakPtr.copyAssign m t o).1 ∧
    m.sharedFrame (WeakPtr.assignShared m t s).1 ∧
    m.sharedFrame (WeakPtr.moveAssign m t o).1 ∧
    m.sharedFrame (WeakPtr.Reset m t).1 ∧
    m.sharedFrame (WeakPtr.dtor m t) ∧
    (∀ esft w i j w1, step esft w (Op.wpSwap i j) = some w1 → w1.mem = w.mem) := by
  refine ⟨⟨fun b => ⟨(weak_copyCtor_shared m o b).1, (weak_copyCtor_shared m o b).2.1⟩, ?_⟩,
    ⟨fun b => ⟨(weak_moveCtor_shared m o b).1, (weak_moveCtor_shared m o b).2.1⟩, ?_⟩,
    ⟨fun b => ⟨(weak_ofSharedPtr_shared m s b).1, (weak_ofSharedPtr_shared m s b).2.1⟩, ?_⟩,
    ⟨fun b => ⟨(weak_copyAssign_shared m t o b).1, (weak_copyAssign_shared m t o b).2.1⟩, ?_⟩,
    ⟨fun b => ⟨(weak_assignShared_shared m t s b).1, (weak_assignShared_shared m t s b).2.1⟩, ?_⟩,
    ⟨fun b => ⟨(weak_moveAssign_shared m t o b).1, (weak_moveAssign_shared m t o b).2.1⟩, ?_⟩,
    ⟨fun b => ⟨(weak_Reset_shared m t b).1, (weak_Reset_shared m t b).2.1⟩, ?_⟩,
    ⟨fun b => ⟨(weak_dtor_shared m t b).1, (weak_dtor_shared m t b).2.1⟩, ?_⟩, ?_⟩
  · simp [WeakPtr.copyCtor, objects_ifBlock_incW]
  · simp [WeakPtr.moveCtor, WeakPtr.Reset, objects_ifBlock_incW, objects_ifBlock_decW]
  · simp [WeakPtr.ofSharedPtr, objects_ifBlock_incW]
  · unfold WeakPtr.copyAssign
    split_ifs <;> simp [objects_ifBlock_incW, objects_ifBlock_decW]
  · unfold WeakPtr.assignShared
    split_ifs <;> simp [objects_ifBlock_incW, objects_ifBlock_decW]
  · unfold WeakPtr.moveAssign
    split_ifs <;> simp [objects_ifBlock_decW]
  · simp [WeakPtr.Reset, objects_ifBlock_decW]
  · simp [WeakPtr.dtor, objects_ifBlock_decW]
  · intro esft w i j w1 h
    simp only [step] at h
    cases hi : w.getW i <;> cases hj : w.getW j <;> simp only [hi, hj, Option.some.injEq] at h <;>
      subst h <;> rfl

/-- C15, the code at the failing input, for a type with the capability:
`SharedPtr<X> a(new X); SharedPtr<Y> c(a, q); WeakPtr<Y> w(c);` with `q` a
second capability object exposed through the block of `a`.  Before `Lock` the
block has `weak_count_ = 2`: the live handle `w` and the internal handle of
the first object.  `w.Lock()` runs `EnableSharedFromThisHelper(q)`, which
attaches the internal handle of `q` to the block as well: `weak_count_ = 3`
with one live `WeakPtr`, and the block is not freed.  After every handle is
released `weak_count_` stays `2`, `OnZeroWeak` has not run.  In the second
input `q` is owned by `SharedPtr<Y> b(q)` on block `1`: `Lock` moves the
internal handle of `q` from block `1` to block `0`, and block `1`, not freed,
is left with `weak_count_ = 0`. -/
theorem C15_Lock_attaches_internal_handle_again :
    (run true {} [Op.spOfPtr 1, Op.spAlias 0 2, Op.wpOfShared 1]).map
        (fun w => (w.view 0, w.wp, (w.mem.objects 1).self, (w.mem.objects 2).self))
      = some ((2, 2, [], 2, 1), [some { ptr_ := 2, control_block_ := some 0 }],
          { ptr_ := 1, control_block_ := some 0 }, { ptr_ := 0, control_block_ := none }) ∧
    (run true {} [Op.spOfPtr 1, Op.spAlias 0 2, Op.wpOfShared 1, Op.wpLock 0]).map
        (fun w => (w.view 0, w.wp, (w.mem.objects 1).self, (w.mem.objects 2).self))
      = some ((3, 3, [], 3, 1), [some { ptr_ := 2, control_block_ := some 0 }],
          { ptr_ := 1, control_block_ := some 0 }, { ptr_ := 2, control_block_ := some 0 }) ∧
    (run true {} [Op.spOfPtr 1, Op.spAlias 0 2, Op.wpOfShared 1, Op.wpLock 0, Op.spDtor 2,
        Op.spDtor 1, Op.spDtor 0, Op.wpDtor 0]).map (fun w => (w.view 0, w.sp, w.wp))
      = some ((0, 2, [Hook.OnZeroShared], 0, 0), [none, none, none], [none]) ∧
    (run true {} [Op.spOfPtr 1, Op.spOfPtr 2, Op.spAlias 0 2, Op.wpOfShared 2]).map
        (fun w => (w.view 0, w.view 1, (w.mem.objects 2).self))
      = some ((2, 2, [], 2, 1), (1, 1, [], 1, 0), { ptr_ := 2, control_block_ := some 1 }) ∧
    (run true {} [Op.spOfPtr 1, Op.spOfPtr 2, Op.spAlias 0 2, Op.wpOfShared 2, Op.wpLock 0]).map
        (fun w => (w.view 0, w.view 1, (w.mem.objects 2).self))
      = some ((3, 3, [], 3, 1), (1, 0, [], 1, 0), { ptr_ := 2, control_block_ := some 0 }) := by
  refine ⟨?_, ?_, ?_, ?_, ?_⟩ <;> rfl

/-- C21: `u.Release()` on a handle holding `q` returns `q` and leaves `u`
holding null; no deleter is invoked, the deleter of `u` and every other handle
are as before.  A second `Release()` returns null, again without a deleter
invocation.  The concrete case: `UniquePtr<T, D> u(5, d)` releases `5`, then
null, and the record of deleter invocations stays empty. -/
theorem C21_Release_returns_pointer_without_deleter (D : Type) (s : UMem D) (u : Nat) :
    (UniquePtr.Release s u).2 = UniquePtr.Get s u ∧
    UniquePtr.Get (UniquePtr.Release s u).1 u = 0 ∧
    UniquePtr.toBool (UniquePtr.Release s u).1 u = false ∧
    (UniquePtr.Release s u).1.calls = s.calls ∧
    UniquePtr.GetDeleter (UniquePtr.Release s u).1 u = UniquePtr.GetDeleter s u ∧
    (∀ v, v ≠ u → (UniquePtr.Release s u).1.handles v = s.handles v) ∧
    (UniquePtr.Release (UniquePtr.Release s u).1 u).2 = 0 ∧
    (UniquePtr.Release (UniquePtr.Release s u).1 u).1.calls = s.calls ∧
    UniquePtr.Get (UniquePtr.Release (UniquePtr.Release s u).1 u).1 u = 0 ∧
    (UniquePtr.Release (UniquePtr.ctor (UMem.init 7) 1 5 8) 1).2 = 5 ∧
    (UniquePtr.Release (UniquePtr.Release (UniquePtr.ctor (UMem.init 7) 1 5 8) 1).1 1).2 = 0 ∧
    (UniquePtr.Release (UniquePtr.Release (UniquePtr.ctor (UMem.init 7) 1 5 8) 1).1 1).1.calls
      = [] := by
  refine ⟨rfl, ?_, ?_, rfl, ?_, ?_, ?_, rfl, ?_, rfl, rfl, rfl⟩
  · simp [UniquePtr.Release, UniquePtr.Get, UMem.setPtr]
  · simp [UniquePtr.Release, UniquePtr.toBool, UMem.setPtr]
  · simp [UniquePtr.Release, UniquePtr.GetDeleter, UMem.setPtr]
  · intro v hv
    simp [UniquePtr.Release, UMem.setPtr, Function.update_noteq hv]
  · simp [UniquePtr.Release, UMem.setPtr]
  · simp [UniquePtr.Release, UniquePtr.Get, UMem.setPtr]

/-- C22: `a.Swap(b)` exchanges the pointers held by `a` and `b` (also for
`a.Swap(a)`), invokes no deleter, leaves the deleter of `a` with `a` and the
deleter of `b` with `b`, and leaves every other handle as it was; a second
`a.Swap(b)`, or `b.Swap(a)`, restores the whole store.  The concrete case:
`a(5, d10)`, `b(6, d11)` become `a(6, d10)`, `b(5, d11)`. -/
theorem C22_Swap_exchanges_pointers_only (D : Type) (s : UMem D) (a b : Nat) :
    UniquePtr.Get (UniquePtr.Swap s a b) a = UniquePtr.Get s b ∧
    UniquePtr.Get (UniquePtr.Swap s a b) b = UniquePtr.Get s a ∧
    (UniquePtr.Swap s a b).calls = s.calls ∧
    UniquePtr.GetDeleter (UniquePtr.Swap s a b) a = UniquePtr.GetDeleter s a ∧
    UniquePtr.GetDeleter (UniquePtr.Swap s a b) b = UniquePtr.GetDeleter s b ∧
    (∀ v, v ≠ a → v ≠ b → (UniquePtr.Swap s a b).handles v = s.handles v) ∧
    UniquePtr.Swap (UniquePtr.Swap s a b) a b = s ∧
    UniquePtr.Swap (UniquePtr.Swap s a b) b a = s ∧
    (UniquePtr.Get (UniquePtr.Swap (UniquePtr.ctor (UniquePtr.ctor (UMem.init 0) 1 5 10) 2 6 11) 1 2) 1,
      UniquePtr.GetDeleter
        (UniquePtr.Swap (UniquePtr.ctor (UniquePtr.ctor (UMem.init 0) 1 5 10) 2 6 11) 1 2) 1,
      UniquePtr.Get (UniquePtr.Swap (UniquePtr.ctor (UniquePtr.ctor (UMem.init 0) 1 5 10) 2 6 11) 1 2) 2,
      UniquePtr.GetDeleter
        (UniquePtr.Swap (UniquePtr.ctor (UniquePtr.ctor (UMem.init 0) 1 5 10) 2 6 11) 1 2) 2,
      (UniquePtr.Swap (UniquePtr.ctor (UniquePtr.ctor (UMem.init 0) 1 5 10) 2 6 11) 1 2).calls)
      = (6, 10, 5, 11, []) := by
  have hh := Swap_handles s a b
  refine ⟨?_, ?_, rfl, ?_, ?_, ?_, (Swap_Swap s a b).1, (Swap_Swap s a b).2, rfl⟩
  · by_cases h : a = b
    · subst h; simp [UniquePtr.Get, hh]
    · simp [UniquePtr.Get, hh, Function.update_noteq h]
  · simp [UniquePtr.Get, hh]
  · by_cases h : a = b
    · subst h; simp [UniquePtr.GetDeleter, hh]
    · simp [UniquePtr.GetDeleter, hh, Function.update_noteq h]
  · simp [UniquePtr.GetDeleter, hh]
  · intro v hva hvb
    simp [hh, Function.update_noteq hva, Function.update_noteq hvb]

/-- C14, the code at the failing input, for `struct T { WeakPtr<T> w; }`
without the capability.  `SharedPtr<T> p(new T); p->w = p;` leaves the block
with `shared_count_ = 1` and `weak_count_ = 1`.  `DecrementShared()` on it
(also as the destructor of `p`) sets `shared_count_ = 0` and invokes
`OnZeroShared`; `~T()` runs `~WeakPtr` on the member `w`, whose
`DecrementWeak()` finds both counters zero and invokes `OnZeroWeak`
(`delete this`) inside `OnZeroShared`; back in `DecrementShared` the test
`!weak_count_ && !shared_count_` reads the released block.  The same with
`MakeShared`, and with the weak handle in a child object owned by the object.
With the weak handle in a variable the same counters give
`shared_count_ = 0`, `weak_count_ = 1`, `OnZeroShared` only and a block that
is not released, which is `specDecrementShared`. -/
theorem C14_OnZeroWeak_inside_OnZeroShared :
    Graph.Exec.observe (Graph.observer false)
      = (none, (1, 1, [], false), (1, 0, [], false), { ptr_ := 1, control_block_ := some 0 },
          {}, false, false) ∧
    (∀ fuel, Graph.Exec.observe (Graph.observer false >>= fun m =>
        Graph.DecrementShared (fuel + 1) m 0)
      = (some (Graph.Stop.useAfterFree (Graph.Access.block 0)),
          (0, 0, [Hook.OnZeroShared, Hook.OnZeroWeak], true), (1, 0, [], false),
          { ptr_ := 1, control_block_ := some 0 }, {}, true, false)) ∧
    (∀ fuel, Graph.Exec.stop (Graph.observer false >>= fun m =>
        Graph.SharedPtr.dtor (fuel + 1) m (Graph.Place.var 0))
      = some (Graph.Stop.useAfterFree (Graph.Access.block 0))) ∧
    (∀ fuel, Graph.Exec.observe (Graph.observerEmplace false >>= fun m =>
        Graph.DecrementShared (fuel + 1) m 0)
      = (some (Graph.Stop.useAfterFree (Graph.Access.block 0)),
          (0, 0, [Hook.OnZeroShared, Hook.OnZeroWeak], true), (1, 0, [], false),
          { ptr_ := 1, control_block_ := some 0 }, {}, true, false)) ∧
    Graph.Exec.observe (Graph.family false)
      = (none, (1, 1, [], false), (1, 0, [], false), { ptr_ := 1, control_block_ := some 0 },
          { ptr_ := 2, control_block_ := some 1 }, false, false) ∧
    (∀ fuel, Graph.Exec.observe (Graph.family false >>= fun m =>
        Graph.DecrementShared (fuel + 2) m 0)
      = (some (Graph.Stop.useAfterFree (Graph.Access.block 0)),
          (0, 0, [Hook.OnZeroShared, Hook.OnZeroWeak], true),
          (0, 0, [Hook.OnZeroShared, Hook.OnZeroWeak], true),
          { ptr_ := 1, control_block_ := some 0 }, { ptr_ := 2, control_block_ := some 1 },
          true, true)) ∧
    Graph.Exec.observe (Graph.observed false)
      = (none, (1, 1, [], false), (1, 0, [], false), { ptr_ := 1, control_block_ := some 0 },
          { ptr_ := 1, control_block_ := some 0 }, false, false) ∧
    (∀ fuel, Graph.Exec.observe (Graph.observed false >>= fun m =>
        Graph.DecrementShared (fuel + 1) m 0)
      = (none, (0, 1, [Hook.OnZeroShared], false), (1, 0, [], false),
          { ptr_ := 1, control_block_ := some 0 }, { ptr_ := 1, control_block_ := some 0 },
          true, false)) ∧
    specDecrementShared { shared_count_ := 1, weak_count_ := 1 } = (0, 1, [Hook.OnZeroShared]) :=
  ⟨rfl, fun _ => rfl, fun _ => rfl, fun _ => rfl, rfl, fun _ => rfl, rfl, fun _ => rfl, rfl⟩

/-- C8, the code at the failing input, for
`struct T : EnableSharedFromThis<T> { WeakPtr<T> w; }`.  Right after
`SharedPtr<T> p(new T)` the block has `shared_count_ = 1` and
`weak_count_ = 1`; `p->w = p` is one external `WeakPtr` handle
(`weak_count_ = 2`).  The release of `p`, the last owner, invokes
`OnZeroShared`; `~T()` runs `~WeakPtr` on `w`, whose `DecrementWeak()` leaves
`weak_count_ = 1` with `shared_count_ = 0` and invokes `OnZeroWeak`
(`delete this`) inside `OnZeroShared`; back in `DecrementShared` the tests on
`weak_count_` read the released block.  With `MakeShared` the released block
holds the object, and `~EnableSharedFromThis` then writes `self` in released
storage.  The same with the weak handle in a child object owned by the
object.  With the weak handle in a variable the release of `p` leaves the
block unreleased and the release of the handle invokes `OnZeroWeak` once. -/
theorem C8_block_released_inside_OnZeroShared :
    Graph.Exec.observe (Graph.SharedPtr.ofPtr true
        (Graph.Heap.newObject {} true [Graph.HandleKind.weak]).1 (Graph.Place.var 0) 1)
      = (none, (1, 1, [], false), (1, 0, [], false), { ptr_ := 1, control_block_ := some 0 },
          {}, false, false) ∧
    Graph.Exec.observe (Graph.observer true)
      = (none, (1, 2, [], false), (1, 0, [], false), { ptr_ := 1, control_block_ := some 0 },
          {}, false, false) ∧
    (∀ fuel, Graph.Exec.observe (Graph.observer true >>= fun m =>
        Graph.SharedPtr.dtor (fuel + 1) m (Graph.Place.var 0))
      = (some (Graph.Stop.useAfterFree (Graph.Access.block 0)),
          (0, 1, [Hook.OnZeroShared, Hook.OnZeroWeak], true), (1, 0, [], false),
          { ptr_ := 1, control_block_ := some 0 }, {}, true, false)) ∧
    Graph.Exec.observe (Graph.observerEmplace true)
      = (none, (1, 2, [], false), (1, 0, [], false), { ptr_ := 1, control_block_ := some 0 },
          {}, false, false) ∧
    (∀ fuel, Graph.Exec.observe (Graph.observerEmplace true >>= fun m =>
        Graph.SharedPtr.dtor (fuel + 1) m (Graph.Place.var 0))
      = (some (Graph.Stop.useAfterFree (Graph.Access.object 1)),
          (0, 1, [Hook.OnZeroShared, Hook.OnZeroWeak], true), (1, 0, [], false),
          { ptr_ := 1, control_block_ := some 0 }, {}, true, false)) ∧
    Graph.Exec.observe (Graph.family true)
      = (none, (1, 2, [], false), (1, 0, [], false), { ptr_ := 1, control_block_ := some 0 },
          { ptr_ := 2, control_block_ := some 1 }, false, false) ∧
    (∀ fuel, Graph.Exec.observe (Graph.family true >>= fun m =>
        Graph.SharedPtr.dtor (fuel + 2) m (Graph.Place.var 0))
      = (some (Graph.Stop.useAfterFree (Graph.Access.block 0)),
          (0, 1, [Hook.OnZeroShared, Hook.OnZeroWeak], true),
          (0, 0, [Hook.OnZeroShared, Hook.OnZeroWeak], true),
          { ptr_ := 1, control_block_ := some 0 }, { ptr_ := 2, control_block_ := some 1 },
          true, true)) ∧
    (∀ fuel, Graph.Exec.observe (Graph.observed true >>= fun m =>
        Graph.SharedPtr.dtor (fuel + 1) m (Graph.Place.var 0))
      = (none, (0, 2, [Hook.OnZeroShared], false), (1, 0, [], false),
          { ptr_ := 1, control_block_ := some 0 }, { ptr_ := 1, control_block_ := some 0 },
          true, false)) ∧
    (∀ fuel, Graph.Exec.observe (Graph.observed true >>= fun m =>
        Graph.SharedPtr.dtor (fuel + 1) m (Graph.Place.var 0) >>= fun m1 =>
        Graph.WeakPtr.dtor m1 (Graph.Place.var 1))
      = (none, (0, 1, [Hook.OnZeroShared, Hook.OnZeroWeak], true), (1, 0, [], false),
          { ptr_ := 1, control_block_ := some 0 }, { ptr_ := 1, control_block_ := some 0 },
          true, false)) :=
  ⟨rfl, rfl, fun _ => rfl, rfl, fun _ => rfl, rfl, fun _ => rfl, fun _ => rfl, fun _ => rfl⟩

/-- C11, the code at the failing input, for
`struct Node { SharedPtr<Node> next; }`:
`SharedPtr<Node> a(new Node); SharedPtr<Node> b(new Node); a->next = b; b.Reset();`
then `a = a->next`.  The handles are on different blocks, so the block of `a`
is decremented first: its count reaches `0`, the first node is destroyed and
with it the handle `a->next` that `other` refers to, which releases the
second node and its block.  The next statement, `ptr_ = other.ptr_`, reads a
member of the destroyed node.  The block of `b` was decremented and released,
not incremented, and `a` still holds the pointer to the destroyed first
node.  Without `b.Reset()` the second node survives under `b` (its block
goes from `2` to `1`) and the read of `other` is the same.  With `other` a
variable, `a = b` runs to its end and `a` has the pointer and block of `b`. -/
theorem C11_copy_assignment_reads_destroyed_source :
    Graph.Exec.observe Graph.twoNodes
      = (none, (1, 0, [], false), (2, 0, [], false), { ptr_ := 1, control_block_ := some 0 },
          { ptr_ := 2, control_block_ := some 1 }, false, false) ∧
    Graph.Exec.observe (Graph.twoNodes >>= fun m => Graph.SharedPtr.Reset 8 m (Graph.Place.var 1))
      = (none, (1, 0, [], false), (1, 0, [], false), { ptr_ := 1, control_block_ := some 0 },
          {}, false, false) ∧
    (∀ fuel, Graph.Exec.observe (Graph.twoNodes >>= fun m =>
        Graph.SharedPtr.Reset 8 m (Graph.Place.var 1) >>= fun m1 =>
        Graph.SharedPtr.copyAssign (fuel + 2) m1 (Graph.Place.var 0) (Graph.Place.member 1 0))
      = (some (Graph.Stop.useAfterFree (Graph.Access.object 1)),
          (0, 0, [Hook.OnZeroShared, Hook.OnZeroWeak], true),
          (0, 0, [Hook.OnZeroShared, Hook.OnZeroWeak], true),
          { ptr_ := 1, control_block_ := some 0 }, {}, true, true)) ∧
    (∀ fuel, Graph.Exec.observe (Graph.twoNodes >>= fun m =>
        Graph.SharedPtr.copyAssign (fuel + 2) m (Graph.Place.var 0) (Graph.Place.member 1 0))
      = (some (Graph.Stop.useAfterFree (Graph.Access.object 1)),
          (0, 0, [Hook.OnZeroShared, Hook.OnZeroWeak], true), (1, 0, [], false),
          { ptr_ := 1, control_block_ := some 0 }, { ptr_ := 2, control_block_ := some 1 },
          true, false)) ∧
    (∀ fuel, Graph.Exec.observe (Graph.twoNodes >>= fun m =>
        Graph.SharedPtr.copyAssign (fuel + 2) m (Graph.Place.var 0) (Graph.Place.var 1))
      = (none, (0, 0, [Hook.OnZeroShared, Hook.OnZeroWeak], true), (2, 0, [], false),
          { ptr_ := 2, control_block_ := some 1 }, { ptr_ := 2, control_block_ := some 1 },
          true, false)) :=
  ⟨rfl, rfl, fun _ => rfl, fun _ => rfl, fun _ => rfl⟩

/-- For a type with the capability, `SharedPtr<T> a(p)` with `p` not null and
`MakeShared<T>()` are defined in the empty world. -/
theorem capability_construction_defined :
    (∀ p, p ≠ 0 → ∃ w0, step true {} (Op.spOfPtr p) = some w0) ∧
    ∃ w0, step true {} Op.makeShared = some w0 := by
  constructor
  · intro p hp
    simp [step, SharedPtr.ofPtr, EnableSharedFromThisHelper, hp]
  · exact ⟨_, rfl⟩

/-- The statement of `capability_block_released_once` with the construction
proved to succeed: `SharedPtr<T> a(p)` for every non-null `p`, and
`MakeShared<T>()`. -/
theorem capability_block_released_once_from_construction (init : Op) (ops : List Op)
    (hinit : (∃ p, p ≠ 0 ∧ init = Op.spOfPtr p) ∨ init = Op.makeShared)
    (hops : ∀ op ∈ ops, op.isShareOrRelease = true) :
    ∃ w0, step true {} init = some w0 ∧
      ((w0.mem.blocks 0).shared_count_ = 1 ∧ (w0.mem.blocks 0).weak_count_ = 1 ∧
        (w0.mem.blocks 0).log = [] ∧ w0.liveShared 0 = 1 ∧ w0.liveWeak 0 = 0) ∧
      ∃ w, run true w0 ops = some w ∧
        (w.mem.blocks 0).shared_count_ = (w.liveShared 0 : Int) ∧
        (w.mem.blocks 0).weak_count_ = (w.liveWeak 0 : Int) + 1 ∧
        (w.mem.blocks 0).zeroWeak = if w.liveShared 0 = 0 ∧ w.liveWeak 0 = 0 then 1 else 0 := by
  have hd : ∃ w0, step true {} init = some w0 := by
    rcases hinit with ⟨p, hp, rfl⟩ | rfl
    · exact capability_construction_defined.1 p hp
    · exact capability_construction_defined.2
  obtain ⟨w0, h0⟩ := hd
  have hi : (∃ p, init = Op.spOfPtr p) ∨ init = Op.makeShared := by
    rcases hinit with ⟨p, _, rfl⟩ | rfl
    · exact Or.inl ⟨p, rfl⟩
    · exact Or.inr rfl
  exact ⟨w0, h0, capability_block_released_once init ops w0 hi h0 hops⟩

/-- An instance with `MakeShared`: `auto a = MakeShared<T>()`, a copy, a weak
handle; all released, the weak handle last. -/
theorem capability_block_released_once_makeShared :
    (run true {} [Op.makeShared]).map (fun w => w.view 0) = some (1, 1, [], 1, 0) ∧
    (run true {} [Op.makeShared, Op.spCopy 0, Op.wpOfShared 0, Op.spDtor 0, Op.spDtor 1]).map
        (fun w => w.view 0) = some (0, 2, [Hook.OnZeroShared], 0, 1) ∧
    (run true {} [Op.makeShared, Op.spCopy 0, Op.wpOfShared 0, Op.spDtor 0, Op.spDtor 1,
        Op.wpDtor 0]).map (fun w => w.view 0)
      = some (0, 1, [Hook.OnZeroShared, Hook.OnZeroWeak], 0, 0) :=
  ⟨rfl, rfl, rfl⟩

end SmartPointers
